import Mathlib

/-!
# S-expression core of libgcrypt (`src/sexp.c`)

A shallow embedding of the tagged byte-stream representation of S-expressions,
of the navigator (`gcry_sexp_length`, `gcry_sexp_nth`, `gcry_sexp_car`,
`gcry_sexp_cdr`, `gcry_sexp_nth_data`, `gcry_sexp_find_token`), of the
serializer `gcry_sexp_sprint` and of the scanner `sexp_sscan`, together with the
comparison `gcry_mpi_cmp` of `mpi/mpi-cmp.c`.

Conventions of the embedding.

* A tree (`GCRY_SEXP`) is `Option (List Nat)`: `none` is the null pointer and
  `some d` is the block `list->d`, one list entry per byte.
* A pointer into a block is a `Nat` index.  Reading or copying outside the block
  is undefined behaviour in C and is the outcome `Res.err Err.oobRead` here;
  writing outside an allocation is `Err.oobWrite`; `BUG ()` is `Err.bug`.
* `DATALEN` is `unsigned short`: 16 bits, stored with `memcpy` in host order.
  The embedding fixes little-endian order (low byte first).
* `int` counters (`level`, `number`, `length`) are `Int`; `size_t` values are `Nat`.
* Every C loop is a function recursing on a fuel argument; the callers pass
  the length of the block plus one, which is more than the number of
  iterations any loop can make before it leaves the block.
-/

namespace Libgcrypt

/-! ## Tags -/

abbrev ST_STOP : Nat := 0
abbrev ST_DATA : Nat := 1
abbrev ST_HINT : Nat := 2
abbrev ST_OPEN : Nat := 3
abbrev ST_CLOSE : Nat := 4

/-- Ways in which a run leaves defined behaviour (or runs out of fuel). -/
inductive Err where
  | oobRead
  | oobWrite
  | ub
  | bug
  | fuel
  deriving DecidableEq, Repr

/-- Outcome of running a piece of C code: a returned value or an `Err`. -/
inductive Res (α : Type) where
  | ok (a : α)
  | err (e : Err)
  deriving DecidableEq, Repr

/-- The effect of `memcpy (&n, p, sizeof n)` for a `DATALEN n`: two bytes at `p`. -/
def read16 (d : List Nat) (p : Nat) : Option Nat :=
  match d[p]?, d[p + 1]? with
  | some lo, some hi => some (lo + 256 * hi)
  | _, _ => none

/-- The bytes `memcpy (dst, d + head, n)` copies, when they all lie in the block. -/
def copy (d : List Nat) (head n : Nat) : Option (List Nat) :=
  if head + n ≤ d.length then some ((d.drop head).take n) else none

/-- Function `normalize`: the null tree for a block that starts with `ST_STOP` or with
`ST_OPEN ST_CLOSE`, the block itself otherwise. -/
def normalize (list : Option (List Nat)) : Res (Option (List Nat)) :=
  match list with
  | none => .ok none
  | some d =>
    match d[0]? with
    | none => .err .oobRead
    | some t0 =>
      if t0 = ST_STOP then .ok none
      else if t0 = ST_OPEN then
        match d[1]? with
        | none => .err .oobRead
        | some t1 => if t1 = ST_CLOSE then .ok none else .ok (some d)
      else .ok (some d)

/-! ## Navigator -/

/-- The `while` loop of `gcry_sexp_length`; `p` is the read pointer. -/
def lengthLoop (d : List Nat) : Nat → Nat → Int → Int → Res Int
  | 0, _, _, _ => .err .fuel
  | fuel + 1, p, length, level =>
    match d[p]? with
    | none => .err .oobRead
    | some type =>
      if type = ST_STOP then .ok length
      else
        -- p++
        let p := p + 1
        if type = ST_DATA then
          -- memcpy ( &n, ++p, sizeof n ); p += sizeof n + n; p--;
          match read16 d (p + 1) with
          | none => .err .oobRead
          | some n =>
            lengthLoop d fuel (p + 1 + 2 + n - 1) (if level = 0 then length + 1 else length) level
        else if type = ST_OPEN then
          lengthLoop d fuel p (if level = 0 then length + 1 else length) (level + 1)
        else if type = ST_CLOSE then
          lengthLoop d fuel p length (level - 1)
        else lengthLoop d fuel p length level

/-- Function `gcry_sexp_length`. -/
def gcry_sexp_length (list : Option (List Nat)) : Res Int :=
  match list with
  | none => .ok 0
  | some d => lengthLoop d (d.length + 1) 0 0 0

/-- The element-skipping `while ( number > 0 )` loop shared, word for word, by
`gcry_sexp_nth` (counter `number`) and `gcry_sexp_cdr` (counter `skip`).
`some p` is the pointer when the loop ends, `none` the `return NULL` on `ST_STOP`. -/
def skipLoop (d : List Nat) : Nat → Nat → Int → Int → Res (Option Nat)
  | 0, _, _, _ => .err .fuel
  | fuel + 1, p, number, level =>
    if number > 0 then
      let p := p + 1
      match d[p]? with
      | none => .err .oobRead
      | some t =>
        if t = ST_DATA then
          -- memcpy ( &n, ++p, sizeof n ); p += sizeof n + n; p--;
          match read16 d (p + 1) with
          | none => .err .oobRead
          | some n =>
            skipLoop d fuel (p + 1 + 2 + n - 1) (if level = 0 then number - 1 else number) level
        else if t = ST_OPEN then skipLoop d fuel p number (level + 1)
        else if t = ST_CLOSE then
          skipLoop d fuel p (if level - 1 = 0 then number - 1 else number) (level - 1)
        else if t = ST_STOP then .ok none
        else skipLoop d fuel p number level
    else .ok (some p)

/-- The `do ... while ( level )` loop of `gcry_sexp_nth` that looks for the end of a
sub-list; returns the pointer to the closing tag. -/
def nthEndLoop (d : List Nat) : Nat → Nat → Int → Res Nat
  | 0, _, _ => .err .fuel
  | fuel + 1, p, level =>
    let p := p + 1
    match d[p]? with
    | none => .err .oobRead
    | some t =>
      if t = ST_DATA then
        match read16 d (p + 1) with
        | none => .err .oobRead
        | some n =>
          if level ≠ 0 then nthEndLoop d fuel (p + 1 + 2 + n - 1) level
          else .ok (p + 1 + 2 + n - 1)
      else if t = ST_OPEN then
        if level + 1 ≠ 0 then nthEndLoop d fuel p (level + 1) else .ok p
      else if t = ST_CLOSE then
        if level - 1 ≠ 0 then nthEndLoop d fuel p (level - 1) else .ok p
      else if t = ST_STOP then .err .bug
      else if level ≠ 0 then nthEndLoop d fuel p level else .ok p

/-- Function `gcry_sexp_nth`. -/
def gcry_sexp_nth (list : Option (List Nat)) (number : Int) : Res (Option (List Nat)) :=
  match list with
  | none => .ok none
  | some d =>
    match d[0]? with
    | none => .err .oobRead
    | some t0 =>
      if t0 ≠ ST_OPEN then .ok none
      else
        match skipLoop d (d.length + 1) 0 number 0 with
        | .err e => .err e
        | .ok none => .ok none
        | .ok (some p) =>
          let p := p + 1
          match d[p]? with
          | none => .err .oobRead
          | some t =>
            if t = ST_DATA then
              -- memcpy ( &n, p, sizeof n ); p += sizeof n;   (p is still on the tag)
              match read16 d p with
              | none => .err .oobRead
              | some n =>
                match copy d (p + 2) n with
                | none => .err .oobRead
                | some bytes => normalize (some (bytes ++ [ST_STOP]))
            else if t = ST_OPEN then
              match nthEndLoop d (d.length + 1) p 1 with
              | .err e => .err e
              | .ok q =>
                -- n = p + 1 - head;  with DATALEN n
                match copy d p ((q + 1 - p) % 65536) with
                | none => .err .oobRead
                | some bytes => normalize (some (bytes ++ [ST_STOP]))
            else normalize none

/-- Function `gcry_sexp_car`. -/
def gcry_sexp_car (list : Option (List Nat)) : Res (Option (List Nat)) :=
  gcry_sexp_nth list 0

/-- The `do ... while ( level )` loop of `gcry_sexp_cdr`; `some p` is the pointer after
the loop, `none` the `return NULL` on `ST_STOP`. -/
def cdrEndLoop (d : List Nat) : Nat → Nat → Int → Res (Option Nat)
  | 0, _, _ => .err .fuel
  | fuel + 1, p, level =>
    match d[p]? with
    | none => .err .oobRead
    | some t =>
      if t = ST_DATA then
        match read16 d (p + 1) with
        | none => .err .oobRead
        | some n =>
          if level ≠ 0 then cdrEndLoop d fuel (p + 1 + 2 + n - 1 + 1) level
          else .ok (some (p + 1 + 2 + n - 1 + 1))
      else if t = ST_OPEN then
        if level + 1 ≠ 0 then cdrEndLoop d fuel (p + 1) (level + 1) else .ok (some (p + 1))
      else if t = ST_CLOSE then
        if level - 1 ≠ 0 then cdrEndLoop d fuel (p + 1) (level - 1) else .ok (some (p + 1))
      else if t = ST_STOP then .ok none
      else if level ≠ 0 then cdrEndLoop d fuel (p + 1) level else .ok (some (p + 1))

/-- Function `gcry_sexp_cdr`. -/
def gcry_sexp_cdr (list : Option (List Nat)) : Res (Option (List Nat)) :=
  match list with
  | none => .ok none
  | some d =>
    match d[0]? with
    | none => .err .oobRead
    | some t0 =>
      if t0 ≠ ST_OPEN then .ok none
      else
        match skipLoop d (d.length + 1) 0 1 0 with
        | .err e => .err e
        | .ok none => .ok none
        | .ok (some p) =>
          let head := p + 1
          match cdrEndLoop d (d.length + 1) head 0 with
          | .err e => .err e
          | .ok none => .ok none
          | .ok (some q) =>
            -- n = p - head;  with DATALEN n
            match copy d head ((q - head) % 65536) with
            | none => .err .oobRead
            | some bytes => normalize (some (ST_OPEN :: (bytes ++ [ST_CLOSE, ST_STOP])))

/-- Function `gcry_sexp_cadr`. -/
def gcry_sexp_cadr (list : Option (List Nat)) : Res (Option (List Nat)) :=
  match gcry_sexp_cdr list with
  | .err e => .err e
  | .ok a => gcry_sexp_car a

/-- The C library's `strlen` on the token argument: the bytes before the first NUL
(`tok` lists the bytes of the argument, a terminator following them). -/
def strlen (tok : List Nat) : Nat := (tok.takeWhile (fun c => c ≠ 0)).length

/-- The test `!memcmp ( p, tok, toklen )`; `none` when one of the two ranges is not
wholly readable. -/
def memcmpEq (d : List Nat) (p : Nat) (tok : List Nat) (toklen : Nat) : Option Bool :=
  if p + toklen ≤ d.length ∧ toklen ≤ tok.length then
    some (decide ((d.drop p).take toklen = tok.take toklen))
  else none

/-- The `for ( p += n; level; p++ )` loop of `gcry_sexp_find_token` that looks for the end
of the list; returns the pointer after the loop. -/
def findEndLoop (d : List Nat) : Nat → Nat → Int → Res Nat
  | 0, _, _ => .err .fuel
  | fuel + 1, p, level =>
    if level ≠ 0 then
      match d[p]? with
      | none => .err .oobRead
      | some t =>
        if t = ST_DATA then
          match read16 d (p + 1) with
          | none => .err .oobRead
          | some n => findEndLoop d fuel (p + 1 + 2 + n - 1 + 1) level
        else if t = ST_OPEN then findEndLoop d fuel (p + 1) (level + 1)
        else if t = ST_CLOSE then findEndLoop d fuel (p + 1) (level - 1)
        else if t = ST_STOP then .err .bug
        else findEndLoop d fuel (p + 1) level
    else .ok p

/-- The outer `while ( *p != ST_STOP )` loop of `gcry_sexp_find_token`. -/
def findLoop (d tok : List Nat) (toklen : Nat) : Nat → Nat → Res (Option (List Nat))
  | 0, _ => .err .fuel
  | fuel + 1, p =>
    match d[p]? with
    | none => .err .oobRead
    | some t =>
      if t = ST_STOP then .ok none
      else if t = ST_OPEN then
        match d[p + 1]? with
        | none => .err .oobRead
        | some t1 =>
          if t1 = ST_DATA then
            -- head = p; p += 2; memcpy ( &n, p, sizeof n ); p += sizeof n;
            match read16 d (p + 2) with
            | none => .err .oobRead
            | some n =>
              if n = toklen then
                match memcmpEq d (p + 4) tok toklen with
                | none => .err .oobRead
                | some true =>
                  match findEndLoop d (d.length + 1) (p + 4 + n) 1 with
                  | .err e => .err e
                  | .ok q =>
                    -- n = p - head;  with DATALEN n
                    match copy d p ((q - p) % 65536) with
                    | none => .err .oobRead
                    | some bytes => normalize (some (bytes ++ [ST_STOP]))
                | some false => findLoop d tok toklen fuel (p + 4 + n)
              else findLoop d tok toklen fuel (p + 4 + n)
          else findLoop d tok toklen fuel (p + 1)
      else if t = ST_DATA then
        -- memcpy ( &n, ++p, sizeof n ); p += sizeof n; p += n;
        match read16 d (p + 1) with
        | none => .err .oobRead
        | some n => findLoop d tok toklen fuel (p + 1 + 2 + n)
      else findLoop d tok toklen fuel (p + 1)

/-- Function `gcry_sexp_find_token`. -/
def gcry_sexp_find_token (list : Option (List Nat)) (tok : List Nat) (toklen : Nat) :
    Res (Option (List Nat)) :=
  match list with
  | none => .ok none
  | some d => findLoop d tok (if toklen = 0 then strlen tok else toklen) (d.length + 1) 0

/-! ## Serializer -/

/-- Modelled from the spec: the constant `GCRYSEXP_FMT_CANON` of `gcrypt.h`, which is not
among the sources; `gcry_sexp_sprint` only tests whether `mode` equals it (canonical
mode) or not (advanced mode). -/
def GCRYSEXP_FMT_CANON : Int := 1

/-- Decimal digits of `n`, most significant first, in front of `acc`. -/
def utoaAux : Nat → Nat → List Nat → List Nat
  | 0, _, acc => acc
  | fuel + 1, n, acc =>
    if n < 10 then (48 + n) :: acc else utoaAux fuel (n / 10) ((48 + n % 10) :: acc)

/-- What `sprintf ("%u")` prints for `n`. -/
def utoa (n : Nat) : List Nat := utoaAux (n + 1) n []

/-- What `sprintf ("%d")` prints for `i`. -/
def itoa (i : Int) : List Nat :=
  if i < 0 then 45 :: utoa i.natAbs else utoa i.natAbs

/-- The `while ( *s != ST_STOP )` loop of `gcry_sexp_sprint` and the code after it.
`s` is the read pointer, `len` the running length and `out` the bytes stored so far
(`d - buffer` is `out.length`); `hasBuffer` says that `buffer` is not `NULL`.  The
result is the returned value with the bytes stored to `buffer`.  A store at an index
that is not below `maxlength` is `Err.oobWrite`. -/
def sprintLoop (d : List Nat) (mode : Int) (hasBuffer : Bool) (maxlength : Nat) :
    Nat → Nat → Nat → List Nat → Res (Nat × List Nat)
  | 0, _, _, _ => .err .fuel
  | fuel + 1, s, len, out =>
    match d[s]? with
    | none => .err .oobRead
    | some t =>
      if t = ST_STOP then
        if hasBuffer then
          if len ≥ maxlength then .ok (0, out)
          else if out.length + 1 ≤ maxlength then .ok (len, out ++ [0])
          else .err .oobWrite
        else .ok (len + 1, out)
      else if t = ST_OPEN then
        if hasBuffer then
          if len + 1 ≥ maxlength then .ok (0, out)
          else if out.length + 1 ≤ maxlength then
            sprintLoop d mode hasBuffer maxlength fuel (s + 1) (len + 1) (out ++ [40])
          else .err .oobWrite
        else sprintLoop d mode hasBuffer maxlength fuel (s + 1) (len + 1) out
      else if t = ST_CLOSE then
        let len := if mode ≠ GCRYSEXP_FMT_CANON then len + 1 + 1 else len + 1
        if hasBuffer then
          if len ≥ maxlength then .ok (0, out)
          else
            let bytes := if mode ≠ GCRYSEXP_FMT_CANON then [41, 10] else [41]
            if out.length + bytes.length ≤ maxlength then
              sprintLoop d mode hasBuffer maxlength fuel (s + 1) len (out ++ bytes)
            else .err .oobWrite
        else sprintLoop d mode hasBuffer maxlength fuel (s + 1) len out
      else if t = ST_DATA then
        match read16 d (s + 1) with
        | none => .err .oobRead
        | some n =>
          -- sprintf (numbuf, "%u:", (unsigned int)n );
          let numbuf := utoa n ++ [58]
          let len := len + (numbuf.length + n)
          if hasBuffer then
            if len ≥ maxlength then .ok (0, out)
            else
              -- d = stpcpy ( d, numbuf ) stores numbuf and its NUL; memcpy ( d, s, n )
              match copy d (s + 3) n with
              | none => .err .oobRead
              | some payload =>
                if out.length + numbuf.length + 1 ≤ maxlength
                    ∧ out.length + numbuf.length + n ≤ maxlength then
                  sprintLoop d mode hasBuffer maxlength fuel (s + 3 + n) len
                    (out ++ numbuf ++ payload)
                else .err .oobWrite
          else sprintLoop d mode hasBuffer maxlength fuel (s + 3 + n) len out
      else .err .bug

/-- The block `empty` of `gcry_sexp_sprint`. -/
def empty : List Nat := [ST_OPEN, ST_CLOSE, ST_STOP]

/-- Function `gcry_sexp_sprint`: the returned value and the bytes stored to `buffer`
(none when `buffer` is `NULL`, that is `hasBuffer = false`). -/
def gcry_sexp_sprint (list : Option (List Nat)) (mode : Int) (hasBuffer : Bool)
    (maxlength : Nat) : Res (Nat × List Nat) :=
  let d := match list with
    | some d => d
    | none => empty
  sprintLoop d mode hasBuffer maxlength (d.length + 1) 0 0 []

/-! ## Scanner -/

/-- C library `isdigit` (C locale). -/
def isdigit (c : Nat) : Bool := decide (48 ≤ c ∧ c ≤ 57)

/-- C library `isxdigit` (C locale). -/
def isxdigit (c : Nat) : Bool :=
  decide ((48 ≤ c ∧ c ≤ 57) ∨ (65 ≤ c ∧ c ≤ 70) ∨ (97 ≤ c ∧ c ≤ 102))

/-- C library `isspace` (C locale): space, `\t`, `\n`, `\v`, `\f`, `\r`. -/
def isspace (c : Nat) : Bool := decide (c = 32 ∨ (9 ≤ c ∧ c ≤ 13))

/-- The string `tokenchars` of `sexp_sscan`. -/
def tokenchars : List Nat :=
  [97, 98, 99, 100, 101, 102, 103, 104, 105, 106, 107, 108, 109,
   110, 111, 112, 113, 114, 115, 116, 117, 118, 119, 120, 121, 122,
   65, 66, 67, 68, 69, 70, 71, 72, 73, 74, 75, 76, 77,
   78, 79, 80, 81, 82, 83, 84, 85, 86, 87, 88, 89, 90,
   48, 49, 50, 51, 52, 53, 54, 55, 56, 57,
   45, 46, 47, 95, 58, 42, 43, 61]

/-- The test `strchr ( s, c ) != NULL`: `c` is a character of `s` or its terminating
NUL. -/
def strchr (s : List Nat) (c : Nat) : Bool := decide (c = 0 ∨ c ∈ s)

/-- One hex digit of `hextobyte`: its value, 0 for any other character. -/
def hexval (c : Nat) : Nat :=
  if 48 ≤ c ∧ c ≤ 57 then c - 48
  else if 65 ≤ c ∧ c ≤ 70 then 10 + c - 65
  else if 97 ≤ c ∧ c ≤ 102 then 10 + c - 97
  else 0

/-- Function `hextobyte` applied to the two characters `s[0]`, `s[1]`. -/
def hextobyte (s0 s1 : Nat) : Nat := 16 * hexval s0 + hexval s1

/-- Structure `make_space_ctx`: `sexp` holds the bytes `c.sexp->d[0 .. c.pos)` written
so far, so that `used` is `sexp.length`; `secure` is the memory class of the block. -/
structure make_space_ctx where
  sexp : List Nat
  allocated : Nat
  secure : Bool
  deriving DecidableEq, Repr

/-- Function `make_space` (`sizeof(DATALEN)` is 2).  The block is grown by
`gcry_xrealloc`, which is outside `sexp.c`.  Modelled from the spec: growing a block keeps
its memory class, so `secure` is left as it is. -/
def make_space (c : make_space_ctx) (n : Nat) : make_space_ctx :=
  if c.sexp.length + n + 2 + 1 ≥ c.allocated then
    { c with allocated := c.allocated + 2 * (n + 2 + 1) }
  else c

/-- Stores `bytes` through `c.pos`; a store outside the `allocated` bytes of the block is
`Err.oobWrite`. -/
def store (c : make_space_ctx) (bytes : List Nat) : Res make_space_ctx :=
  if c.sexp.length + bytes.length ≤ c.allocated then
    .ok { c with sexp := c.sexp ++ bytes }
  else .err .oobWrite

/-- The two bytes `STORE_LEN (p, n)` stores: `n` converted to `DATALEN`. -/
def STORE_LEN (n : Nat) : List Nat := [n % 65536 % 256, n % 65536 / 256]

/-- The sequence `MAKE_SPACE (datalen); *c.pos++ = ST_DATA; STORE_LEN (c.pos, datalen);`
followed by the store of the payload bytes. -/
def storeData (c : make_space_ctx) (datalen : Nat) (payload : List Nat) :
    Res make_space_ctx :=
  store (make_space c datalen) (ST_DATA :: (STORE_LEN datalen ++ payload))

/-- One variadic argument of `gcry_sexp_build`.  An MPI is given by the bytes
`gcry_mpi_print` writes for it in `GCRYMPI_FMT_STD` and by its `GCRYMPI_FLAG_SECURE`. -/
inductive Arg where
  | mpi (std : List Nat) (secure : Bool)
  | str (s : List Nat)
  | int (i : Int)
  deriving DecidableEq, Repr

/-- The local variables of `sexp_sscan`.  Pointers into `buffer` are indices, `none` for
`NULL`; `arg_ptr` is `none` for the `NULL` of `gcry_sexp_sscan`. -/
structure ScanState where
  p : Nat
  n : Nat
  digptr : Option Nat
  quoted : Option Nat
  tokenp : Option Nat
  hexfmt : Option Nat
  base64 : Option Nat
  disphint : Option Nat
  percent : Option Nat
  hexcount : Nat
  quoted_esc : Bool
  c : make_space_ctx
  arg_ptr : Option (List Arg)
  deriving DecidableEq, Repr

/-- How one pass through the body of the `for` loop ends: at the loop increment with
new values of the variables, or with `return rc` after `*erroff = erroff`. -/
inductive Step where
  | next (st : ScanState)
  | ret (rc : Int) (erroff : Nat)
  deriving DecidableEq, Repr

/-- C library `atoi` on a string that starts with a digit: the value of the leading run
of decimal digits at `p`. -/
def atoiLoop (buffer : List Nat) : Nat → Nat → Nat → Nat
  | 0, _, acc => acc
  | fuel + 1, p, acc =>
    match buffer[p]? with
    | none => acc
    | some ch => if isdigit ch then atoiLoop buffer fuel (p + 1) (10 * acc + (ch - 48)) else acc

/-- C library `atoi` as `sexp_sscan` uses it; a value that does not fit `int` (32 bits)
is undefined behaviour. -/
def atoi (buffer : List Nat) (p : Nat) : Res Nat :=
  let v := atoiLoop buffer (buffer.length + 1) p 0
  if v ≤ 2147483647 then .ok v else .err .ub

/-- The loop `for ( hexfmt++; hexfmt < p; hexfmt++ )` that decodes a hex atom: the bytes
it stores; `h` is `hexfmt`. -/
def hexLoop (buffer : List Nat) (p : Nat) : Nat → Nat → Res (List Nat)
  | 0, _ => .err .fuel
  | fuel + 1, h =>
    if h < p then
      match buffer[h]? with
      | none => .err .oobRead
      | some ch =>
        if isspace ch then hexLoop buffer p fuel (h + 1)
        else
          match buffer[h + 1]? with
          | none => .err .oobRead
          | some ch1 =>
            match hexLoop buffer p fuel (h + 1 + 1) with
            | .err e => .err e
            | .ok bytes => .ok (hextobyte ch ch1 :: bytes)
    else .ok []

/-- The `if( quoted )` branch of the loop body; `ch` is `*p`. -/
def quotedBranch (buffer : List Nat) (st : ScanState) (ch : Nat) : Res Step :=
  if st.quoted_esc then
    if ch = 98 ∨ ch = 116 ∨ ch = 118 ∨ ch = 110 ∨ ch = 102 ∨ ch = 114 ∨ ch = 34 ∨ ch = 39
        ∨ ch = 92 then
      .ok (.next { st with quoted_esc := false })
    else if 48 ≤ ch ∧ ch ≤ 55 then
      if st.n > 2 then
        match buffer[st.p + 1]? with
        | none => .err .oobRead
        | some c1 =>
          if 48 ≤ c1 ∧ c1 ≤ 55 then
            match buffer[st.p + 2]? with
            | none => .err .oobRead
            | some c2 =>
              if 48 ≤ c2 ∧ c2 ≤ 55 then
                .ok (.next { st with p := st.p + 2, n := st.n - 2, quoted_esc := false })
              else .ok (.ret (-6) st.p)
          else .ok (.ret (-6) st.p)
      else .ok (.ret (-6) st.p)
    else if ch = 120 then
      if st.n > 2 then
        match buffer[st.p + 1]? with
        | none => .err .oobRead
        | some c1 =>
          if isxdigit c1 then
            match buffer[st.p + 2]? with
            | none => .err .oobRead
            | some c2 =>
              if isxdigit c2 then
                .ok (.next { st with p := st.p + 2, n := st.n - 2, quoted_esc := false })
              else .ok (.ret (-6) st.p)
          else .ok (.ret (-6) st.p)
      else .ok (.ret (-6) st.p)
    else if ch = 13 then
      -- if( n && p[1] == '\n' )
      if st.n ≠ 0 then
        match buffer[st.p + 1]? with
        | none => .err .oobRead
        | some c1 =>
          if c1 = 10 then
            .ok (.next { st with p := st.p + 1, n := st.n - 1, quoted_esc := false })
          else .ok (.next { st with quoted_esc := false })
      else .ok (.next { st with quoted_esc := false })
    else if ch = 10 then
      -- if( n && p[1] == '\r' )
      if st.n ≠ 0 then
        match buffer[st.p + 1]? with
        | none => .err .oobRead
        | some c1 =>
          if c1 = 13 then
            .ok (.next { st with p := st.p + 1, n := st.n - 1, quoted_esc := false })
          else .ok (.next { st with quoted_esc := false })
      else .ok (.next { st with quoted_esc := false })
    else .ok (.ret (-6) st.p)
  else if ch = 92 then .ok (.next { st with quoted_esc := true })
  else if ch = 34 then .ok (.next { st with quoted := none })
  else .ok (.next st)

/-- The `else if( hexfmt )` branch; `h` is the value of `hexfmt`. -/
def hexBranch (buffer : List Nat) (st : ScanState) (h : Nat) (ch : Nat) : Res Step :=
  if isxdigit ch then .ok (.next { st with hexcount := st.hexcount + 1 })
  else if ch = 35 then
    if st.hexcount % 2 = 1 then .ok (.ret (-12) st.p)
    else
      match hexLoop buffer st.p (buffer.length + 1) (h + 1) with
      | .err e => .err e
      | .ok bytes =>
        match storeData st.c (st.hexcount / 2) bytes with
        | .err e => .err e
        | .ok c => .ok (.next { st with c := c, hexfmt := none })
  else if ¬ isspace ch then .ok (.ret (-11) st.p)
  else .ok (.next st)

/-- The `else if( digptr )` branch; `dp` is the value of `digptr`. -/
def digBranch (buffer : List Nat) (st : ScanState) (dp : Nat) (ch : Nat) : Res Step :=
  if isdigit ch then .ok (.next st)
  else if ch = 58 then
    match atoi buffer dp with
    | .err e => .err e
    | .ok datalen =>
      if datalen > st.n - 1 then .ok (.ret (-2) st.p)
      else
        match copy buffer (st.p + 1) datalen with
        | none => .err .oobRead
        | some payload =>
          match storeData st.c datalen payload with
          | .err e => .err e
          | .ok c =>
            .ok (.next { st with c := c, digptr := none, n := st.n - datalen,
                                 p := st.p + datalen })
  else if ch = 34 then
    .ok (.next { st with digptr := none, quoted := some st.p, quoted_esc := false })
  else if ch = 35 then
    .ok (.next { st with digptr := none, hexfmt := some st.p, hexcount := 0 })
  else if ch = 124 then
    .ok (.next { st with digptr := none, base64 := some st.p })
  else .ok (.ret (-1) st.p)

/-- The `else if ( percent )` branch; `va_arg` on an exhausted list or with the wrong
type is undefined behaviour. -/
def percentBranch (st : ScanState) (ch : Nat) : Res Step :=
  if ch = 109 then
    match st.arg_ptr with
    | some (Arg.mpi std sec :: rest) =>
      -- MAKE_SPACE (nm); then the switch to secure allocation
      let c := make_space st.c std.length
      let c := if ¬ c.secure ∧ sec then { c with secure := true } else c
      match store c (ST_DATA :: (STORE_LEN std.length ++ std)) with
      | .err e => .err e
      | .ok c => .ok (.next { st with c := c, arg_ptr := some rest, percent := none })
    | _ => .err .ub
  else if ch = 115 then
    match st.arg_ptr with
    | some (Arg.str astr :: rest) =>
      match storeData st.c (strlen astr) (astr.take (strlen astr)) with
      | .err e => .err e
      | .ok c => .ok (.next { st with c := c, arg_ptr := some rest, percent := none })
    | _ => .err .ub
  else if ch = 100 then
    match st.arg_ptr with
    | some (Arg.int aint :: rest) =>
      match storeData st.c (itoa aint).length (itoa aint) with
      | .err e => .err e
      | .ok c => .ok (.next { st with c := c, arg_ptr := some rest, percent := none })
    | _ => .err .ub
  else .ok (.ret (-1) st.p)

/-- The chain of tests on `*p` that the body reaches when no inside state is open. -/
def topBranch (st : ScanState) (ch : Nat) : Res Step :=
  if ch = 40 then
    if st.disphint.isSome then .ok (.ret (-9) st.p)
    else
      match store (make_space st.c 0) [ST_OPEN] with
      | .err e => .err e
      | .ok c => .ok (.next { st with c := c })
  else if ch = 41 then
    if st.disphint.isSome then .ok (.ret (-9) st.p)
    else
      match store (make_space st.c 0) [ST_CLOSE] with
      | .err e => .err e
      | .ok c => .ok (.next { st with c := c })
  else if ch = 34 then .ok (.next { st with quoted := some st.p, quoted_esc := false })
  else if ch = 35 then .ok (.next { st with hexfmt := some st.p, hexcount := 0 })
  else if ch = 124 then .ok (.next { st with base64 := some st.p })
  else if ch = 91 then
    if st.disphint.isSome then .ok (.ret (-8) st.p)
    else .ok (.next { st with disphint := some st.p })
  else if ch = 93 then
    if st.disphint.isNone then .ok (.ret (-9) st.p)
    else .ok (.next { st with disphint := none })
  else if isdigit ch then
    if ch = 48 then .ok (.ret (-7) st.p)
    else .ok (.next { st with digptr := some st.p })
  else if strchr tokenchars ch then .ok (.next { st with tokenp := some st.p })
  else if isspace ch then .ok (.next st)
  else if ch = 123 then .ok (.ret (-10) st.p)
  else if strchr [38, 92] ch then .ok (.ret (-10) st.p)
  else if st.arg_ptr.isSome ∧ ch = 37 then .ok (.next { st with percent := some st.p })
  else .ok (.ret (-5) st.p)

/-- The `if( quoted ) ... else if ...` chain of the loop body. -/
def dispatch (buffer : List Nat) (st : ScanState) (ch : Nat) : Res Step :=
  if st.quoted.isSome then quotedBranch buffer st ch
  else match st.hexfmt with
    | some h => hexBranch buffer st h ch
    | none =>
      if st.base64.isSome then
        if ch = 124 then .ok (.next { st with base64 := none }) else .ok (.next st)
      else match st.digptr with
        | some dp => digBranch buffer st dp ch
        | none =>
          if st.percent.isSome then percentBranch st ch
          else topBranch st ch

/-- The body of the `for` loop of `sexp_sscan`. -/
def scanBody (buffer : List Nat) (st : ScanState) : Res Step :=
  match buffer[st.p]? with
  | none => .err .oobRead
  | some ch =>
    match st.tokenp, st.hexfmt with
    | some tp, none =>
      if strchr tokenchars ch then .ok (.next st)
      else
        -- datalen = p - tokenp; the token is stored and the character is looked at again
        match copy buffer tp (st.p - tp) with
        | none => .err .oobRead
        | some payload =>
          match storeData st.c (st.p - tp) payload with
          | .err e => .err e
          | .ok c => dispatch buffer { st with c := c, tokenp := none } ch
    | _, _ => dispatch buffer st ch

/-- How the `for` loop of `sexp_sscan` and the store of the final `ST_STOP` end: with
the block `c` built, or with `return rc` after `*erroff = erroff`. -/
inductive LoopOut where
  | built (c : make_space_ctx)
  | fail (rc : Int) (erroff : Nat)
  deriving DecidableEq, Repr

/-- Result of `sexp_sscan`: `done` is `return 0` with the tree stored to `*retsexp` and
the memory class of the block the scanner built; `fail` is a non-zero return with the
value stored to `*erroff`. -/
inductive ScanOut where
  | done (retsexp : Option (List Nat)) (secure : Bool)
  | fail (rc : Int) (erroff : Nat)
  deriving DecidableEq, Repr

/-- The largest `size_t` (64 bits). -/
def SIZE_MAX : Nat := 2 ^ 64 - 1

/-- The `for(p=buffer,n=length; n; p++, n-- )` loop of `sexp_sscan` followed by
`MAKE_SPACE (0); *c.pos++ = ST_STOP;`. -/
def scanLoop (buffer : List Nat) : Nat → ScanState → Res LoopOut
  | 0, _ => .err .fuel
  | fuel + 1, st =>
    if st.n ≠ 0 then
      match scanBody buffer st with
      | .err e => .err e
      | .ok (.ret rc erroff) => .ok (.fail rc erroff)
      | .ok (.next st1) =>
        scanLoop buffer fuel
          { st1 with p := st1.p + 1, n := if st1.n = 0 then SIZE_MAX else st1.n - 1 }
    else
      match store (make_space st.c 0) [ST_STOP] with
      | .err e => .err e
      | .ok c => .ok (.built c)

/-- The values of the local variables of `sexp_sscan` when the loop starts. -/
def scanInit (length : Nat) (arg_ptr : Option (List Arg)) : ScanState :=
  { p := 0, n := length, digptr := none, quoted := none, tokenp := none, hexfmt := none,
    base64 := none, disphint := none, percent := none, hexcount := 0, quoted_esc := false,
    c := { sexp := [], allocated := length + 2, secure := false }, arg_ptr := arg_ptr }

/-- The node stream `sexp_sscan` emits for an input, before `normalize` sees it. -/
def scanEmit (buffer : List Nat) (length : Nat) (arg_ptr : Option (List Arg)) :
    Res LoopOut :=
  scanLoop buffer (buffer.length + 1) (scanInit length arg_ptr)

/-- Function `sexp_sscan`; `buffer` lists the readable bytes at the pointer `buffer`.
The last statement is `*retsexp = normalize ( c.sexp ); return 0;`. -/
def sexp_sscan (buffer : List Nat) (length : Nat) (arg_ptr : Option (List Arg)) :
    Res ScanOut :=
  match scanEmit buffer length arg_ptr with
  | .err e => .err e
  | .ok (.fail rc erroff) => .ok (.fail rc erroff)
  | .ok (.built c) =>
    match normalize (some c.sexp) with
    | .err e => .err e
    | .ok t => .ok (.done t c.secure)

/-- Function `gcry_sexp_sscan`. -/
def gcry_sexp_sscan (buffer : List Nat) (length : Nat) : Res ScanOut :=
  sexp_sscan buffer length none

/-- Function `gcry_sexp_build`; `format` lists the characters of the format string, which
a NUL follows in memory. -/
def gcry_sexp_build (format : List Nat) (args : List Arg) : Res ScanOut :=
  sexp_sscan (format ++ [0]) (strlen format) (some args)

/-- The bytes of an ASCII string. -/
def bytes (s : String) : List Nat := s.toList.map Char.toNat

/-! ## Well-formed trees

The definitions of this section say what a well-formed tree is and what the
specification expects of it; the code is compared with them below. -/

/-- One node of a tree: `ST_OPEN`, `ST_CLOSE`, or `ST_DATA` with its payload. -/
inductive Node where
  | opn : Node
  | cls : Node
  | data (b : List Nat) : Node
  deriving DecidableEq, Repr

/-- The bytes of an atom in a tree: tag, 16-bit length, payload. -/
def encData (b : List Nat) : List Nat :=
  ST_DATA :: (b.length % 256) :: (b.length / 256 % 256) :: b

/-- The bytes of a node. -/
def Node.enc : Node → List Nat
  | .opn => [ST_OPEN]
  | .cls => [ST_CLOSE]
  | .data b => encData b

/-- The bytes of a node stream (without the final `ST_STOP`). -/
def encNodes : List Node → List Nat
  | [] => []
  | x :: xs => x.enc ++ encNodes xs

/-- A node is representable: the length of a payload fits the 16-bit length field. -/
def Node.valid : Node → Prop
  | .data b => b.length < 65536
  | _ => True

instance (x : Node) : Decidable x.valid := by
  cases x <;> unfold Node.valid <;> infer_instance

/-- The ASCII decimal numeral of `n`. -/
def decimal (n : Nat) : List Nat := (Nat.toDigits 10 n).map Char.toNat

/-- Reference rendering of one node: `(` for `ST_OPEN`; `)` for `ST_CLOSE`, followed by
a newline in advanced mode; the decimal length, `:` and the raw bytes for `ST_DATA`. -/
def Node.text (advanced : Bool) : Node → List Nat
  | .opn => [40]
  | .cls => if advanced then [41, 10] else [41]
  | .data b => decimal b.length ++ 58 :: b

/-- Reference rendering of a node stream: the concatenation of the renderings of its
nodes. -/
def textNodes (advanced : Bool) : List Node → List Nat
  | [] => []
  | x :: xs => x.text advanced ++ textNodes advanced xs

/-- A sequence of elements (atoms and sub-lists), each sub-list holding such a sequence
in turn: the elements of a list, or the top level of a tree. -/
inductive Elems where
  | nil : Elems
  | atom (b : List Nat) (rest : Elems) : Elems
  | list (inner : Elems) (rest : Elems) : Elems
  deriving DecidableEq, Repr

/-- The node stream of a sequence of elements, depth first. -/
def Elems.nodes : Elems → List Node
  | .nil => []
  | .atom b rest => .data b :: rest.nodes
  | .list inner rest => .opn :: (inner.nodes ++ .cls :: rest.nodes)

/-- The bytes of a sequence of elements. -/
def Elems.flat : Elems → List Nat
  | .nil => []
  | .atom b rest => encData b ++ rest.flat
  | .list inner rest => ST_OPEN :: (inner.flat ++ ST_CLOSE :: rest.flat)

/-- Every atom, at any depth, has a payload whose length fits the length field. -/
def Elems.valid : Elems → Prop
  | .nil => True
  | .atom b rest => b.length < 65536 ∧ rest.valid
  | .list inner rest => inner.valid ∧ rest.valid

/-- Number of top-level elements. -/
def Elems.count : Elems → Nat
  | .nil => 0
  | .atom _ rest => rest.count + 1
  | .list _ rest => rest.count + 1

/-- One element: an atom or a sub-list. -/
inductive Elem where
  | atom (b : List Nat) : Elem
  | list (inner : Elems) : Elem
  deriving DecidableEq, Repr

/-- The `k`-th top-level element, counting from 0. -/
def Elems.get? : Elems → Nat → Option Elem
  | .nil, _ => none
  | .atom b _, 0 => some (.atom b)
  | .list inner _, 0 => some (.list inner)
  | .atom _ rest, k + 1 => rest.get? k
  | .list _ rest, k + 1 => rest.get? k

/-- Number of bytes the first `k` top-level elements take. -/
def Elems.offset : Elems → Nat → Nat
  | .nil, _ => 0
  | _, 0 => 0
  | .atom b rest, k + 1 => (encData b).length + rest.offset k
  | .list inner rest, k + 1 => 1 + inner.flat.length + 1 + rest.offset k

/-- The tree of a list with the elements `es`: `ST_OPEN`, the elements, `ST_CLOSE`,
`ST_STOP`. -/
def listTree (es : Elems) : List Nat := ST_OPEN :: (es.flat ++ [ST_CLOSE, ST_STOP])

/-- The variables of `gcry_sexp_sscan` between two items: no inside state is open. -/
def topState (p n : Nat) (c : make_space_ctx) : ScanState :=
  { p := p, n := n, digptr := none, quoted := none, tokenp := none, hexfmt := none,
    base64 := none, disphint := none, percent := none, hexcount := 0, quoted_esc := false,
    c := c, arg_ptr := none }

/-- The variables of `gcry_sexp_sscan` inside a decimal length that started at `dp`. -/
def digState (p n dp : Nat) (c : make_space_ctx) : ScanState :=
  { topState p n c with digptr := some dp }

/-- The value of a run of decimal digits read after the value `acc`. -/
def digitsVal (ds : List Nat) (acc : Nat) : Nat :=
  ds.foldl (fun a ch => 10 * a + (ch - 48)) acc

/-- An atom the canonical form can carry: between 1 and 65535 bytes. -/
def Node.printable : Node → Prop
  | .data b => 1 ≤ b.length ∧ b.length < 65536
  | _ => True

instance (x : Node) : Decidable x.printable := by
  cases x <;> unfold Node.printable <;> infer_instance

/-- The bytes of a sub-list with the elements `inner`, from `ST_OPEN` through the
matching `ST_CLOSE`. -/
def span (inner : Elems) : List Nat := ST_OPEN :: (inner.flat ++ [ST_CLOSE])

/-- The first element of the sequence is the atom `tok`. -/
def Elems.headIs (tok : List Nat) : Elems → Bool
  | .atom b _ => decide (b = tok)
  | _ => false

/-- The elements of the first sub-list, in the order of the node stream, whose first
element is the atom `tok`; `none` when there is no such sub-list at any depth. -/
def Elems.find (tok : List Nat) : Elems → Option Elems
  | .nil => none
  | .atom _ rest => rest.find tok
  | .list inner rest =>
    if inner.headIs tok then some inner
    else match inner.find tok with
      | some s => some s
      | none => rest.find tok

/-- A payload of `n` bytes, each the letter `a`. -/
def filler (n : Nat) : List Nat := List.replicate n 97

/-! ## Big integers (`mpi/mpi-cmp.c`) -/

/-- The fields of `struct gcry_mpi` that `mpi-cmp.c` reads: `d` lists the allocated
limbs, least significant first, of which the first `nlimbs` are in use; `sign` is the
`int` field used as a flag. -/
structure MPI where
  nlimbs : Nat
  sign : Bool
  d : List Nat
  deriving DecidableEq, Repr

/-- Modelled from the spec: the number of limbs `_gcry_mpi_normalize`, which is not among
the sources, leaves in use: zero limbs at the most significant end are trimmed. -/
def normLimbs (d : List Nat) : Nat → Nat
  | 0 => 0
  | n + 1 => if d.getD n 0 = 0 then normLimbs d n else n + 1

/-- Modelled from the spec: function `_gcry_mpi_normalize`. -/
def _gcry_mpi_normalize (u : MPI) : MPI := { u with nlimbs := normLimbs u.d u.nlimbs }

/-- Modelled from the spec: function `_gcry_mpih_cmp`, which is not among the sources:
the limbs are compared from the most significant down; the result is positive, zero or
negative. -/
def _gcry_mpih_cmp (a b : List Nat) : Nat → Int
  | 0 => 0
  | n + 1 =>
    if a.getD n 0 ≠ b.getD n 0 then (if a.getD n 0 > b.getD n 0 then 1 else -1)
    else _gcry_mpih_cmp a b n

/-- Function `gcry_mpi_cmp`. -/
def gcry_mpi_cmp (u v : MPI) : Int :=
  let u := _gcry_mpi_normalize u
  let v := _gcry_mpi_normalize v
  let usize : Int := u.nlimbs
  let vsize : Int := v.nlimbs
  if ¬ u.sign ∧ v.sign then 1
  else if u.sign ∧ ¬ v.sign then -1
  else if usize ≠ vsize ∧ ¬ u.sign ∧ ¬ v.sign then usize - vsize
  else if usize ≠ vsize ∧ u.sign ∧ v.sign then vsize + usize
  else if usize = 0 then 0
  else
    let cmp := _gcry_mpih_cmp u.d v.d u.nlimbs
    if cmp = 0 then 0
    else if (if cmp < 0 then 1 else 0) = (if u.sign then (1 : Int) else 0) then 1
    else -1

/-- Function `gcry_mpi_cmp_ui`; `v` is the value of the argument converted to
`mpi_limb_t`.  Reading `u->d[0]` when no limb is allocated is `Err.oobRead`. -/
def gcry_mpi_cmp_ui (u : MPI) (v : Nat) : Res Int :=
  let limb := v
  let u := _gcry_mpi_normalize u
  if u.nlimbs = 0 ∧ limb = 0 then .ok 0
  else if u.sign then .ok (-1)
  else if u.nlimbs > 1 then .ok 1
  else
    match u.d[0]? with
    | none => .err .oobRead
    | some d0 => if d0 = limb then .ok 0 else if d0 > limb then .ok 1 else .ok (-1)

/-- The magnitude the first `n` limbs of `d` stand for in base `B`. -/
def limbsVal (B : Nat) (d : List Nat) : Nat → Nat
  | 0 => 0
  | n + 1 => limbsVal B d n + d.getD n 0 * B ^ n

/-- The integer an MPI stands for, its limbs taken in base `B`. -/
def MPI.value (B : Nat) (u : MPI) : Int :=
  if u.sign then - (limbsVal B u.d u.nlimbs : Int) else (limbsVal B u.d u.nlimbs : Int)

/-- A normalized MPI: the limbs in use are allocated and below the base, the most
significant one is not zero, and zero does not carry the sign. -/
def MPI.normalized (B : Nat) (u : MPI) : Prop :=
  u.nlimbs ≤ u.d.length ∧ (∀ i, i < u.nlimbs → u.d.getD i 0 < B) ∧
  (u.nlimbs ≠ 0 → u.d.getD (u.nlimbs - 1) 0 ≠ 0) ∧ (u.nlimbs = 0 → u.sign = false)

/-! ## The scanner loop by itself, walks and scanner states

Definitions that the properties of the scanner are stated with. -/

/-- The walk through a block node by node, as the navigator and the serializer make it:
`true` when it meets only `ST_OPEN`, `ST_CLOSE` and `ST_DATA` nodes, finds every payload
inside the block, and ends on an `ST_STOP` that is the last byte of the block. -/
def walkTree (d : List Nat) : Nat → Nat → Bool
  | 0, _ => false
  | fuel + 1, p =>
    match d[p]? with
    | none => false
    | some t =>
      if t = ST_STOP then decide (p + 1 = d.length)
      else if t = ST_OPEN ∨ t = ST_CLOSE then walkTree d fuel (p + 1)
      else if t = ST_DATA then
        match read16 d (p + 1) with
        | none => false
        | some n => walkTree d fuel (p + 3 + n)
      else false

/-- The `for` loop of `sexp_sscan` run by itself: `ended` with the variables at the
moment the input is used up, or `fail` for a `return` inside the loop. -/
inductive RunOut where
  | ended (st : ScanState)
  | fail (rc : Int) (erroff : Nat)
  deriving DecidableEq, Repr

/-- The `for(p=buffer,n=length; n; p++, n-- )` loop of `sexp_sscan` without the code that
follows it. -/
def scanRun (buffer : List Nat) : Nat → ScanState → Res RunOut
  | 0, _ => .err .fuel
  | fuel + 1, st =>
    if st.n ≠ 0 then
      match scanBody buffer st with
      | .err e => .err e
      | .ok (.ret rc erroff) => .ok (.fail rc erroff)
      | .ok (.next st1) =>
        scanRun buffer fuel
          { st1 with p := st1.p + 1, n := if st1.n = 0 then SIZE_MAX else st1.n - 1 }
    else .ok (.ended st)

/-- What the scanner keeps from a state `st` to a later state `st1` of the same call: the
bytes written stay inside the block, a secure block stays secure, and the arguments read
in between are a prefix of those that were left, the block being secure when one of
them is a secure MPI. -/
def StepInv (st st1 : ScanState) : Prop :=
  (st.c.sexp.length ≤ st.c.allocated → st1.c.sexp.length ≤ st1.c.allocated) ∧
  (st.c.secure = true → st1.c.secure = true) ∧
  st1.arg_ptr.isSome = st.arg_ptr.isSome ∧
  ∃ consumed, st.arg_ptr.getD [] = consumed ++ st1.arg_ptr.getD [] ∧
    ((∃ std, Arg.mpi std true ∈ consumed) → st1.c.secure = true)

/-- The variables of `gcry_sexp_sscan` inside a token that started at `tp`. -/
def tokState (p n tp : Nat) (c : make_space_ctx) : ScanState :=
  { topState p n c with tokenp := some tp }

/-- The variables of `gcry_sexp_sscan` inside a hex atom that started at `h`, after `cnt`
hex digits. -/
def hexState (p n h cnt : Nat) (c : make_space_ctx) : ScanState :=
  { topState p n c with hexfmt := some h, hexcount := cnt }

/-- The hex digit for a value below 16, in upper or in lower case. -/
def hexDigit (upper : Bool) (v : Nat) : Nat :=
  if v < 10 then 48 + v else if upper then 55 + v else 87 + v

/-- The hex rendering of a byte string: two digits for each byte, the high half first. -/
def hexText (upper : Bool) : List Nat → List Nat
  | [] => []
  | b :: r => hexDigit upper (b / 16) :: hexDigit upper (b % 16) :: hexText upper r

/-- The token character class in the words of the specification: `A`-`Z`, `a`-`z`,
`0`-`9` and the characters `- . / _ : * + =`. -/
def specTokenChar (c : Nat) : Bool :=
  decide ((65 ≤ c ∧ c ≤ 90) ∨ (97 ≤ c ∧ c ≤ 122) ∨ (48 ≤ c ∧ c ≤ 57) ∨
    c = 45 ∨ c = 46 ∨ c = 47 ∨ c = 95 ∨ c = 58 ∨ c = 42 ∨ c = 43 ∨ c = 61)

/-- Position `i` of a node stream holds an `ST_OPEN` and position `i + 1` holds the atom
`tok`: a list headed by `tok` starts at `i`. -/
def openAt (tok : List Nat) (ns : List Node) (i : Nat) : Prop :=
  ns[i]? = some Node.opn ∧ ns[i + 1]? = some (Node.data tok)

instance (tok : List Nat) (ns : List Node) (i : Nat) : Decidable (openAt tok ns i) := by
  unfold openAt
  infer_instance

/-- The nesting depth after a node stream that is read at depth `d`; `none` when an
`ST_CLOSE` comes at depth 0. -/
def depthAfter : List Node → Nat → Option Nat
  | [], d => some d
  | .opn :: r, d => depthAfter r (d + 1)
  | .cls :: r, d => if d = 0 then none else depthAfter r (d - 1)
  | .data _ :: r, d => depthAfter r d

/-- The `ST_OPEN` and `ST_CLOSE` nodes of a stream are balanced: no initial part has more
`ST_CLOSE` than `ST_OPEN`, and the totals are equal. -/
def balanced (ns : List Node) : Bool := decide (depthAfter ns 0 = some 0)

/-! ## Properties -/

theorem get_of_drop {d : List Nat} {p x : Nat} {r : List Nat} (h : d.drop p = x :: r) :
    d[p]? = some x := by
  have h1 := List.getElem?_drop d p 0
  rw [h] at h1
  simpa using h1.symm

theorem get_of_drop_nil {d : List Nat} {p : Nat} (h : d.drop p = []) : d[p]? = none := by
  have h1 := List.getElem?_drop d p 0
  rw [h] at h1
  simpa using h1.symm

theorem drop_of_drop {d : List Nat} {p : Nat} {a r : List Nat} (h : d.drop p = a ++ r) :
    d.drop (p + a.length) = r := by
  have h1 := congrArg (List.drop a.length) h
  rw [List.drop_drop] at h1
  simpa [Nat.add_comm] using h1

theorem drop_succ_of_drop {d : List Nat} {p x : Nat} {r : List Nat} (h : d.drop p = x :: r) :
    d.drop (p + 1) = r :=
  drop_of_drop (a := [x]) h

theorem length_of_drop {d : List Nat} {p : Nat} {r : List Nat} (h : d.drop p = r) :
    d.length - p = r.length := by
  rw [← h, List.length_drop]

theorem read16_of_drop {d : List Nat} {p lo hi : Nat} {r : List Nat}
    (h : d.drop p = lo :: hi :: r) : read16 d p = some (lo + 256 * hi) := by
  unfold read16
  rw [get_of_drop h, get_of_drop (drop_succ_of_drop h)]

theorem lt_of_drop {d : List Nat} {p x : Nat} {r : List Nat} (h : d.drop p = x :: r) :
    p < d.length := by
  have := length_of_drop h
  simp at this
  omega

theorem copy_of_drop {d : List Nat} {p : Nat} {a r : List Nat} (h : d.drop p = a ++ r)
    (hp : p ≤ d.length) : copy d p a.length = some a := by
  unfold copy
  have hl := length_of_drop h
  simp at hl
  rw [if_pos (by omega), h]
  simp

theorem read16_encData {d : List Nat} {p : Nat} {b r : List Nat} (hb : b.length < 65536)
    (h : d.drop p = encData b ++ r) : read16 d (p + 1) = some b.length := by
  have h1 : d.drop (p + 1) = (b.length % 256) :: (b.length / 256 % 256) :: (b ++ r) :=
    drop_succ_of_drop (x := ST_DATA) (by simpa [encData] using h)
  rw [read16_of_drop h1]
  congr 1
  omega

theorem length_encData (b : List Nat) : (encData b).length = b.length + 3 := by
  simp [encData]

theorem digitChar_toNat (k : Nat) (hk : k < 10) : (Nat.digitChar k).toNat = 48 + k := by
  interval_cases k <;> rfl

theorem utoaAux_eq (fuel : Nat) : ∀ (n : Nat) (ds : List Char),
    (Nat.toDigitsCore 10 fuel n ds).map Char.toNat = utoaAux fuel n (ds.map Char.toNat) := by
  induction fuel with
  | zero => intro n ds; simp [Nat.toDigitsCore, utoaAux]
  | succ f ih =>
    intro n ds
    simp only [Nat.toDigitsCore, utoaAux]
    by_cases h : n < 10
    · have h0 : n / 10 = 0 := by omega
      have h1 : n % 10 = n := by omega
      simp [h0, h1, h, digitChar_toNat n h]
    · have h0 : n / 10 ≠ 0 := by omega
      simp only [h0, h, if_false]
      rw [ih]
      simp [digitChar_toNat (n % 10) (by omega)]

theorem utoa_eq_decimal (n : Nat) : utoa n = decimal n := by
  unfold utoa decimal Nat.toDigits
  rw [utoaAux_eq]
  simp

theorem length_text_data (adv : Bool) (b : List Nat) :
    (Node.text adv (.data b)).length = (utoa b.length).length + 1 + b.length := by
  simp [Node.text, utoa_eq_decimal]
  omega

theorem length_enc_pos (x : Node) : 0 < x.enc.length := by
  cases x <;> simp [Node.enc, encData]

/-- One pass of the serializer loop over a node, with a buffer. -/
theorem sprintLoop_node_buf {d : List Nat} {mode : Int} {maxlength f s len : Nat}
    {out r : List Nat} (x : Node) (hv : x.valid) (hd : d.drop s = x.enc ++ r)
    (ho : out.length = len) :
    sprintLoop d mode true maxlength (f + 1) s len out =
      if len + (x.text (decide (mode ≠ GCRYSEXP_FMT_CANON))).length ≥ maxlength then
        .ok (0, out)
      else sprintLoop d mode true maxlength f (s + x.enc.length)
        (len + (x.text (decide (mode ≠ GCRYSEXP_FMT_CANON))).length)
        (out ++ x.text (decide (mode ≠ GCRYSEXP_FMT_CANON))) := by
  cases x with
  | opn =>
    simp only [Node.enc, List.cons_append, List.nil_append] at hd
    simp [sprintLoop, get_of_drop hd, Node.text, Node.enc]
    split_ifs <;> first | rfl | (exfalso; omega)
  | cls =>
    simp only [Node.enc, List.cons_append, List.nil_append] at hd
    by_cases hm : mode = GCRYSEXP_FMT_CANON
    · simp [sprintLoop, get_of_drop hd, Node.text, Node.enc, hm]
      split_ifs <;> first | rfl | (exfalso; omega)
    · simp [sprintLoop, get_of_drop hd, Node.text, Node.enc, hm]
      split_ifs <;> first | rfl | (exfalso; omega)
  | data b =>
    simp only [Node.enc] at hd
    have hd0 : d.drop s = ST_DATA :: ((b.length % 256) :: (b.length / 256 % 256) :: (b ++ r)) := by
      simpa [encData] using hd
    have hd3 : d.drop (s + 3) = b ++ r := by
      have := drop_of_drop (a := [ST_DATA, b.length % 256, b.length / 256 % 256]) hd0
      simpa using this
    have hcopy : copy d (s + 3) b.length = some b := by
      apply copy_of_drop hd3
      have := length_of_drop hd0
      simp at this
      omega
    simp [sprintLoop, get_of_drop hd0, read16_encData hv hd, hcopy, Node.enc, length_encData,
      Node.text, utoa_eq_decimal]
    split_ifs <;> first | rfl | (exfalso; omega) | skip
    all_goals (congr 1 <;> omega)

/-- One pass of the serializer loop over a node, without a buffer. -/
theorem sprintLoop_node_nobuf {d : List Nat} {mode : Int} {maxlength f s len : Nat}
    {out r : List Nat} (x : Node) (hv : x.valid) (hd : d.drop s = x.enc ++ r) :
    sprintLoop d mode false maxlength (f + 1) s len out =
      sprintLoop d mode false maxlength f (s + x.enc.length)
        (len + (x.text (decide (mode ≠ GCRYSEXP_FMT_CANON))).length) out := by
  cases x with
  | opn =>
    simp only [Node.enc, List.cons_append, List.nil_append] at hd
    simp [sprintLoop, get_of_drop hd, Node.text, Node.enc]
  | cls =>
    simp only [Node.enc, List.cons_append, List.nil_append] at hd
    by_cases hm : mode = GCRYSEXP_FMT_CANON
    · simp [sprintLoop, get_of_drop hd, Node.text, Node.enc, hm]
    · simp [sprintLoop, get_of_drop hd, Node.text, Node.enc, hm]
  | data b =>
    simp only [Node.enc] at hd
    have hd0 : d.drop s = ST_DATA :: ((b.length % 256) :: (b.length / 256 % 256) :: (b ++ r)) := by
      simpa [encData] using hd
    simp [sprintLoop, get_of_drop hd0, read16_encData hv hd, Node.enc, length_encData,
      Node.text, utoa_eq_decimal]
    congr 1 <;> omega

/-- The serializer loop at the final `ST_STOP`. -/
theorem sprintLoop_stop {d : List Nat} {mode : Int} {hasBuffer : Bool}
    {maxlength f s len : Nat} {out r : List Nat} (hd : d.drop s = ST_STOP :: r) :
    sprintLoop d mode hasBuffer maxlength (f + 1) s len out =
      if hasBuffer then
        if len ≥ maxlength then .ok (0, out)
        else if out.length + 1 ≤ maxlength then .ok (len, out ++ [0])
        else .err .oobWrite
      else .ok (len + 1, out) := by
  simp [sprintLoop, get_of_drop hd]

theorem length_encNodes_ge (ns : List Node) : ns.length ≤ (encNodes ns).length := by
  induction ns with
  | nil => simp [encNodes]
  | cons x xs ih =>
    have := length_enc_pos x
    simp [encNodes]
    omega

/-- With a buffer that is large enough the serializer stores the reference rendering and
a NUL, and returns the length of the rendering. -/
theorem sprintLoop_fits (d : List Nat) (mode : Int) (maxlength : Nat) (ns : List Node)
    (hv : ∀ x ∈ ns, x.valid) :
    ∀ (fuel s len : Nat) (out r : List Nat), ns.length < fuel →
      d.drop s = encNodes ns ++ ST_STOP :: r → out.length = len →
      len + (textNodes (decide (mode ≠ GCRYSEXP_FMT_CANON)) ns).length < maxlength →
      sprintLoop d mode true maxlength fuel s len out =
        .ok (len + (textNodes (decide (mode ≠ GCRYSEXP_FMT_CANON)) ns).length,
             out ++ textNodes (decide (mode ≠ GCRYSEXP_FMT_CANON)) ns ++ [0]) := by
  induction ns with
  | nil =>
    intro fuel s len out r hf hd ho hl
    obtain ⟨f, rfl⟩ : ∃ f, fuel = f + 1 := ⟨fuel - 1, by simp at hf; omega⟩
    simp only [encNodes, List.nil_append] at hd
    simp only [textNodes, List.length_nil, Nat.add_zero, List.append_nil] at hl ⊢
    rw [sprintLoop_stop hd]
    simp
    rw [if_neg (by omega), if_pos (by omega)]
  | cons x xs ih =>
    intro fuel s len out r hf hd ho hl
    have hx : x.valid := hv x (List.mem_cons_self _ _)
    have ih := ih (fun y hy => hv y (List.mem_cons_of_mem _ hy))
    obtain ⟨f, rfl⟩ : ∃ f, fuel = f + 1 := ⟨fuel - 1, by simp at hf; omega⟩
    have hf' : xs.length < f := by simp at hf; omega
    simp only [encNodes, List.append_assoc] at hd
    simp only [textNodes, List.length_append] at hl ⊢
    rw [sprintLoop_node_buf x hx hd ho, if_neg (by omega)]
    rw [ih f _ _ _ r hf' (drop_of_drop hd) (by simp [ho]) (by omega)]
    simp [Nat.add_assoc]

/-- Without a buffer the serializer returns the length of the reference rendering plus
one. -/
theorem sprintLoop_nobuf (d : List Nat) (mode : Int) (maxlength : Nat) (ns : List Node)
    (hv : ∀ x ∈ ns, x.valid) :
    ∀ (fuel s len : Nat) (out r : List Nat), ns.length < fuel →
      d.drop s = encNodes ns ++ ST_STOP :: r →
      sprintLoop d mode false maxlength fuel s len out =
        .ok (len + (textNodes (decide (mode ≠ GCRYSEXP_FMT_CANON)) ns).length + 1, out) := by
  induction ns with
  | nil =>
    intro fuel s len out r hf hd
    obtain ⟨f, rfl⟩ : ∃ f, fuel = f + 1 := ⟨fuel - 1, by simp at hf; omega⟩
    simp only [encNodes, List.nil_append] at hd
    rw [sprintLoop_stop hd]
    simp [textNodes]
  | cons x xs ih =>
    intro fuel s len out r hf hd
    have hx : x.valid := hv x (List.mem_cons_self _ _)
    have ih := ih (fun y hy => hv y (List.mem_cons_of_mem _ hy))
    obtain ⟨f, rfl⟩ : ∃ f, fuel = f + 1 := ⟨fuel - 1, by simp at hf; omega⟩
    have hf' : xs.length < f := by simp at hf; omega
    simp only [encNodes, List.append_assoc] at hd
    rw [sprintLoop_node_nobuf x hx hd, ih f _ _ _ r hf' (drop_of_drop hd)]
    simp [textNodes, Nat.add_assoc]

/-- With a buffer that is too small the serializer returns 0, having stored an initial
part of the reference rendering. -/
theorem sprintLoop_short (d : List Nat) (mode : Int) (maxlength : Nat) (ns : List Node)
    (hv : ∀ x ∈ ns, x.valid) :
    ∀ (fuel s len : Nat) (out r : List Nat), ns.length < fuel →
      d.drop s = encNodes ns ++ ST_STOP :: r → out.length = len →
      maxlength ≤ len + (textNodes (decide (mode ≠ GCRYSEXP_FMT_CANON)) ns).length →
      ∃ t, t <+: textNodes (decide (mode ≠ GCRYSEXP_FMT_CANON)) ns ∧
        sprintLoop d mode true maxlength fuel s len out = .ok (0, out ++ t) := by
  induction ns with
  | nil =>
    intro fuel s len out r hf hd ho hl
    obtain ⟨f, rfl⟩ : ∃ f, fuel = f + 1 := ⟨fuel - 1, by simp at hf; omega⟩
    simp only [encNodes, List.nil_append] at hd
    simp only [textNodes, List.length_nil, Nat.add_zero] at hl
    refine ⟨[], List.prefix_refl _, ?_⟩
    rw [sprintLoop_stop hd]
    simp
    intro h
    omega
  | cons x xs ih =>
    intro fuel s len out r hf hd ho hl
    have hx : x.valid := hv x (List.mem_cons_self _ _)
    have ih := ih (fun y hy => hv y (List.mem_cons_of_mem _ hy))
    obtain ⟨f, rfl⟩ : ∃ f, fuel = f + 1 := ⟨fuel - 1, by simp at hf; omega⟩
    have hf' : xs.length < f := by simp at hf; omega
    simp only [encNodes, List.append_assoc] at hd
    simp only [textNodes, List.length_append] at hl ⊢
    rw [sprintLoop_node_buf x hx hd ho]
    split_ifs with h
    · exact ⟨[], List.nil_prefix, by simp⟩
    · obtain ⟨t, ht, he⟩ := ih f (s + x.enc.length)
        (len + (x.text (decide (mode ≠ GCRYSEXP_FMT_CANON))).length)
        (out ++ x.text (decide (mode ≠ GCRYSEXP_FMT_CANON))) r hf' (drop_of_drop hd)
        (by simp [ho]) (by omega)
      refine ⟨x.text (decide (mode ≠ GCRYSEXP_FMT_CANON)) ++ t, ?_, ?_⟩
      · exact (List.prefix_append_right_inj _).mpr ht
      · rw [he]; simp

/-- The serializer on the tree of a node stream, with a buffer that is large enough. -/
theorem sprint_fits (ns : List Node) (hv : ∀ x ∈ ns, x.valid) (mode : Int) (maxlength : Nat)
    (hl : (textNodes (decide (mode ≠ GCRYSEXP_FMT_CANON)) ns).length < maxlength) :
    gcry_sexp_sprint (some (encNodes ns ++ [ST_STOP])) mode true maxlength =
      .ok ((textNodes (decide (mode ≠ GCRYSEXP_FMT_CANON)) ns).length,
           textNodes (decide (mode ≠ GCRYSEXP_FMT_CANON)) ns ++ [0]) := by
  unfold gcry_sexp_sprint
  have := sprintLoop_fits (encNodes ns ++ [ST_STOP]) mode maxlength ns hv
    ((encNodes ns ++ [ST_STOP]).length + 1) 0 0 [] []
    (by have := length_encNodes_ge ns; simp; omega) (by simp) rfl (by simpa using hl)
  simpa using this

/-- The serializer on the tree of a node stream, without a buffer. -/
theorem sprint_nobuf (ns : List Node) (hv : ∀ x ∈ ns, x.valid) (mode : Int) (maxlength : Nat) :
    gcry_sexp_sprint (some (encNodes ns ++ [ST_STOP])) mode false maxlength =
      .ok ((textNodes (decide (mode ≠ GCRYSEXP_FMT_CANON)) ns).length + 1, []) := by
  unfold gcry_sexp_sprint
  have := sprintLoop_nobuf (encNodes ns ++ [ST_STOP]) mode maxlength ns hv
    ((encNodes ns ++ [ST_STOP]).length + 1) 0 0 [] []
    (by have := length_encNodes_ge ns; simp; omega) (by simp)
  simpa using this

/-- The serializer on the tree of a node stream, with a buffer that is too small. -/
theorem sprint_short (ns : List Node) (hv : ∀ x ∈ ns, x.valid) (mode : Int) (maxlength : Nat)
    (hl : maxlength ≤ (textNodes (decide (mode ≠ GCRYSEXP_FMT_CANON)) ns).length) :
    ∃ t, t <+: textNodes (decide (mode ≠ GCRYSEXP_FMT_CANON)) ns ∧
      gcry_sexp_sprint (some (encNodes ns ++ [ST_STOP])) mode true maxlength = .ok (0, t) := by
  unfold gcry_sexp_sprint
  have := sprintLoop_short (encNodes ns ++ [ST_STOP]) mode maxlength ns hv
    ((encNodes ns ++ [ST_STOP]).length + 1) 0 0 [] []
    (by have := length_encNodes_ge ns; simp; omega) (by simp) rfl (by simpa using hl)
  simpa using this

theorem sprint_null (mode : Int) (hasBuffer : Bool) (maxlength : Nat) :
    gcry_sexp_sprint none mode hasBuffer maxlength =
      gcry_sexp_sprint (some (encNodes [.opn, .cls] ++ [ST_STOP])) mode hasBuffer maxlength := by
  rfl

/-- C8: for every well-formed tree (a stream of `ST_OPEN`, `ST_CLOSE` and `ST_DATA` nodes
whose length fields match their payloads, ended by `ST_STOP`) `gcry_sexp_sprint`, given
room, stores exactly the reference rendering (`(`, `)`, and decimal length, `:`, raw
bytes for an atom) followed by a NUL and returns its length: in canonical mode with
nothing else, in any other mode with a newline after every `)`; the null tree is
rendered like the tree `ST_OPEN ST_CLOSE ST_STOP`, that is as `()` (and `()` with a
newline in advanced mode). -/
theorem C8_sprint_reference_rendering (ns : List Node) (hv : ∀ x ∈ ns, x.valid)
    (mode : Int) (maxlength : Nat) :
    (mode = GCRYSEXP_FMT_CANON → (textNodes false ns).length < maxlength →
      gcry_sexp_sprint (some (encNodes ns ++ [ST_STOP])) mode true maxlength =
        .ok ((textNodes false ns).length, textNodes false ns ++ [0])) ∧
    (mode ≠ GCRYSEXP_FMT_CANON → (textNodes true ns).length < maxlength →
      gcry_sexp_sprint (some (encNodes ns ++ [ST_STOP])) mode true maxlength =
        .ok ((textNodes true ns).length, textNodes true ns ++ [0])) ∧
    (mode = GCRYSEXP_FMT_CANON → 2 < maxlength →
      gcry_sexp_sprint none mode true maxlength = .ok (2, [40, 41, 0])) ∧
    (mode ≠ GCRYSEXP_FMT_CANON → 3 < maxlength →
      gcry_sexp_sprint none mode true maxlength = .ok (3, [40, 41, 10, 0])) := by
  refine ⟨?_, ?_, ?_, ?_⟩
  · intro hm hl
    have := sprint_fits ns hv mode maxlength (by simpa [hm] using hl)
    simpa [hm] using this
  · intro hm hl
    have := sprint_fits ns hv mode maxlength (by simpa [hm] using hl)
    simpa [hm] using this
  · intro hm hl
    rw [sprint_null]
    have := sprint_fits [.opn, .cls] (by intro x hx; cases x <;> simp [Node.valid] at hx ⊢)
      mode maxlength (by simpa [hm, textNodes, Node.text] using hl)
    simpa [hm, textNodes, Node.text] using this
  · intro hm hl
    rw [sprint_null]
    have := sprint_fits [.opn, .cls] (by intro x hx; cases x <;> simp [Node.valid] at hx ⊢)
      mode maxlength (by simpa [hm, textNodes, Node.text] using hl)
    simpa [hm, textNodes, Node.text] using this

/-- C8 at the tree of `(abc)`: canonical mode gives `(3:abc)`, advanced mode adds a
newline. -/
theorem C8_sprint_reference_rendering_witness :
    gcry_sexp_sprint (some [3, 1, 3, 0, 97, 98, 99, 4, 0]) GCRYSEXP_FMT_CANON true 8 =
        .ok (7, [40, 51, 58, 97, 98, 99, 41, 0]) ∧
    gcry_sexp_sprint (some [3, 1, 3, 0, 97, 98, 99, 4, 0]) 3 true 9 =
        .ok (8, [40, 51, 58, 97, 98, 99, 41, 10, 0]) :=
  ⟨(C8_sprint_reference_rendering [.opn, .data [97, 98, 99], .cls] (by decide)
      GCRYSEXP_FMT_CANON 8).1 rfl (by decide),
   (C8_sprint_reference_rendering [.opn, .data [97, 98, 99], .cls] (by decide)
      3 9).2.1 (by decide) (by decide)⟩

/-- C9: let `r` be the value `gcry_sexp_sprint` returns for a well-formed tree (or the
null tree) with a null buffer; `r` is the length of the rendering plus one.  With a
buffer of capacity `c` the call returns `r - 1` and stores the rendering and a NUL when
`c ≥ r`, and returns 0 (having stored only an initial part of the rendering) when
`c < r`. -/
theorem C9_sprint_sizing (ns : List Node) (hv : ∀ x ∈ ns, x.valid) (mode : Int)
    (L : Option (List Nat)) (hL : L = some (encNodes ns ++ [ST_STOP]) ∨
      (L = none ∧ ns = [.opn, .cls])) :
    (∀ maxlength, gcry_sexp_sprint L mode false maxlength =
      .ok ((textNodes (decide (mode ≠ GCRYSEXP_FMT_CANON)) ns).length + 1, [])) ∧
    (∀ c, (textNodes (decide (mode ≠ GCRYSEXP_FMT_CANON)) ns).length + 1 ≤ c →
      gcry_sexp_sprint L mode true c =
        .ok ((textNodes (decide (mode ≠ GCRYSEXP_FMT_CANON)) ns).length + 1 - 1,
             textNodes (decide (mode ≠ GCRYSEXP_FMT_CANON)) ns ++ [0])) ∧
    (∀ c, c < (textNodes (decide (mode ≠ GCRYSEXP_FMT_CANON)) ns).length + 1 →
      ∃ t, t <+: textNodes (decide (mode ≠ GCRYSEXP_FMT_CANON)) ns ∧
        gcry_sexp_sprint L mode true c = .ok (0, t)) := by
  have hL' : ∀ hb ml, gcry_sexp_sprint L mode hb ml =
      gcry_sexp_sprint (some (encNodes ns ++ [ST_STOP])) mode hb ml := by
    intro hb ml
    rcases hL with h | ⟨h1, h2⟩
    · rw [h]
    · rw [h1, h2, sprint_null]
  refine ⟨?_, ?_, ?_⟩
  · intro ml
    rw [hL', sprint_nobuf ns hv]
  · intro c hc
    rw [hL', sprint_fits ns hv mode c (by omega)]
    simp
  · intro c hc
    rw [hL']
    exact sprint_short ns hv mode c (by omega)

/-- C9 at the tree of `(abc)` in canonical mode: a null buffer gives 8, capacity 8
succeeds with 7 and the text `(3:abc)`, capacity 7 returns 0. -/
theorem C9_sprint_sizing_witness :
    gcry_sexp_sprint (some [3, 1, 3, 0, 97, 98, 99, 4, 0]) GCRYSEXP_FMT_CANON false 0 =
      .ok (8, []) ∧
    gcry_sexp_sprint (some [3, 1, 3, 0, 97, 98, 99, 4, 0]) GCRYSEXP_FMT_CANON true 8 =
      .ok (7, [40, 51, 58, 97, 98, 99, 41, 0]) ∧
    ∃ t, t <+: [40, 51, 58, 97, 98, 99, 41] ∧
      gcry_sexp_sprint (some [3, 1, 3, 0, 97, 98, 99, 4, 0]) GCRYSEXP_FMT_CANON true 7 =
        .ok (0, t) :=
  ⟨(C9_sprint_sizing [.opn, .data [97, 98, 99], .cls] (by decide) GCRYSEXP_FMT_CANON _
      (Or.inl rfl)).1 0,
   (C9_sprint_sizing [.opn, .data [97, 98, 99], .cls] (by decide) GCRYSEXP_FMT_CANON _
      (Or.inl rfl)).2.1 8 (by decide),
   (C9_sprint_sizing [.opn, .data [97, 98, 99], .cls] (by decide) GCRYSEXP_FMT_CANON _
      (Or.inl rfl)).2.2 7 (by decide)⟩

/-! ### `gcry_sexp_nth_data` -/

theorem exists_succ_of_lt {a fuel : Nat} (h : a < fuel) : ∃ f, fuel = f + 1 :=
  ⟨fuel - 1, by omega⟩

theorem offset_zero (F : Elems) : F.offset 0 = 0 := by
  cases F <;> rfl

/-- The bytes of a sequence of elements, from the start of its `k`-th element on. -/
theorem flat_drop_offset (F : Elems) :
    ∀ k, F.flat.drop (F.offset k) =
      match F.get? k with
      | some (.atom b) => encData b ++ F.flat.drop (F.offset (k + 1))
      | some (.list inner) =>
          ST_OPEN :: (inner.flat ++ ST_CLOSE :: F.flat.drop (F.offset (k + 1)))
      | none => [] := by
  induction F with
  | nil => intro k; simp [Elems.flat, Elems.get?]
  | atom b rest ih =>
    intro k
    cases k with
    | zero => simp [Elems.flat, Elems.get?, Elems.offset, offset_zero]
    | succ k =>
      have := ih k
      simp only [Elems.flat, Elems.get?, Elems.offset]
      rw [List.drop_append, this]
      cases rest.get? k with
      | none => simp
      | some e =>
        cases e <;> simp [List.drop_append]
  | list inner rest ih1 ih2 =>
    intro k
    have e1 : ∀ m, (ST_OPEN :: (inner.flat ++ ST_CLOSE :: rest.flat)).drop
        (1 + inner.flat.length + 1 + m) = rest.flat.drop m := by
      intro m
      have : 1 + inner.flat.length + 1 + m = (inner.flat.length + (m + 1)) + 1 := by omega
      rw [this, List.drop_succ_cons, List.drop_append]
      simp
    have e1z := e1 0
    simp only [Nat.add_zero, List.drop_zero] at e1z
    cases k with
    | zero => simp [Elems.flat, Elems.get?, Elems.offset, offset_zero, e1z]
    | succ k =>
      have := ih2 k
      simp only [Elems.flat, Elems.get?, Elems.offset]
      rw [e1, this]
      cases rest.get? k with
      | none => simp
      | some e =>
        cases e <;> simp [e1]

theorem get?_lt_count (F : Elems) : ∀ k e, F.get? k = some e → k < F.count := by
  induction F with
  | nil => intro k e h; simp [Elems.get?] at h
  | atom b rest ih =>
    intro k e h
    cases k with
    | zero => simp [Elems.count]
    | succ k => simp only [Elems.get?] at h; have := ih k e h; simp [Elems.count]; omega
  | list inner rest ih1 ih2 =>
    intro k e h
    cases k with
    | zero => simp [Elems.count]
    | succ k => simp only [Elems.get?] at h; have := ih2 k e h; simp [Elems.count]; omega

theorem offset_le (F : Elems) : ∀ k, F.offset k ≤ F.flat.length := by
  induction F with
  | nil => intro k; simp [Elems.offset]
  | atom b rest ih =>
    intro k
    cases k with
    | zero => simp [Elems.offset]
    | succ k => have := ih k; simp [Elems.offset, Elems.flat]; omega
  | list inner rest ih1 ih2 =>
    intro k
    cases k with
    | zero => simp [Elems.offset]
    | succ k => have := ih2 k; simp [Elems.offset, Elems.flat]; omega

/-- The bytes of a list tree from the start of its `k`-th element on. -/
theorem listTree_drop (es : Elems) (k : Nat) :
    (listTree es).drop (1 + es.offset k) =
      es.flat.drop (es.offset k) ++ [ST_CLOSE, ST_STOP] := by
  unfold listTree
  rw [Nat.add_comm, List.drop_succ_cons, List.drop_append_of_le_length (offset_le es k)]

theorem length_listTree (es : Elems) : (listTree es).length = es.flat.length + 3 := by
  simp [listTree]

/-- C1 fails on the input `(##)`: the scanner returns 0 with the tree
`ST_OPEN, ST_DATA of length 0, ST_CLOSE, ST_STOP`; the serializer asks for 5 bytes and
renders the tree in canonical mode as `(0:)`; scanning `(0:)` returns -7 at offset 1, a
length may not begin with zero. -/
theorem C1_roundtrip_counterexample :
    gcry_sexp_sscan [40, 35, 35, 41] 4 = .ok (.done (some [3, 1, 0, 0, 4, 0]) false) ∧
    gcry_sexp_sprint (some [3, 1, 0, 0, 4, 0]) GCRYSEXP_FMT_CANON false 0 = .ok (5, []) ∧
    gcry_sexp_sprint (some [3, 1, 0, 0, 4, 0]) GCRYSEXP_FMT_CANON true 5 =
      .ok (4, [40, 48, 58, 41, 0]) ∧
    gcry_sexp_sscan [40, 48, 58, 41] 4 = .ok (.fail (-7) 1) := by
  decide

/-- The tree the scanner returns for `(a b c)`. -/
theorem sscan_abc :
    gcry_sexp_sscan [40, 97, 32, 98, 32, 99, 41] 7 =
      .ok (.done (some [3, 1, 1, 0, 97, 1, 1, 0, 98, 1, 1, 0, 99, 4, 0]) false) := by
  decide

/-- C2 fails: on the tree of `(a b c)` the atom branch of `gcry_sexp_nth` reads its
16-bit length at the tag (`memcpy ( &n, p, sizeof n )` with `*p == ST_DATA`), gets
`1 + 256 * 1 = 257` and copies 257 bytes from the second length byte on, which leaves
the 15-byte tree, for index 0 (`gcry_sexp_car`) as for index 2.  Where the misread length
stays inside the tree, as for a list with one atom of 256 bytes, the result is the two
bytes `ST_DATA, ST_STOP` and not the atom. -/
theorem C2_nth_atom_misreads_length :
    gcry_sexp_car (some [3, 1, 1, 0, 97, 1, 1, 0, 98, 1, 1, 0, 99, 4, 0]) = .err .oobRead ∧
    gcry_sexp_nth (some [3, 1, 1, 0, 97, 1, 1, 0, 98, 1, 1, 0, 99, 4, 0]) 2 = .err .oobRead ∧
    read16 [3, 1, 1, 0, 97, 1, 1, 0, 98, 1, 1, 0, 99, 4, 0] 1 = some 257 ∧
    gcry_sexp_nth (some (listTree (.atom (List.replicate 256 97) .nil))) 0 =
      .ok (some [1, 0]) := by
  refine ⟨by decide, by decide, by decide, ?_⟩
  set_option maxRecDepth 100000 in decide

/-- C3 fails: on the tree of `(a b c)` `gcry_sexp_cdr` returns the list with the single
element `b`, which the serializer renders as `(1:b)`; the element `c` is lost. -/
theorem C3_cdr_keeps_one_element :
    gcry_sexp_cdr (some [3, 1, 1, 0, 97, 1, 1, 0, 98, 1, 1, 0, 99, 4, 0]) =
      .ok (some [3, 1, 1, 0, 98, 4, 0]) ∧
    gcry_sexp_sprint (some [3, 1, 1, 0, 98, 4, 0]) GCRYSEXP_FMT_CANON true 6 =
      .ok (5, [40, 49, 58, 98, 41, 0]) := by
  decide

/-- C4 fails: `gcry_sexp_length` returns 0 for the null tree, but it counts the nodes at
depth 0, so that the tree of `(()())`, a list of two elements, has length 1; and at an
atom it reads the 16-bit length one byte too far (`p++` followed by
`memcpy ( &n, ++p, sizeof n )`), so that on the tree of `(a b c)` it reads
`0 + 256 * 97` and leaves the tree. -/
theorem C4_length_counts_depth_zero :
    gcry_sexp_length none = .ok 0 ∧
    gcry_sexp_length (some [3, 3, 4, 3, 4, 4, 0]) = .ok 1 ∧
    read16 [3, 1, 1, 0, 97, 1, 1, 0, 98, 1, 1, 0, 99, 4, 0] 3 = some 24832 ∧
    gcry_sexp_length (some [3, 1, 1, 0, 97, 1, 1, 0, 98, 1, 1, 0, 99, 4, 0]) =
      .err .oobRead := by
  decide

/-- C10 fails: for the input `()(a)` the scanner emits the node stream
`ST_OPEN ST_CLOSE ST_OPEN ST_DATA a ST_CLOSE ST_STOP`, which is not `ST_OPEN ST_CLOSE
ST_STOP` and does not start with `ST_STOP`, and still returns 0 with the null tree:
`normalize` looks at the first two tags only.  The empty input and `()` give the null
tree. -/
theorem C10_normalize_drops_nonempty_stream :
    (∃ c, scanEmit [40, 41, 40, 97, 41] 5 none = .ok (.built c) ∧
      c.sexp = [3, 4, 3, 1, 1, 0, 97, 4, 0]) ∧
    gcry_sexp_sscan [40, 41, 40, 97, 41] 5 = .ok (.done none false) ∧
    gcry_sexp_sscan [] 0 = .ok (.done none false) ∧
    gcry_sexp_sscan [40, 41] 2 = .ok (.done none false) := by
  refine ⟨⟨⟨[3, 4, 3, 1, 1, 0, 97, 4, 0], 15, false⟩, by decide, rfl⟩, by decide, by decide,
    by decide⟩

/-! ### The scanner on canonical text -/

theorem digitsVal_utoaAux (fuel : Nat) : ∀ (n : Nat) (acc : List Nat), n < fuel →
    digitsVal (utoaAux fuel n acc) 0 = digitsVal acc n := by
  induction fuel with
  | zero => intro n acc h; omega
  | succ f ih =>
    intro n acc h
    unfold utoaAux
    split_ifs with h10
    · simp [digitsVal]
    · rw [ih _ _ (by omega)]
      simp only [digitsVal, List.foldl_cons]
      congr 1
      omega

theorem digitsVal_utoa (n : Nat) : digitsVal (utoa n) 0 = n := by
  unfold utoa
  rw [digitsVal_utoaAux _ _ _ (by omega)]
  simp [digitsVal]

theorem utoaAux_digits (fuel : Nat) : ∀ (n : Nat) (acc : List Nat),
    (∀ x ∈ acc, 48 ≤ x ∧ x ≤ 57) → ∀ x ∈ utoaAux fuel n acc, 48 ≤ x ∧ x ≤ 57 := by
  induction fuel with
  | zero => intro n acc h; simpa [utoaAux] using h
  | succ f ih =>
    intro n acc h
    unfold utoaAux
    split_ifs with h10
    · intro x hx
      rcases List.mem_cons.mp hx with rfl | hx
      · omega
      · exact h x hx
    · apply ih
      intro x hx
      rcases List.mem_cons.mp hx with rfl | hx
      · omega
      · exact h x hx

theorem utoa_digits (n : Nat) : ∀ x ∈ utoa n, 48 ≤ x ∧ x ≤ 57 :=
  utoaAux_digits _ _ _ (by simp)

theorem utoaAux_head (fuel : Nat) : ∀ (n : Nat) (acc : List Nat), 1 ≤ n → n < fuel →
    ∃ c rest, utoaAux fuel n acc = c :: rest ∧ 49 ≤ c ∧ c ≤ 57 := by
  induction fuel with
  | zero => intro n acc _ h; omega
  | succ f ih =>
    intro n acc h1 h
    unfold utoaAux
    split_ifs with h10
    · exact ⟨48 + n, acc, rfl, by omega, by omega⟩
    · exact ih _ _ (by omega) (by omega)

theorem utoa_head (n : Nat) (h : 1 ≤ n) : ∃ c rest, utoa n = c :: rest ∧ 49 ≤ c ∧ c ≤ 57 :=
  utoaAux_head _ _ _ h (by omega)

/-- The library function `atoi` reads back a run of digits that a non-digit ends. -/
theorem atoiLoop_digits (buffer : List Nat) (ds : List Nat) :
    ∀ (fuel p acc ch : Nat) (rest : List Nat), (∀ x ∈ ds, 48 ≤ x ∧ x ≤ 57) →
      isdigit ch = false → buffer.drop p = ds ++ ch :: rest → ds.length < fuel →
      atoiLoop buffer fuel p acc = digitsVal ds acc := by
  induction ds with
  | nil =>
    intro fuel p acc ch rest _ hch hd hf
    obtain ⟨f, rfl⟩ := exists_succ_of_lt hf
    simp only [List.nil_append] at hd
    simp [atoiLoop, get_of_drop hd, hch, digitsVal]
  | cons x xs ih =>
    intro fuel p acc ch rest hds hch hd hf
    obtain ⟨f, rfl⟩ := exists_succ_of_lt hf
    simp only [List.cons_append] at hd
    have hx := hds x (List.mem_cons_self _ _)
    have hxd : isdigit x = true := by simp [isdigit, hx]
    simp only [atoiLoop, get_of_drop hd, hxd, if_true]
    rw [ih f (p + 1) _ ch rest (fun y hy => hds y (List.mem_cons_of_mem _ hy)) hch
      (drop_succ_of_drop hd) (by simpa using hf)]
    simp [digitsVal]

theorem atoi_utoa (buffer : List Nat) (p n : Nat) (rest : List Nat)
    (hn : n ≤ 2147483647) (hd : buffer.drop p = utoa n ++ 58 :: rest) :
    atoi buffer p = .ok n := by
  unfold atoi
  have hl := length_of_drop hd
  simp at hl
  rw [atoiLoop_digits buffer (utoa n) _ p 0 58 rest (utoa_digits n) (by decide) hd (by omega),
    digitsVal_utoa]
  simp [hn]

/-- After `MAKE_SPACE (n)` there is room for `n + 3` bytes. -/
theorem store_make_space (c : make_space_ctx) (n : Nat) (bs : List Nat)
    (hc : c.sexp.length ≤ c.allocated) (hb : bs.length ≤ n + 3) :
    store (make_space c n) bs =
      .ok { sexp := c.sexp ++ bs, allocated := (make_space c n).allocated,
            secure := c.secure } ∧
    (c.sexp ++ bs).length ≤ (make_space c n).allocated := by
  unfold store make_space
  split_ifs with h1 h2 h3
  · simp
    simp at h2
    omega
  · simp at h2
    omega
  · simp
    simp at h3
    omega
  · simp at h3 h1
    omega

/-- The block after a store that follows `MAKE_SPACE (n)`. -/
theorem scanLoop_open {buffer : List Nat} {fuel p n : Nat} {c : make_space_ctx}
    {r : List Nat} (hn : n ≠ 0) (hd : buffer.drop p = 40 :: r)
    (hc : c.sexp.length ≤ c.allocated) :
    scanLoop buffer (fuel + 1) (topState p n c) =
      scanLoop buffer fuel (topState (p + 1) (n - 1)
        { sexp := c.sexp ++ [ST_OPEN], allocated := (make_space c 0).allocated,
          secure := c.secure }) := by
  have hs := (store_make_space c 0 [ST_OPEN] hc (by simp)).1
  rw [scanLoop, if_pos (by simpa [topState] using hn)]
  simp [scanBody, dispatch, topBranch, topState, get_of_drop hd, hs, hn]

theorem scanLoop_close {buffer : List Nat} {fuel p n : Nat} {c : make_space_ctx}
    {r : List Nat} (hn : n ≠ 0) (hd : buffer.drop p = 41 :: r)
    (hc : c.sexp.length ≤ c.allocated) :
    scanLoop buffer (fuel + 1) (topState p n c) =
      scanLoop buffer fuel (topState (p + 1) (n - 1)
        { sexp := c.sexp ++ [ST_CLOSE], allocated := (make_space c 0).allocated,
          secure := c.secure }) := by
  have hs := (store_make_space c 0 [ST_CLOSE] hc (by simp)).1
  rw [scanLoop, if_pos (by simpa [topState] using hn)]
  simp [scanBody, dispatch, topBranch, topState, get_of_drop hd, hs, hn]

theorem scanLoop_end {buffer : List Nat} {fuel p : Nat} {c : make_space_ctx}
    (hc : c.sexp.length ≤ c.allocated) :
    scanLoop buffer (fuel + 1) (topState p 0 c) =
      .ok (.built { sexp := c.sexp ++ [ST_STOP], allocated := (make_space c 0).allocated,
                    secure := c.secure }) := by
  have hs := (store_make_space c 0 [ST_STOP] hc (by simp)).1
  rw [scanLoop, if_neg (by simp [topState])]
  simp [topState, hs]

/-- A digit other than `0` at the top level opens a decimal length. -/
theorem scanLoop_digit1 {buffer : List Nat} {fuel p n ch : Nat} {c : make_space_ctx}
    {r : List Nat} (hn : n ≠ 0) (hd : buffer.drop p = ch :: r) (h1 : 49 ≤ ch) (h2 : ch ≤ 57) :
    scanLoop buffer (fuel + 1) (topState p n c) =
      scanLoop buffer fuel (digState (p + 1) (n - 1) p c) := by
  rw [scanLoop, if_pos (by simpa [topState] using hn)]
  have hdig : isdigit ch = true := by simp [isdigit]; omega
  have e1 : ch ≠ 40 := by omega
  have e2 : ch ≠ 41 := by omega
  have e3 : ch ≠ 34 := by omega
  have e4 : ch ≠ 35 := by omega
  have e5 : ch ≠ 124 := by omega
  have e6 : ch ≠ 91 := by omega
  have e7 : ch ≠ 93 := by omega
  have e8 : ch ≠ 48 := by omega
  simp [scanBody, dispatch, topBranch, topState, digState, get_of_drop hd, hn, hdig,
    e1, e2, e3, e4, e5, e6, e7, e8]

/-- Inside a decimal length the digits are passed over. -/
theorem scanLoop_digits (buffer : List Nat) (ds : List Nat) :
    ∀ (fuel p n dp : Nat) (c : make_space_ctx) (r : List Nat),
      (∀ x ∈ ds, 48 ≤ x ∧ x ≤ 57) → buffer.drop p = ds ++ r → ds.length ≤ n →
      scanLoop buffer (fuel + ds.length) (digState p n dp c) =
        scanLoop buffer fuel (digState (p + ds.length) (n - ds.length) dp c) := by
  induction ds with
  | nil => intro fuel p n dp c r _ _ _; simp
  | cons x xs ih =>
    intro fuel p n dp c r hds hd hn
    simp only [List.cons_append] at hd
    simp only [List.length_cons] at hn ⊢
    have hx := hds x (List.mem_cons_self _ _)
    have hxd : isdigit x = true := by simp [isdigit, hx]
    have hn0 : n ≠ 0 := by omega
    rw [← Nat.add_assoc, scanLoop, if_pos (by simpa [digState, topState] using hn0)]
    have := ih fuel (p + 1) (n - 1) dp c r (fun y hy => hds y (List.mem_cons_of_mem _ hy))
      (drop_succ_of_drop hd) (by omega)
    simp [scanBody, dispatch, digBranch, topState, digState, get_of_drop hd, hn0, hxd] at this ⊢
    rw [this]
    congr 2 <;> omega

theorem STORE_LEN_eq (n : Nat) (h : n < 65536) : STORE_LEN n = [n % 256, n / 256 % 256] := by
  unfold STORE_LEN
  rw [Nat.mod_eq_of_lt h]
  congr 2
  all_goals omega

/-- The `:` that ends a decimal length: the payload is stored as one atom and skipped. -/
theorem scanLoop_colon {buffer : List Nat} {fuel p n dp : Nat} {c : make_space_ctx}
    {b rest : List Nat} (hb : b.length < 65536) (hn : b.length + 1 ≤ n)
    (hdp : buffer.drop dp = utoa b.length ++ 58 :: (b ++ rest))
    (hd : buffer.drop p = 58 :: (b ++ rest)) (hc : c.sexp.length ≤ c.allocated) :
    scanLoop buffer (fuel + 1) (digState p n dp c) =
      scanLoop buffer fuel (topState (p + b.length + 1) (n - b.length - 1)
        { sexp := c.sexp ++ encData b, allocated := (make_space c b.length).allocated,
          secure := c.secure }) := by
  have hn0 : n ≠ 0 := by omega
  have hat := atoi_utoa buffer dp b.length (b ++ rest) (by omega) hdp
  have hlen := lt_of_drop hd
  have hcopy : copy buffer (p + 1) b.length = some b :=
    copy_of_drop (drop_succ_of_drop hd) (by omega)
  have hs := (store_make_space c b.length (encData b) hc (by simp [encData])).1
  simp only [encData] at hs
  have hn1 : ¬ (n ≤ b.length) := by omega
  have hn2 : n - b.length ≠ 0 := by omega
  have hle : ¬ (b.length > n - 1) := by omega
  rw [scanLoop, if_pos (by simpa [digState, topState] using hn0)]
  simp only [scanBody, dispatch, digBranch, topState, digState, get_of_drop hd]
  simp [isdigit, hat, hle, hcopy, storeData, hs, STORE_LEN_eq _ hb, encData, hn1, hn2]

/-- The scanner on the canonical rendering of a node stream: it rebuilds the stream. -/
theorem scanLoop_text (buffer : List Nat) (ns : List Node) (hns : ∀ x ∈ ns, x.printable) :
    ∀ (fuel p : Nat) (c : make_space_ctx) (tl : List Nat),
      buffer.drop p = textNodes false ns ++ tl → (textNodes false ns).length < fuel →
      c.sexp.length ≤ c.allocated →
      ∃ a, scanLoop buffer fuel (topState p (textNodes false ns).length c) =
        .ok (.built { sexp := c.sexp ++ encNodes ns ++ [ST_STOP], allocated := a,
                      secure := c.secure }) := by
  induction ns with
  | nil =>
    intro fuel p c tl _ hf hc
    obtain ⟨f, rfl⟩ := exists_succ_of_lt hf
    exact ⟨_, by simpa [textNodes, encNodes] using @scanLoop_end buffer f p c hc⟩
  | cons x xs ih =>
    intro fuel p c tl hd hf hc
    have ih := ih (fun y hy => hns y (List.mem_cons_of_mem _ hy))
    have hx := hns x (List.mem_cons_self _ _)
    obtain ⟨f, rfl⟩ := exists_succ_of_lt hf
    cases x with
    | opn =>
      simp only [textNodes, Node.text, List.cons_append, List.nil_append, List.length_cons] at hd hf ⊢
      rw [scanLoop_open (by omega) hd hc]
      obtain ⟨a, ha⟩ := ih f (p + 1)
        { sexp := c.sexp ++ [ST_OPEN], allocated := (make_space c 0).allocated,
          secure := c.secure } tl (drop_succ_of_drop hd) (by omega)
        (store_make_space c 0 [ST_OPEN] hc (by simp)).2
      exact ⟨a, by simpa [encNodes, Node.enc] using ha⟩
    | cls =>
      simp only [textNodes, Node.text, List.cons_append, List.nil_append, List.length_cons,
        Bool.false_eq_true, if_false] at hd hf ⊢
      rw [scanLoop_close (by omega) hd hc]
      obtain ⟨a, ha⟩ := ih f (p + 1)
        { sexp := c.sexp ++ [ST_CLOSE], allocated := (make_space c 0).allocated,
          secure := c.secure } tl (drop_succ_of_drop hd) (by omega)
        (store_make_space c 0 [ST_CLOSE] hc (by simp)).2
      exact ⟨a, by simpa [encNodes, Node.enc] using ha⟩
    | data b =>
      obtain ⟨hb1, hb2⟩ : 1 ≤ b.length ∧ b.length < 65536 := hx
      obtain ⟨ch, ds, hu, h1, h2⟩ := utoa_head b.length hb1
      have hds : ∀ y ∈ ds, 48 ≤ y ∧ y ≤ 57 := fun y hy =>
        utoa_digits b.length y (hu ▸ List.mem_cons_of_mem _ hy)
      have htxt : textNodes false (Node.data b :: xs) =
          ch :: (ds ++ 58 :: (b ++ textNodes false xs)) := by
        simp [textNodes, Node.text, ← utoa_eq_decimal, hu]
      have hd0 : buffer.drop p = ch :: (ds ++ 58 :: (b ++ (textNodes false xs ++ tl))) := by
        rw [hd, htxt]; simp
      have hdp : buffer.drop p = utoa b.length ++ 58 :: (b ++ (textNodes false xs ++ tl)) := by
        rw [hd0, hu]; simp
      rw [htxt] at hf ⊢
      simp only [List.length_cons, List.length_append] at hf ⊢
      have hd1 := drop_succ_of_drop hd0
      have hd2 := drop_of_drop hd1
      obtain ⟨f1, rfl⟩ : ∃ f1, f = (f1 + 1) + ds.length := ⟨f - 1 - ds.length, by omega⟩
      rw [scanLoop_digit1 (by omega) hd0 h1 h2,
        scanLoop_digits buffer ds (f1 + 1) (p + 1) _ p c _ hds hd1 (by omega),
        scanLoop_colon hb2 (by omega) hdp hd2 hc]
      have hd3 := drop_of_drop (drop_succ_of_drop hd2)
      obtain ⟨a, ha⟩ := ih f1 (p + 1 + ds.length + 1 + b.length)
        { sexp := c.sexp ++ encData b, allocated := (make_space c b.length).allocated,
          secure := c.secure } tl hd3 (by omega)
        (by
          have := (store_make_space c b.length (encData b) hc (by simp [encData])).2
          simpa using this)
      refine ⟨a, ?_⟩
      have e1 : p + 1 + ds.length + b.length + 1 = p + 1 + ds.length + 1 + b.length := by omega
      have e2 : ds.length + (b.length + (textNodes false xs).length + 1) + 1 - 1 - ds.length
          - b.length - 1 = (textNodes false xs).length := by omega
      rw [e1, e2, ha]
      simp [encNodes, Node.enc]

/-- The scanner on the canonical rendering of a node stream, whatever follows the
rendering in memory. -/
theorem sscan_text (ns : List Node) (hns : ∀ x ∈ ns, x.printable) (tl : List Nat) :
    gcry_sexp_sscan (textNodes false ns ++ tl) (textNodes false ns).length =
      match normalize (some (encNodes ns ++ [ST_STOP])) with
      | .err e => .err e
      | .ok t => .ok (.done t false) := by
  obtain ⟨a, ha⟩ := scanLoop_text (textNodes false ns ++ tl) ns hns
    ((textNodes false ns ++ tl).length + 1) 0
    { sexp := [], allocated := (textNodes false ns).length + 2, secure := false } tl
    (by simp) (by simp; omega) (by simp)
  have hinit : scanInit (textNodes false ns).length none =
      topState 0 (textNodes false ns).length
        { sexp := [], allocated := (textNodes false ns).length + 2, secure := false } := rfl
  unfold gcry_sexp_sscan sexp_sscan scanEmit
  rw [hinit, ha]
  simp

/-- What `normalize` passes through is its argument. -/
theorem normalize_some {d T : List Nat} (h : normalize (some d) = .ok (some T)) : T = d := by
  unfold normalize at h
  cases h0 : d[0]? with
  | none => simp [h0] at h
  | some t0 =>
    simp only [h0] at h
    split_ifs at h with h1 h2
    · simp at h
    · cases h1' : d[1]? with
      | none => simp [h1'] at h
      | some t1 =>
        simp only [h1'] at h
        split_ifs at h
        · simp at h
        · simpa using h.symm
    · simpa using h.symm

/-- A tree that `gcry_sexp_sscan` returns passes `normalize` unchanged. -/
theorem sscan_done_normalize {s T : List Nat} {n : Nat} {sec : Bool}
    (h : gcry_sexp_sscan s n = .ok (.done (some T) sec)) :
    normalize (some T) = .ok (some T) := by
  unfold gcry_sexp_sscan sexp_sscan at h
  cases he : scanEmit s n none with
  | err e => simp [he] at h
  | ok o =>
    cases o with
    | fail rc off => simp [he] at h
    | built c =>
      simp only [he] at h
      cases hn : normalize (some c.sexp) with
      | err e => simp [hn] at h
      | ok t =>
        simp only [hn, Res.ok.injEq, ScanOut.done.injEq] at h
        obtain ⟨rfl, _⟩ := h
        have := normalize_some hn
        rw [this]
        rw [this] at hn
        exact hn

/-- C1, amended: for every input `s` on which `gcry_sexp_sscan` returns 0 with a non-null
tree `T` that is a well-formed node stream in which every atom has between 1 and 65535
bytes, `gcry_sexp_sprint` in canonical mode, given room, stores the canonical text of
`T` (and a NUL), and on that text `gcry_sexp_sscan` returns 0 with a tree equal to `T`
byte for byte. -/
theorem C1_roundtrip_amended (s T : List Nat) (sec : Bool) (ns : List Node)
    (hscan : gcry_sexp_sscan s s.length = .ok (.done (some T) sec))
    (hT : T = encNodes ns ++ [ST_STOP]) (hns : ∀ x ∈ ns, x.printable) :
    (∀ maxlength, (textNodes false ns).length < maxlength →
      gcry_sexp_sprint (some T) GCRYSEXP_FMT_CANON true maxlength =
        .ok ((textNodes false ns).length, textNodes false ns ++ [0])) ∧
    gcry_sexp_sscan (textNodes false ns) (textNodes false ns).length =
      .ok (.done (some T) false) ∧
    gcry_sexp_sscan (textNodes false ns ++ [0]) (textNodes false ns).length =
      .ok (.done (some T) false) := by
  have hnorm := sscan_done_normalize hscan
  have hv : ∀ x ∈ ns, x.valid := by
    intro x hx
    have := hns x hx
    cases x with
    | data b => exact this.2
    | opn => trivial
    | cls => trivial
  refine ⟨?_, ?_, ?_⟩
  · intro maxlength hl
    have := sprint_fits ns hv GCRYSEXP_FMT_CANON maxlength (by simpa using hl)
    simpa [hT] using this
  · have := sscan_text ns hns []
    rw [← hT, hnorm] at this
    simpa using this
  · have := sscan_text ns hns [0]
    rw [← hT, hnorm] at this
    simpa using this

/-- C1, amended, at the input `(a b c)`: the tree is serialized as `(1:a1:b1:c)`, which
scans to the same tree. -/
theorem C1_roundtrip_amended_witness :
    gcry_sexp_sscan [40, 97, 32, 98, 32, 99, 41] 7 =
      .ok (.done (some [3, 1, 1, 0, 97, 1, 1, 0, 98, 1, 1, 0, 99, 4, 0]) false) ∧
    gcry_sexp_sprint (some [3, 1, 1, 0, 97, 1, 1, 0, 98, 1, 1, 0, 99, 4, 0])
      GCRYSEXP_FMT_CANON true 12 =
        .ok (11, [40, 49, 58, 97, 49, 58, 98, 49, 58, 99, 41, 0]) ∧
    gcry_sexp_sscan [40, 49, 58, 97, 49, 58, 98, 49, 58, 99, 41] 11 =
      .ok (.done (some [3, 1, 1, 0, 97, 1, 1, 0, 98, 1, 1, 0, 99, 4, 0]) false) :=
  ⟨by decide,
   (C1_roundtrip_amended [40, 97, 32, 98, 32, 99, 41]
      [3, 1, 1, 0, 97, 1, 1, 0, 98, 1, 1, 0, 99, 4, 0] false
      [.opn, .data [97], .data [98], .data [99], .cls] (by decide) (by decide)
      (by decide)).1 12 (by decide),
   (C1_roundtrip_amended [40, 97, 32, 98, 32, 99, 41]
      [3, 1, 1, 0, 97, 1, 1, 0, 98, 1, 1, 0, 99, 4, 0] false
      [.opn, .data [97], .data [98], .data [99], .cls] (by decide) (by decide)
      (by decide)).2.1⟩

/-! ### `gcry_sexp_nth` on a sub-list -/

theorem skip_data {d : List Nat} {f p : Nat} {number level : Int} {b r : List Nat}
    (hb : b.length < 65536) (hn : number > 0) (h : d.drop (p + 1) = encData b ++ r) :
    skipLoop d (f + 1) p number level =
      skipLoop d f (p + (b.length + 3)) (if level = 0 then number - 1 else number) level := by
  have h0 : d.drop (p + 1) = ST_DATA :: ((b.length % 256) :: (b.length / 256 % 256) ::
      (b ++ r)) := by simpa [encData] using h
  rw [skipLoop, if_pos hn]
  simp only [get_of_drop h0, read16_encData hb h]
  simp
  congr 1
  omega

theorem skip_open {d : List Nat} {f p : Nat} {number level : Int} {r : List Nat}
    (hn : number > 0) (h : d.drop (p + 1) = ST_OPEN :: r) :
    skipLoop d (f + 1) p number level = skipLoop d f (p + 1) number (level + 1) := by
  rw [skipLoop, if_pos hn]
  simp [get_of_drop h]

theorem skip_close {d : List Nat} {f p : Nat} {number level : Int} {r : List Nat}
    (hn : number > 0) (h : d.drop (p + 1) = ST_CLOSE :: r) :
    skipLoop d (f + 1) p number level =
      skipLoop d f (p + 1) (if level - 1 = 0 then number - 1 else number) (level - 1) := by
  rw [skipLoop, if_pos hn]
  simp [get_of_drop h]

theorem skip_stop {d : List Nat} {f p : Nat} {number level : Int} {r : List Nat}
    (hn : number > 0) (h : d.drop (p + 1) = ST_STOP :: r) :
    skipLoop d (f + 1) p number level = .ok none := by
  rw [skipLoop, if_pos hn]
  simp [get_of_drop h]

theorem skip_zero {d : List Nat} {f p : Nat} {level : Int} :
    skipLoop d (f + 1) p 0 level = .ok (some p) := by
  rw [skipLoop, if_neg (by decide)]

/-- Below the top level the skipping loop of `gcry_sexp_nth` and `gcry_sexp_cdr` walks
over a sequence of elements without touching the counter. -/
theorem skip_inner (d : List Nat) (F : Elems) (hv : F.valid) :
    ∀ (fuel p : Nat) (number level : Int) (r : List Nat), number > 0 → level ≥ 1 →
      d.drop (p + 1) = F.flat ++ r → d.length - (p + 1) < fuel →
      ∃ fuel', d.length - (p + F.flat.length + 1) < fuel' ∧
        skipLoop d fuel p number level = skipLoop d fuel' (p + F.flat.length) number level := by
  induction F with
  | nil =>
    intro fuel p number level r _ _ _ hf
    exact ⟨fuel, by simpa [Elems.flat] using hf, by simp [Elems.flat]⟩
  | atom b rest ih =>
    intro fuel p number level r hn hl hd hf
    obtain ⟨f, rfl⟩ := exists_succ_of_lt hf
    simp only [Elems.flat, List.append_assoc] at hd
    have hlen := length_of_drop hd
    simp [length_encData] at hlen
    obtain ⟨fuel', hf', he⟩ := ih hv.2 f (p + (b.length + 3)) number level r hn hl
      (by
        have := drop_of_drop hd
        rw [length_encData] at this
        rw [← this]; congr 1; omega) (by omega)
    refine ⟨fuel', ?_, ?_⟩
    · simp [Elems.flat, length_encData]; omega
    · rw [skip_data hv.1 hn hd, if_neg (by omega), he]
      simp [Elems.flat, length_encData, Nat.add_assoc, Nat.add_comm, Nat.add_left_comm]
  | list inner rest ih1 ih2 =>
    intro fuel p number level r hn hl hd hf
    obtain ⟨f, rfl⟩ := exists_succ_of_lt hf
    simp only [Elems.flat, List.cons_append, List.append_assoc] at hd
    have hlen := length_of_drop hd
    simp at hlen
    have hd1 := drop_succ_of_drop hd
    obtain ⟨f1, hf1, he1⟩ := ih1 hv.1 f (p + 1) number (level + 1) _ hn (by omega) hd1
      (by omega)
    have hd2 : d.drop (p + 1 + inner.flat.length + 1) = ST_CLOSE :: (rest.flat ++ r) := by
      have := drop_of_drop hd1
      rw [← this]; congr 1; omega
    obtain ⟨f2, rfl⟩ := exists_succ_of_lt hf1
    obtain ⟨fuel', hf', he⟩ := ih2 hv.2 f2 (p + 1 + inner.flat.length + 1) number level r hn hl
      (drop_succ_of_drop hd2) (by omega)
    refine ⟨fuel', ?_, ?_⟩
    · simp [Elems.flat]; omega
    · rw [skip_open hn hd, he1, skip_close hn hd2, if_neg (by omega)]
      simp only [Int.add_sub_cancel]
      rw [he]
      simp [Elems.flat, Nat.add_assoc, Nat.add_comm, Nat.add_left_comm]

/-- At the top level the skipping loop of `gcry_sexp_nth` passes `k` elements and stops
on the last byte in front of the next one. -/
theorem skip_top (d : List Nat) (F : Elems) (hv : F.valid) :
    ∀ (k fuel p : Nat) (r : List Nat), k ≤ F.count →
      d.drop (p + 1) = F.flat ++ r → d.length - (p + 1) < fuel →
      skipLoop d fuel p (k : Int) 0 = .ok (some (p + F.offset k)) := by
  induction F with
  | nil =>
    intro k fuel p r hk hd hf
    obtain ⟨f, rfl⟩ := exists_succ_of_lt hf
    have : k = 0 := by simpa [Elems.count] using hk
    subst this
    simpa [Elems.offset] using @skip_zero d f p 0
  | atom b rest ih =>
    intro k fuel p r hk hd hf
    obtain ⟨f, rfl⟩ := exists_succ_of_lt hf
    cases k with
    | zero => simpa [Elems.offset] using @skip_zero d f p 0
    | succ k =>
      simp only [Elems.flat, List.append_assoc] at hd
      have hlen := length_of_drop hd
      simp [length_encData] at hlen
      have hpos : (((k + 1 : Nat)) : Int) > 0 := by omega
      rw [skip_data hv.1 hpos hd, if_pos rfl]
      have hk' : k ≤ rest.count := by simpa [Elems.count] using hk
      have := ih hv.2 k f (p + (b.length + 3)) r hk'
        (by
          have := drop_of_drop hd
          rw [length_encData] at this
          rw [← this]; congr 1; omega) (by omega)
      have hc : (((k + 1 : Nat)) : Int) - 1 = (k : Int) := by omega
      rw [hc, this]
      simp [Elems.offset, length_encData, Nat.add_assoc]
  | list inner rest ih1 ih2 =>
    intro k fuel p r hk hd hf
    obtain ⟨f, rfl⟩ := exists_succ_of_lt hf
    cases k with
    | zero => simpa [Elems.offset] using @skip_zero d f p 0
    | succ k =>
      simp only [Elems.flat, List.cons_append, List.append_assoc] at hd
      have hlen := length_of_drop hd
      simp at hlen
      have hpos : (((k + 1 : Nat)) : Int) > 0 := by omega
      have hd1 := drop_succ_of_drop hd
      obtain ⟨f1, hf1, he1⟩ := skip_inner d inner hv.1 f (p + 1) ((k + 1 : Nat) : Int)
        (0 + 1) _ hpos (by omega) hd1 (by omega)
      have hd2 : d.drop (p + 1 + inner.flat.length + 1) = ST_CLOSE :: (rest.flat ++ r) := by
        have := drop_of_drop hd1
        rw [← this]; congr 1; omega
      obtain ⟨f2, rfl⟩ := exists_succ_of_lt hf1
      have hk' : k ≤ rest.count := by simpa [Elems.count] using hk
      have := ih2 hv.2 k f2 (p + 1 + inner.flat.length + 1) r hk' (drop_succ_of_drop hd2)
        (by omega)
      have hc : (((k + 1 : Nat)) : Int) - 1 = (k : Int) := by omega
      rw [skip_open hpos hd, he1, skip_close hpos hd2, if_pos (by omega), hc]
      simp only [Int.add_sub_cancel]
      rw [this]
      simp [Elems.offset, Nat.add_assoc, Nat.add_comm, Nat.add_left_comm]

theorem nthEnd_data {d : List Nat} {f p : Nat} {level : Int} {b r : List Nat}
    (hb : b.length < 65536) (hl : level ≠ 0) (h : d.drop (p + 1) = encData b ++ r) :
    nthEndLoop d (f + 1) p level = nthEndLoop d f (p + (b.length + 3)) level := by
  have h0 : d.drop (p + 1) = ST_DATA :: ((b.length % 256) :: (b.length / 256 % 256) ::
      (b ++ r)) := by simpa [encData] using h
  rw [nthEndLoop]
  simp only [get_of_drop h0, read16_encData hb h]
  simp [hl]
  congr 1
  omega

theorem nthEnd_open {d : List Nat} {f p : Nat} {level : Int} {r : List Nat}
    (hl : level + 1 ≠ 0) (h : d.drop (p + 1) = ST_OPEN :: r) :
    nthEndLoop d (f + 1) p level = nthEndLoop d f (p + 1) (level + 1) := by
  rw [nthEndLoop]
  simp [get_of_drop h, hl]

theorem nthEnd_close {d : List Nat} {f p : Nat} {level : Int} {r : List Nat}
    (h : d.drop (p + 1) = ST_CLOSE :: r) :
    nthEndLoop d (f + 1) p level =
      if level - 1 ≠ 0 then nthEndLoop d f (p + 1) (level - 1) else .ok (p + 1) := by
  rw [nthEndLoop]
  simp [get_of_drop h]

/-- The end-of-list loop of `gcry_sexp_nth` walks over a sequence of elements. -/
theorem nthEnd_inner (d : List Nat) (F : Elems) (hv : F.valid) :
    ∀ (fuel p : Nat) (level : Int) (r : List Nat), level ≥ 1 →
      d.drop (p + 1) = F.flat ++ r → d.length - (p + 1) < fuel →
      ∃ fuel', d.length - (p + F.flat.length + 1) < fuel' ∧
        nthEndLoop d fuel p level = nthEndLoop d fuel' (p + F.flat.length) level := by
  induction F with
  | nil =>
    intro fuel p level r _ _ hf
    exact ⟨fuel, by simpa [Elems.flat] using hf, by simp [Elems.flat]⟩
  | atom b rest ih =>
    intro fuel p level r hl hd hf
    obtain ⟨f, rfl⟩ := exists_succ_of_lt hf
    simp only [Elems.flat, List.append_assoc] at hd
    have hlen := length_of_drop hd
    simp [length_encData] at hlen
    obtain ⟨fuel', hf', he⟩ := ih hv.2 f (p + (b.length + 3)) level r hl
      (by
        have := drop_of_drop hd
        rw [length_encData] at this
        rw [← this]; congr 1; omega) (by omega)
    refine ⟨fuel', ?_, ?_⟩
    · simp [Elems.flat, length_encData]; omega
    · rw [nthEnd_data hv.1 (by omega) hd, he]
      simp [Elems.flat, length_encData, Nat.add_assoc, Nat.add_comm, Nat.add_left_comm]
  | list inner rest ih1 ih2 =>
    intro fuel p level r hl hd hf
    obtain ⟨f, rfl⟩ := exists_succ_of_lt hf
    simp only [Elems.flat, List.cons_append, List.append_assoc] at hd
    have hlen := length_of_drop hd
    simp at hlen
    have hd1 := drop_succ_of_drop hd
    obtain ⟨f1, hf1, he1⟩ := ih1 hv.1 f (p + 1) (level + 1) _ (by omega) hd1 (by omega)
    have hd2 : d.drop (p + 1 + inner.flat.length + 1) = ST_CLOSE :: (rest.flat ++ r) := by
      have := drop_of_drop hd1
      rw [← this]; congr 1; omega
    obtain ⟨f2, rfl⟩ := exists_succ_of_lt hf1
    obtain ⟨fuel', hf', he⟩ := ih2 hv.2 f2 (p + 1 + inner.flat.length + 1) level r hl
      (drop_succ_of_drop hd2) (by omega)
    refine ⟨fuel', ?_, ?_⟩
    · simp [Elems.flat]; omega
    · rw [nthEnd_open (by omega) hd, he1, nthEnd_close hd2, if_pos (by omega)]
      simp only [Int.add_sub_cancel]
      rw [he]
      simp [Elems.flat, Nat.add_assoc, Nat.add_comm, Nat.add_left_comm]

/-- From the `ST_OPEN` of a sub-list the end-of-list loop of `gcry_sexp_nth` reaches the
matching `ST_CLOSE`. -/
theorem nthEnd_span (d : List Nat) (inner : Elems) (hv : inner.valid) (p : Nat)
    (r : List Nat) (hd : d.drop p = span inner ++ r) :
    nthEndLoop d (d.length + 1) p 1 = .ok (p + inner.flat.length + 1) := by
  have hd0 : d.drop p = ST_OPEN :: (inner.flat ++ ST_CLOSE :: r) := by
    simpa [span] using hd
  have hlen := length_of_drop hd0
  simp at hlen
  obtain ⟨f1, hf1, he1⟩ := nthEnd_inner d inner hv (d.length + 1) p 1 _ (by omega)
    (drop_succ_of_drop hd0) (by omega)
  have hd2 : d.drop (p + inner.flat.length + 1) = ST_CLOSE :: r := by
    have := drop_of_drop (drop_succ_of_drop hd0)
    rw [← this]; congr 1; omega
  obtain ⟨f2, rfl⟩ := exists_succ_of_lt hf1
  rw [he1, nthEnd_close hd2]
  simp

theorem valid_get?_list (F : Elems) (hv : F.valid) :
    ∀ k inner, F.get? k = some (.list inner) → inner.valid := by
  induction F with
  | nil => intro k b h; simp [Elems.get?] at h
  | atom b0 rest ih =>
    intro k b h
    cases k with
    | zero => simp [Elems.get?] at h
    | succ k => exact ih hv.2 k b (by simpa [Elems.get?] using h)
  | list inner rest ih1 ih2 =>
    intro k b h
    cases k with
    | zero => simp only [Elems.get?, Option.some.injEq, Elem.list.injEq] at h; exact h ▸ hv.1
    | succ k => exact ih2 hv.2 k b (by simpa [Elems.get?] using h)

/-- The call `gcry_sexp_nth` on a well-formed list tree whose `k`-th element is a
sub-list: the span of the sub-list is copied, but only as many bytes of it as the 16-bit
variable `n` says. -/
theorem nth_sublist (es : Elems) (hv : es.valid) (k : Nat) (inner : Elems)
    (h : es.get? k = some (.list inner)) :
    gcry_sexp_nth (some (listTree es)) k =
      normalize (some ((span inner).take ((span inner).length % 65536) ++ [ST_STOP])) := by
  have hk := get?_lt_count es k _ h
  have hiv : inner.valid := valid_get?_list es hv k inner h
  have h0 : (listTree es)[0]? = some ST_OPEN := by simp [listTree]
  have hd1 : (listTree es).drop (0 + 1) = es.flat ++ [ST_CLOSE, ST_STOP] := by simp [listTree]
  have hs := skip_top (listTree es) es hv k ((listTree es).length + 1) 0 _ (by omega) hd1
    (by omega)
  have hdrop := listTree_drop es k
  rw [flat_drop_offset es k, h] at hdrop
  have hdrop' : (listTree es).drop (es.offset k + 1) = span inner ++
      (es.flat.drop (es.offset (k + 1)) ++ [ST_CLOSE, ST_STOP]) := by
    rw [Nat.add_comm]; simpa [span] using hdrop
  have hdo : (listTree es).drop (es.offset k + 1) = ST_OPEN :: (inner.flat ++ ST_CLOSE ::
      (es.flat.drop (es.offset (k + 1)) ++ [ST_CLOSE, ST_STOP])) := by
    simpa [span] using hdrop'
  have he := nthEnd_span (listTree es) inner hiv (es.offset k + 1) _ hdrop'
  have hsl : (span inner).length = inner.flat.length + 2 := by simp [span]
  have hlen := length_of_drop hdrop'
  rw [List.length_append, hsl] at hlen
  have hcopy : copy (listTree es) (es.offset k + 1) ((span inner).length % 65536) =
      some ((span inner).take ((span inner).length % 65536)) := by
    unfold copy
    have hm : (span inner).length % 65536 ≤ (span inner).length := Nat.mod_le _ _
    rw [if_pos (by omega), hdrop', List.take_append_of_le_length hm]
  simp only [gcry_sexp_nth, h0]
  simp only [Nat.zero_add] at hs
  simp [hs, get_of_drop hdo, he]
  have e1 : es.offset k + 1 + inner.flat.length + 1 - es.offset k =
      (span inner).length := by rw [hsl]; omega
  rw [e1, hcopy]

/-! ### `gcry_sexp_find_token` -/

theorem findEnd_data {d : List Nat} {f p : Nat} {level : Int} {b r : List Nat}
    (hb : b.length < 65536) (hl : level ≠ 0) (h : d.drop p = encData b ++ r) :
    findEndLoop d (f + 1) p level = findEndLoop d f (p + (b.length + 3)) level := by
  have h0 : d.drop p = ST_DATA :: ((b.length % 256) :: (b.length / 256 % 256) ::
      (b ++ r)) := by simpa [encData] using h
  rw [findEndLoop, if_pos hl]
  simp only [get_of_drop h0, read16_encData hb h]
  simp
  congr 1
  omega

theorem findEnd_open {d : List Nat} {f p : Nat} {level : Int} {r : List Nat}
    (hl : level ≠ 0) (h : d.drop p = ST_OPEN :: r) :
    findEndLoop d (f + 1) p level = findEndLoop d f (p + 1) (level + 1) := by
  rw [findEndLoop, if_pos hl]
  simp [get_of_drop h]

theorem findEnd_close {d : List Nat} {f p : Nat} {level : Int} {r : List Nat}
    (hl : level ≠ 0) (h : d.drop p = ST_CLOSE :: r) :
    findEndLoop d (f + 1) p level = findEndLoop d f (p + 1) (level - 1) := by
  rw [findEndLoop, if_pos hl]
  simp [get_of_drop h]

theorem findEnd_zero {d : List Nat} {f p : Nat} : findEndLoop d (f + 1) p 0 = .ok p := by
  rw [findEndLoop, if_neg (by decide)]

/-- The end-of-list loop of `gcry_sexp_find_token` walks over a sequence of elements. -/
theorem findEnd_inner (d : List Nat) (F : Elems) (hv : F.valid) :
    ∀ (fuel p : Nat) (level : Int) (r : List Nat), level ≥ 1 →
      d.drop p = F.flat ++ r → d.length - p < fuel →
      ∃ fuel', d.length - (p + F.flat.length) < fuel' ∧
        findEndLoop d fuel p level = findEndLoop d fuel' (p + F.flat.length) level := by
  induction F with
  | nil =>
    intro fuel p level r _ _ hf
    exact ⟨fuel, by simpa [Elems.flat] using hf, by simp [Elems.flat]⟩
  | atom b rest ih =>
    intro fuel p level r hl hd hf
    obtain ⟨f, rfl⟩ := exists_succ_of_lt hf
    simp only [Elems.flat, List.append_assoc] at hd
    have hlen := length_of_drop hd
    simp [length_encData] at hlen
    obtain ⟨fuel', hf', he⟩ := ih hv.2 f (p + (b.length + 3)) level r hl
      (by simpa [length_encData] using drop_of_drop hd) (by omega)
    refine ⟨fuel', ?_, ?_⟩
    · simp [Elems.flat, length_encData]; omega
    · rw [findEnd_data hv.1 (by omega) hd, he]
      simp [Elems.flat, length_encData, Nat.add_assoc, Nat.add_comm, Nat.add_left_comm]
  | list inner rest ih1 ih2 =>
    intro fuel p level r hl hd hf
    obtain ⟨f, rfl⟩ := exists_succ_of_lt hf
    simp only [Elems.flat, List.cons_append, List.append_assoc] at hd
    have hlen := length_of_drop hd
    simp at hlen
    have hd1 := drop_succ_of_drop hd
    obtain ⟨f1, hf1, he1⟩ := ih1 hv.1 f (p + 1) (level + 1) _ (by omega) hd1 (by omega)
    have hd2 := drop_of_drop hd1
    obtain ⟨f2, rfl⟩ := exists_succ_of_lt hf1
    obtain ⟨fuel', hf', he⟩ := ih2 hv.2 f2 (p + 1 + inner.flat.length + 1) level r hl
      (drop_succ_of_drop hd2) (by omega)
    refine ⟨fuel', ?_, ?_⟩
    · simp [Elems.flat]; omega
    · rw [findEnd_open (by omega) hd, he1, findEnd_close (by omega) hd2]
      simp only [Int.add_sub_cancel]
      rw [he]
      simp [Elems.flat, Nat.add_assoc, Nat.add_comm, Nat.add_left_comm]

/-- Inside a list the end-of-list loop of `gcry_sexp_find_token` stops behind the
`ST_CLOSE` of the list. -/
theorem findEnd_span (d : List Nat) (F : Elems) (hv : F.valid) (p : Nat) (r : List Nat)
    (hd : d.drop p = F.flat ++ ST_CLOSE :: r) :
    findEndLoop d (d.length + 1) p 1 = .ok (p + F.flat.length + 1) := by
  have hlen := length_of_drop hd
  simp at hlen
  obtain ⟨f1, hf1, he1⟩ := findEnd_inner d F hv (d.length + 1) p 1 _ (by omega) hd (by omega)
  have hd2 := drop_of_drop hd
  obtain ⟨f2, rfl⟩ := exists_succ_of_lt hf1
  obtain ⟨f3, rfl⟩ : ∃ f3, f2 = f3 + 1 := ⟨f2 - 1, by omega⟩
  rw [he1, findEnd_close (by decide) hd2]
  exact findEnd_zero

theorem memcmpEq_payload {d : List Nat} {p : Nat} {b tok r : List Nat}
    (hd : d.drop p = b ++ r) (hp : p ≤ d.length) (hl : b.length = tok.length) :
    memcmpEq d p tok tok.length = some (decide (b = tok)) := by
  have hlen := length_of_drop hd
  simp at hlen
  unfold memcmpEq
  rw [if_pos ⟨by omega, le_refl _⟩, hd, ← hl, List.take_left, hl, List.take_length]

theorem find_data {d tok : List Nat} {tl f p : Nat} {b r : List Nat}
    (hb : b.length < 65536) (h : d.drop p = encData b ++ r) :
    findLoop d tok tl (f + 1) p = findLoop d tok tl f (p + (b.length + 3)) := by
  have h0 : d.drop p = ST_DATA :: ((b.length % 256) :: (b.length / 256 % 256) ::
      (b ++ r)) := by simpa [encData] using h
  rw [findLoop]
  simp only [get_of_drop h0, read16_encData hb h]
  simp
  congr 1
  omega

theorem find_close {d tok : List Nat} {tl f p : Nat} {r : List Nat}
    (h : d.drop p = ST_CLOSE :: r) :
    findLoop d tok tl (f + 1) p = findLoop d tok tl f (p + 1) := by
  rw [findLoop]
  simp [get_of_drop h]

theorem find_stop {d tok : List Nat} {tl f p : Nat} {r : List Nat}
    (h : d.drop p = ST_STOP :: r) :
    findLoop d tok tl (f + 1) p = .ok none := by
  rw [findLoop]
  simp [get_of_drop h]

theorem find_open_other {d tok : List Nat} {tl f p t1 : Nat} {r : List Nat}
    (h : d.drop p = ST_OPEN :: t1 :: r) (ht : t1 ≠ ST_DATA) :
    findLoop d tok tl (f + 1) p = findLoop d tok tl f (p + 1) := by
  rw [findLoop]
  simp [get_of_drop h, get_of_drop (drop_succ_of_drop h), ht]

theorem find_open_data {d tok : List Nat} {f p : Nat} {b r : List Nat}
    (hb : b.length < 65536) (h : d.drop p = ST_OPEN :: (encData b ++ r)) :
    findLoop d tok tok.length (f + 1) p =
      if b = tok then
        match findEndLoop d (d.length + 1) (p + 4 + b.length) 1 with
        | .err e => .err e
        | .ok q =>
          match copy d p ((q - p) % 65536) with
          | none => .err .oobRead
          | some bytes => normalize (some (bytes ++ [ST_STOP]))
      else findLoop d tok tok.length f (p + 4 + b.length) := by
  have h1 := drop_succ_of_drop h
  have h10 : d.drop (p + 1) = ST_DATA :: ((b.length % 256) :: (b.length / 256 % 256) ::
      (b ++ r)) := by simpa [encData] using h1
  have h4 : d.drop (p + 4) = b ++ r := by
    have := drop_of_drop (a := [ST_DATA, b.length % 256, b.length / 256 % 256]) h10
    simpa using this
  have hlen := length_of_drop h10
  simp at hlen
  have hr : read16 d (p + 2) = some b.length := read16_encData hb h1
  rw [findLoop]
  simp only [get_of_drop h, get_of_drop h10, hr]
  by_cases hl : b.length = tok.length
  · have hm := @memcmpEq_payload d (p + 4) b tok r h4 (by omega) hl
    by_cases hbt : b = tok
    · simp [hl, hm, hbt]
    · simp [hl, hm, hbt]
  · have hbt : b ≠ tok := fun e => hl (by rw [e])
    simp [hl, hbt]

/-- The scan of `gcry_sexp_find_token` over a sequence of elements: it returns the first
sub-list, in stream order, whose first element is the atom `tok` (copying as many bytes of
its span as the 16-bit variable `n` says), or it reaches the end of the sequence. -/
theorem find_scan (d tok : List Nat) (F : Elems) (hv : F.valid) :
    ∀ (fuel p : Nat) (r : List Nat), d.drop p = F.flat ++ r → d.length - p < fuel →
      (∀ inner, F.find tok = some inner →
        findLoop d tok tok.length fuel p =
          normalize (some ((span inner).take ((span inner).length % 65536) ++ [ST_STOP]))) ∧
      (F.find tok = none →
        ∃ fuel', d.length - (p + F.flat.length) < fuel' ∧
          findLoop d tok tok.length fuel p =
            findLoop d tok tok.length fuel' (p + F.flat.length)) := by
  induction F with
  | nil =>
    intro fuel p r _ hf
    refine ⟨by simp [Elems.find], fun _ => ⟨fuel, by simpa [Elems.flat] using hf, ?_⟩⟩
    simp [Elems.flat]
  | atom b rest ih =>
    intro fuel p r hd hf
    obtain ⟨f, rfl⟩ := exists_succ_of_lt hf
    simp only [Elems.flat, List.append_assoc] at hd
    have hlen := length_of_drop hd
    simp [length_encData] at hlen
    have hd' : d.drop (p + (b.length + 3)) = rest.flat ++ r := by
      simpa [length_encData] using drop_of_drop hd
    obtain ⟨ih1, ih2⟩ := ih hv.2 f (p + (b.length + 3)) r hd' (by omega)
    rw [find_data hv.1 hd]
    simp only [Elems.find]
    refine ⟨ih1, fun hn => ?_⟩
    obtain ⟨fuel', hf', he⟩ := ih2 hn
    refine ⟨fuel', ?_, ?_⟩
    · simp [Elems.flat, length_encData]; omega
    · rw [he]
      simp [Elems.flat, length_encData, Nat.add_assoc, Nat.add_comm, Nat.add_left_comm]
  | list inner rest ih1 ih2 =>
    intro fuel p r hd hf
    obtain ⟨f, rfl⟩ := exists_succ_of_lt hf
    simp only [Elems.flat, List.cons_append, List.append_assoc] at hd
    have hlen := length_of_drop hd
    simp at hlen
    have hd1 := drop_succ_of_drop hd
    have hd2 := drop_of_drop hd1
    have key : (inner.headIs tok = true → findLoop d tok tok.length (f + 1) p =
          normalize (some ((span inner).take ((span inner).length % 65536) ++ [ST_STOP]))) ∧
        (inner.headIs tok = false → ∃ f', d.length - (p + 1) < f' ∧
          findLoop d tok tok.length (f + 1) p = findLoop d tok tok.length f' (p + 1)) := by
      cases inner with
      | nil =>
        refine ⟨by simp [Elems.headIs], fun _ => ⟨f, by omega, ?_⟩⟩
        simp only [Elems.flat, List.nil_append] at hd
        exact find_open_other hd (by decide)
      | list i2 r2 =>
        refine ⟨by simp [Elems.headIs], fun _ => ⟨f, by omega, ?_⟩⟩
        simp only [Elems.flat, List.cons_append] at hd
        exact find_open_other hd (by decide)
      | atom b inner' =>
        simp only [Elems.flat, List.append_assoc] at hd hd1
        have hb : b.length < 65536 := hv.1.1
        have hlen1 := length_of_drop hd1
        simp [length_encData] at hlen1
        rw [find_open_data hb hd]
        constructor
        · intro hh
          have hbt : b = tok := by simpa [Elems.headIs] using hh
          have hd4 : d.drop (p + 4 + b.length) = inner'.flat ++ ST_CLOSE :: (rest.flat ++ r) := by
            have := drop_of_drop hd1
            rw [length_encData] at this
            rw [← this]; congr 1; omega
          have hsl : (span (Elems.atom b inner')).length = b.length + inner'.flat.length + 5 := by
            simp [span, Elems.flat, length_encData]; omega
          have hsp : d.drop p = span (Elems.atom b inner') ++ (rest.flat ++ r) := by
            rw [hd]; simp [span, Elems.flat]
          have hcopy : copy d p ((span (Elems.atom b inner')).length % 65536) =
              some ((span (Elems.atom b inner')).take
                ((span (Elems.atom b inner')).length % 65536)) := by
            unfold copy
            have hm : (span (Elems.atom b inner')).length % 65536 ≤
                (span (Elems.atom b inner')).length := Nat.mod_le _ _
            rw [if_pos (by omega), hsp, List.take_append_of_le_length hm]
          rw [if_pos hbt, findEnd_span d inner' hv.1.2 _ _ hd4]
          have e1 : p + 4 + b.length + inner'.flat.length + 1 - p =
              (span (Elems.atom b inner')).length := by rw [hsl]; omega
          simp only [e1, hcopy]
        · intro hh
          have hbt : b ≠ tok := by simpa [Elems.headIs] using hh
          refine ⟨f + 1, by omega, ?_⟩
          rw [if_neg hbt, find_data hb hd1]
          congr 1
          omega
    obtain ⟨i1a, i1b⟩ : _ ∧ _ := ⟨fun f' hf' => (ih1 hv.1 f' (p + 1) _ hd1 hf').1,
      fun f' hf' => (ih1 hv.1 f' (p + 1) _ hd1 hf').2⟩
    cases hh : inner.headIs tok with
    | true =>
      refine ⟨fun s hs => ?_, fun hn => ?_⟩
      · simp only [Elems.find, hh, if_true, Option.some.injEq] at hs
        subst hs
        exact key.1 hh
      · simp [Elems.find, hh] at hn
    | false =>
      obtain ⟨f', hf', he⟩ := key.2 hh
      cases hfi : inner.find tok with
      | some s0 =>
        refine ⟨fun s hs => ?_, fun hn => ?_⟩
        · simp only [Elems.find, hh, hfi, Bool.false_eq_true, if_false,
            Option.some.injEq] at hs
          subst hs
          rw [he]
          exact i1a f' hf' s0 hfi
        · simp [Elems.find, hh, hfi] at hn
      | none =>
        obtain ⟨f1, hf1, he1⟩ := i1b f' hf' hfi
        obtain ⟨f2, rfl⟩ := exists_succ_of_lt hf1
        obtain ⟨j1, j2⟩ := ih2 hv.2 f2 (p + 1 + inner.flat.length + 1) r
          (drop_succ_of_drop hd2) (by omega)
        have hstep : findLoop d tok tok.length (f + 1) p =
            findLoop d tok tok.length f2 (p + 1 + inner.flat.length + 1) := by
          rw [he, he1, find_close hd2]
        refine ⟨fun s hs => ?_, fun hn => ?_⟩
        · simp only [Elems.find, hh, hfi, Bool.false_eq_true, if_false] at hs
          rw [hstep]
          exact j1 s hs
        · simp only [Elems.find, hh, hfi, Bool.false_eq_true, if_false] at hn
          obtain ⟨fuel', hf', he2⟩ := j2 hn
          refine ⟨fuel', ?_, ?_⟩
          · simp [Elems.flat]; omega
          · rw [hstep, he2]
            simp [Elems.flat, Nat.add_assoc, Nat.add_comm, Nat.add_left_comm]

/-- The call `gcry_sexp_find_token` on a well-formed tree, for a token that is not empty:
null when no sub-list has the token as its first element, otherwise the first such
sub-list in stream order, cut to the number of bytes the 16-bit variable `n` holds,
followed by `ST_STOP` and passed through `normalize`. -/
theorem find_token_spec (F : Elems) (hv : F.valid) (tok : List Nat) (htok : tok ≠ []) :
    gcry_sexp_find_token (some (F.flat ++ [ST_STOP])) tok tok.length =
      match F.find tok with
      | none => .ok none
      | some inner =>
        normalize (some ((span inner).take ((span inner).length % 65536) ++ [ST_STOP])) := by
  have hl : tok.length ≠ 0 := by simpa using htok
  obtain ⟨h1, h2⟩ := find_scan (F.flat ++ [ST_STOP]) tok F hv ((F.flat ++ [ST_STOP]).length + 1)
    0 [ST_STOP] (by simp) (by omega)
  simp only [gcry_sexp_find_token, if_neg hl]
  cases hf : F.find tok with
  | some inner => exact h1 inner hf
  | none =>
    obtain ⟨fuel', hf', he⟩ := h2 hf
    obtain ⟨f, rfl⟩ := exists_succ_of_lt hf'
    rw [he]
    exact find_stop (r := []) (by simp)

theorem length_filler (n : Nat) : (filler n).length = n := by
  simp [filler]

/-- The call `gcry_sexp_find_token` for the token `a` on the list `(a X)` whose span is
65536 bytes long. -/
theorem find_token_span_65536 (x : List Nat) (hx : x.length = 65527) :
    (Elems.list (.atom [97] (.atom x .nil)) .nil).find [97] = some (.atom [97] (.atom x .nil)) ∧
    (span (.atom [97] (.atom x .nil))).length = 65536 ∧
    gcry_sexp_find_token (some ((Elems.list (.atom [97] (.atom x .nil)) .nil).flat ++
      [ST_STOP])) [97] 1 = .ok none := by
  have hsl : (span (.atom [97] (.atom x .nil))).length = 65536 := by
    simp [span, Elems.flat, encData, hx]
  refine ⟨by simp [Elems.find, Elems.headIs], hsl, ?_⟩
  have := find_token_spec (Elems.list (.atom [97] (.atom x .nil)) .nil)
    (by simp [Elems.valid, hx]) [97] (by simp)
  simp only [List.length_singleton] at this
  rw [this]
  simp only [Elems.find, Elems.headIs, decide_True, if_true, hsl]
  simp [normalize]

/-- C5 fails on a tree of 65537 bytes: in the list `(a X)`, where `X` is an atom of 65527
bytes, the token `a` is the first element of a list whose span is 65536 bytes long; the
16-bit variable `n` of `gcry_sexp_find_token` receives `65536 mod 65536 = 0`, no byte is
copied and the result is the null tree. -/
theorem C5_find_token_truncates_span :
    (Elems.list (.atom [97] (.atom (filler 65527) .nil)) .nil).find [97] =
      some (.atom [97] (.atom (filler 65527) .nil)) ∧
    (span (.atom [97] (.atom (filler 65527) .nil))).length = 65536 ∧
    gcry_sexp_find_token
      (some ((Elems.list (.atom [97] (.atom (filler 65527) .nil)) .nil).flat ++
        [ST_STOP])) [97] 1 = .ok none :=
  find_token_span_65536 (filler 65527) (length_filler _)

/-- The call `gcry_sexp_nth` for the only element of the list `((X))` when the span of
`(X)` is 65536 or 65540 bytes long. -/
theorem nth_span_65536 (x y : List Nat) (hx : x.length = 65531) (hy : y.length = 65535) :
    (span (.atom x .nil)).length = 65536 ∧
    gcry_sexp_nth (some (listTree (.list (.atom x .nil) .nil))) 0 = .ok none ∧
    gcry_sexp_nth (some (listTree (.list (.atom y .nil) .nil))) 0 =
      .ok (some [3, 1, 255, 255, 0]) := by
  have hsl : (span (.atom x .nil)).length = 65536 := by
    simp [span, Elems.flat, encData, hx]
  have hsl2 : (span (.atom y .nil)).length = 65540 := by
    simp [span, Elems.flat, encData, hy]
  refine ⟨hsl, ?_, ?_⟩
  · have := nth_sublist (.list (.atom x .nil) .nil) (by simp [Elems.valid, hx]) 0 _ rfl
    simp only [Nat.cast_zero] at this
    rw [this, hsl]
    simp [normalize]
  · have := nth_sublist (.list (.atom y .nil) .nil) (by simp [Elems.valid, hy]) 0 _ rfl
    simp only [Nat.cast_zero] at this
    rw [this, hsl2]
    simp [normalize, span, Elems.flat, encData, hy]

/-- C7 fails on a tree of 65539 bytes: the only element of the list is the sub-list `(X)`
with an atom `X` of 65531 bytes, whose span is 65536 bytes long; the 16-bit variable `n`
of `gcry_sexp_nth` receives 0, no byte is copied and the result is the null tree.  With
an atom of 65535 bytes the span has 65540 bytes, of which 4 are copied: the result is
`ST_OPEN, ST_DATA, 255, 255, ST_STOP`. -/
theorem C7_nth_truncates_span :
    (span (.atom (filler 65531) .nil)).length = 65536 ∧
    gcry_sexp_nth (some (listTree (.list (.atom (filler 65531) .nil) .nil))) 0 =
      .ok none ∧
    gcry_sexp_nth (some (listTree (.list (.atom (filler 65535) .nil) .nil))) 0 =
      .ok (some [3, 1, 255, 255, 0]) :=
  nth_span_65536 (filler 65531) (filler 65535) (length_filler _) (length_filler _)

/-- The call `gcry_sexp_nth` on a well-formed list tree whose `k`-th element is a
sub-list that is not empty and whose span is shorter than 65536 bytes: the span followed
by `ST_STOP`. -/
theorem nth_sublist_small (es : Elems) (hv : es.valid) (k : Nat) (inner : Elems)
    (h : es.get? k = some (.list inner)) (hne : inner ≠ .nil)
    (hs : (span inner).length < 65536) :
    gcry_sexp_nth (some (listTree es)) k = .ok (some (span inner ++ [ST_STOP])) := by
  rw [nth_sublist es hv k inner h, Nat.mod_eq_of_lt hs, List.take_length]
  cases inner with
  | nil => exact absurd rfl hne
  | atom b rest => simp [normalize, span, Elems.flat, encData]
  | list i r => simp [normalize, span, Elems.flat]

theorem find_headIs (tok : List Nat) (F : Elems) :
    ∀ inner, F.find tok = some inner → inner.headIs tok = true := by
  induction F with
  | nil => intro inner h; simp [Elems.find] at h
  | atom b rest ih => intro inner h; exact ih inner (by simpa [Elems.find] using h)
  | list i rest ih1 ih2 =>
    intro inner h
    simp only [Elems.find] at h
    split_ifs at h with hh
    · simp only [Option.some.injEq] at h
      exact h ▸ hh
    · cases hfi : i.find tok with
      | some s =>
        simp only [hfi, Option.some.injEq] at h
        exact ih1 inner (by rw [hfi, h])
      | none =>
        simp only [hfi] at h
        exact ih2 inner h

/-- The call `gcry_sexp_find_token` on a well-formed tree in which the first sub-list
headed by the token has a span shorter than 65536 bytes: that span, which starts with
`ST_OPEN` and the atom `tok`, followed by `ST_STOP`. -/
theorem find_token_small (F : Elems) (hv : F.valid) (tok : List Nat) (htok : tok ≠ [])
    (inner : Elems) (hf : F.find tok = some inner) (hs : (span inner).length < 65536) :
    gcry_sexp_find_token (some (F.flat ++ [ST_STOP])) tok tok.length =
      .ok (some (span inner ++ [ST_STOP])) ∧
    ∃ rest, inner = .atom tok rest := by
  have hh := find_headIs tok F inner hf
  have hi : ∃ rest, inner = .atom tok rest := by
    cases inner with
    | nil => simp [Elems.headIs] at hh
    | list i r => simp [Elems.headIs] at hh
    | atom b rest => exact ⟨rest, by simp [Elems.headIs] at hh; rw [hh]⟩
  refine ⟨?_, hi⟩
  rw [find_token_spec F hv tok htok, hf]
  simp only [Nat.mod_eq_of_lt hs, List.take_length]
  obtain ⟨rest, rfl⟩ := hi
  simp [normalize, span, Elems.flat, encData]

/-! ### `gcry_mpi_cmp` -/

theorem normLimbs_id (d : List Nat) (n : Nat) (h : n ≠ 0 → d.getD (n - 1) 0 ≠ 0) :
    normLimbs d n = n := by
  cases n with
  | zero => rfl
  | succ k =>
    have := h (by omega)
    simp only [Nat.add_sub_cancel] at this
    rw [normLimbs, if_neg this]

theorem normalize_id (B : Nat) (u : MPI) (h : u.normalized B) : _gcry_mpi_normalize u = u := by
  unfold _gcry_mpi_normalize
  rw [normLimbs_id u.d u.nlimbs h.2.2.1]

theorem limbsVal_lt (B : Nat) (d : List Nat) :
    ∀ n, (∀ i, i < n → d.getD i 0 < B) → limbsVal B d n < B ^ n := by
  intro n
  induction n with
  | zero => intro _; simp [limbsVal]
  | succ k ih =>
    intro h
    have h1 := ih (fun i hi => h i (by omega))
    have h2 := h k (by omega)
    simp only [limbsVal, pow_succ]
    calc limbsVal B d k + d.getD k 0 * B ^ k
        < B ^ k + d.getD k 0 * B ^ k := by omega
      _ = (d.getD k 0 + 1) * B ^ k := by ring
      _ ≤ B * B ^ k := Nat.mul_le_mul_right _ h2
      _ = B ^ k * B := by ring

theorem limbsVal_ge (B : Nat) (d : List Nat) (n : Nat) (hn : n ≠ 0)
    (h : d.getD (n - 1) 0 ≠ 0) : B ^ (n - 1) ≤ limbsVal B d n := by
  obtain ⟨k, rfl⟩ : ∃ k, n = k + 1 := ⟨n - 1, by omega⟩
  simp only [Nat.add_sub_cancel] at h ⊢
  simp only [limbsVal]
  have : 1 ≤ d.getD k 0 := by omega
  calc B ^ k = 1 * B ^ k := by ring
    _ ≤ d.getD k 0 * B ^ k := Nat.mul_le_mul_right _ this
    _ ≤ limbsVal B d k + d.getD k 0 * B ^ k := by omega

/-- The limb comparison decides the order of the magnitudes. -/
theorem mpih_cmp_spec (B : Nat) (a b : List Nat) :
    ∀ n, (∀ i, i < n → a.getD i 0 < B) → (∀ i, i < n → b.getD i 0 < B) →
      (_gcry_mpih_cmp a b n < 0 ↔ limbsVal B a n < limbsVal B b n) ∧
      (_gcry_mpih_cmp a b n = 0 ↔ limbsVal B a n = limbsVal B b n) ∧
      (0 < _gcry_mpih_cmp a b n ↔ limbsVal B b n < limbsVal B a n) := by
  intro n
  induction n with
  | zero => intro _ _; simp [_gcry_mpih_cmp, limbsVal]
  | succ k ih =>
    intro ha hb
    have ha' := limbsVal_lt B a k (fun i hi => ha i (by omega))
    have hb' := limbsVal_lt B b k (fun i hi => hb i (by omega))
    obtain ⟨i1, i2, i3⟩ := ih (fun i hi => ha i (by omega)) (fun i hi => hb i (by omega))
    simp only [_gcry_mpih_cmp, limbsVal]
    by_cases he : a.getD k 0 = b.getD k 0
    · simp only [he, ne_eq, not_true_eq_false, if_false]
      refine ⟨?_, ?_, ?_⟩
      · rw [i1]; omega
      · rw [i2]; omega
      · rw [i3]; omega
    · simp only [ne_eq, he, not_false_eq_true, if_true]
      by_cases hg : a.getD k 0 > b.getD k 0
      · have : (b.getD k 0 + 1) * B ^ k ≤ a.getD k 0 * B ^ k := Nat.mul_le_mul_right _ hg
        have e : (b.getD k 0 + 1) * B ^ k = b.getD k 0 * B ^ k + B ^ k := by ring
        simp only [hg, if_true]
        refine ⟨?_, ?_, ?_⟩
        · constructor
          · intro h; omega
          · intro h; omega
        · constructor
          · intro h; omega
          · intro h; omega
        · constructor
          · intro _; omega
          · intro _; omega
      · have hl : a.getD k 0 < b.getD k 0 := by omega
        have : (a.getD k 0 + 1) * B ^ k ≤ b.getD k 0 * B ^ k := Nat.mul_le_mul_right _ hl
        have e : (a.getD k 0 + 1) * B ^ k = a.getD k 0 * B ^ k + B ^ k := by ring
        simp only [hg, if_false]
        refine ⟨?_, ?_, ?_⟩
        · constructor
          · intro _; omega
          · intro _; omega
        · constructor
          · intro h; omega
          · intro h; omega
        · constructor
          · intro h; omega
          · intro h; omega

theorem normalized_pos (B : Nat) (u : MPI) (h : u.normalized B) (hn : u.nlimbs ≠ 0) :
    2 ≤ B ∧ B ^ (u.nlimbs - 1) ≤ limbsVal B u.d u.nlimbs ∧ 0 < limbsVal B u.d u.nlimbs := by
  have h1 := h.2.2.1 hn
  have h2 := h.2.1 (u.nlimbs - 1) (by omega)
  have hB : 2 ≤ B := by omega
  have h3 := limbsVal_ge B u.d u.nlimbs hn h1
  have h4 : 0 < B ^ (u.nlimbs - 1) := pow_pos (by omega) _
  exact ⟨hB, h3, by omega⟩

/-- Of two normalized magnitudes the one with more limbs is the larger. -/
theorem limbsVal_lt_of_nlimbs_lt (B : Nat) (u v : MPI) (hu : u.normalized B)
    (hv : v.normalized B) (h : u.nlimbs < v.nlimbs) :
    limbsVal B u.d u.nlimbs < limbsVal B v.d v.nlimbs := by
  obtain ⟨hB, h1, _⟩ := normalized_pos B v hv (by omega)
  have h2 := limbsVal_lt B u.d u.nlimbs hu.2.1
  have h3 : B ^ u.nlimbs ≤ B ^ (v.nlimbs - 1) := Nat.pow_le_pow_right (by omega) (by omega)
  omega

/-- The function `gcry_mpi_cmp` on normalized operands, the call of
`_gcry_mpi_normalize` left out. -/
theorem mpi_cmp_normalized (B : Nat) (u v : MPI) (hu : u.normalized B) (hv : v.normalized B) :
    gcry_mpi_cmp u v =
      if ¬ u.sign ∧ v.sign then 1
      else if u.sign ∧ ¬ v.sign then -1
      else if (u.nlimbs : Int) ≠ v.nlimbs ∧ ¬ u.sign ∧ ¬ v.sign then
        (u.nlimbs : Int) - v.nlimbs
      else if (u.nlimbs : Int) ≠ v.nlimbs ∧ u.sign ∧ v.sign then (v.nlimbs : Int) + u.nlimbs
      else if (u.nlimbs : Int) = 0 then 0
      else if _gcry_mpih_cmp u.d v.d u.nlimbs = 0 then 0
      else if (if _gcry_mpih_cmp u.d v.d u.nlimbs < 0 then 1 else 0) =
          (if u.sign then (1 : Int) else 0) then 1
      else -1 := by
  unfold gcry_mpi_cmp
  rw [normalize_id B u hu, normalize_id B v hv]

/-- C15: for normalized `u` and `v` that are not both negative with different limb
counts, `gcry_mpi_cmp u v` is negative, zero or positive exactly when the value of `u` is
less than, equal to or greater than the value of `v`. -/
theorem C15_mpi_cmp_agrees_with_order (B : Nat) (u v : MPI) (hu : u.normalized B)
    (hv : v.normalized B)
    (hx : ¬ (u.sign = true ∧ v.sign = true ∧ u.nlimbs ≠ v.nlimbs)) :
    (gcry_mpi_cmp u v < 0 ↔ u.value B < v.value B) ∧
    (gcry_mpi_cmp u v = 0 ↔ u.value B = v.value B) ∧
    (0 < gcry_mpi_cmp u v ↔ v.value B < u.value B) := by
  rw [mpi_cmp_normalized B u v hu hv]
  have hlu := limbsVal_lt B u.d u.nlimbs hu.2.1
  have hlv := limbsVal_lt B v.d v.nlimbs hv.2.1
  unfold MPI.value
  cases hsu : u.sign <;> cases hsv : v.sign
  · -- both non-negative
    simp only [Bool.false_eq_true, not_false_eq_true, and_false, and_true, false_and,
      if_false, ne_eq]
    by_cases hne : (u.nlimbs : Int) = v.nlimbs
    · have hne' : u.nlimbs = v.nlimbs := by omega
      obtain ⟨d1, d2, d3⟩ := mpih_cmp_spec B u.d v.d u.nlimbs hu.2.1
        (by rw [hne']; exact hv.2.1)
      rw [← hne'] 
      simp only [hne, not_true_eq_false, if_false]
      by_cases h0 : (v.nlimbs : Int) = 0
      · have : u.nlimbs = 0 := by omega
        simp [h0, this, limbsVal]
      · simp only [h0, if_false]
        by_cases hc : _gcry_mpih_cmp u.d v.d u.nlimbs = 0
        · have := d2.mp hc
          simp [hc, this]
        · simp only [hc, if_false]
          by_cases hlt : _gcry_mpih_cmp u.d v.d u.nlimbs < 0
          · have := d1.mp hlt
            simp [hlt]
            omega
          · have := d3.mp (by omega)
            simp [hlt]
            omega
    · simp only [hne, not_false_eq_true, if_true]
      rcases Nat.lt_or_gt_of_ne (show u.nlimbs ≠ v.nlimbs by omega) with h | h
      · have := limbsVal_lt_of_nlimbs_lt B u v hu hv h
        omega
      · have := limbsVal_lt_of_nlimbs_lt B v u hv hu h
        omega
  · -- u non-negative, v negative
    have hvn : v.nlimbs ≠ 0 := fun h => by have := hv.2.2.2 h; simp [hsv] at this
    obtain ⟨_, _, hp⟩ := normalized_pos B v hv hvn
    simp
    omega
  · -- u negative, v non-negative
    have hun : u.nlimbs ≠ 0 := fun h => by have := hu.2.2.2 h; simp [hsu] at this
    obtain ⟨_, _, hp⟩ := normalized_pos B u hu hun
    simp
    omega
  · -- both negative, the same number of limbs
    have hne' : u.nlimbs = v.nlimbs := by
      by_contra h
      exact hx ⟨hsu, hsv, h⟩
    have hun : u.nlimbs ≠ 0 := fun h => by have := hu.2.2.2 h; simp [hsu] at this
    obtain ⟨d1, d2, d3⟩ := mpih_cmp_spec B u.d v.d u.nlimbs hu.2.1
      (by rw [hne']; exact hv.2.1)
    rw [← hne']
    have h0 : ¬ ((u.nlimbs : Int) = 0) := by omega
    simp only [not_true_eq_false, and_true, and_false, false_and, if_false, ne_eq, h0, if_true]
    by_cases hc : _gcry_mpih_cmp u.d v.d u.nlimbs = 0
    · have := d2.mp hc
      simp [hc, this]
    · simp only [hc, if_false]
      by_cases hlt : _gcry_mpih_cmp u.d v.d u.nlimbs < 0
      · have := d1.mp hlt
        simp [hlt]
        omega
      · have := d3.mp (by omega)
        simp [hlt]
        omega

/-- C15 at `u = 5 + 2^32` and `v = 7 + 2^32` (two limbs of 32 bits each): the result is -1
and `u` is the smaller. -/
theorem C15_mpi_cmp_agrees_with_order_witness :
    gcry_mpi_cmp ⟨2, false, [5, 1]⟩ ⟨2, false, [7, 1]⟩ = -1 ∧
    MPI.value (2 ^ 32) ⟨2, false, [5, 1]⟩ < MPI.value (2 ^ 32) ⟨2, false, [7, 1]⟩ :=
  ⟨by decide,
   (C15_mpi_cmp_agrees_with_order (2 ^ 32) ⟨2, false, [5, 1]⟩ ⟨2, false, [7, 1]⟩
      ⟨by decide, by decide, by decide, by decide⟩
      ⟨by decide, by decide, by decide, by decide⟩ (by decide)).1.mp (by decide)⟩

/-- C16: for normalized `u` and `v` that are both negative and have different limb
counts, `gcry_mpi_cmp u v` is the sum of the two limb counts, and so is
`gcry_mpi_cmp v u`. -/
theorem C16_mpi_cmp_negative_sizes (B : Nat) (u v : MPI) (hu : u.normalized B)
    (hv : v.normalized B) (hsu : u.sign = true) (hsv : v.sign = true)
    (hne : u.nlimbs ≠ v.nlimbs) :
    gcry_mpi_cmp u v = (u.nlimbs : Int) + v.nlimbs ∧
    gcry_mpi_cmp v u = (u.nlimbs : Int) + v.nlimbs := by
  have h1 : ¬ ((u.nlimbs : Int) = v.nlimbs) := by omega
  have h2 : ¬ ((v.nlimbs : Int) = u.nlimbs) := by omega
  rw [mpi_cmp_normalized B u v hu hv, mpi_cmp_normalized B v u hv hu]
  simp [hsu, hsv, h1, h2]
  omega

/-- C16 at `u = -(1 + 2^32)` (two limbs) and `v = -3` (one limb): both calls return 3,
although `u` is the smaller. -/
theorem C16_mpi_cmp_negative_sizes_witness :
    gcry_mpi_cmp ⟨2, true, [1, 1]⟩ ⟨1, true, [3]⟩ = 3 ∧
    gcry_mpi_cmp ⟨1, true, [3]⟩ ⟨2, true, [1, 1]⟩ = 3 :=
  C16_mpi_cmp_negative_sizes (2 ^ 32) ⟨2, true, [1, 1]⟩ ⟨1, true, [3]⟩
    ⟨by decide, by decide, by decide, by decide⟩
    ⟨by decide, by decide, by decide, by decide⟩ rfl rfl (by decide)

/-! ### `gcry_sexp_find_token` and the outermost list -/

/-- The statement of `find_token_spec` holds for the empty token as well. -/
theorem find_token_spec_any (F : Elems) (hv : F.valid) (tok : List Nat) :
    gcry_sexp_find_token (some (F.flat ++ [ST_STOP])) tok tok.length =
      match F.find tok with
      | none => .ok none
      | some inner =>
        normalize (some ((span inner).take ((span inner).length % 65536) ++ [ST_STOP])) := by
  by_cases htok : tok = []
  · subst htok
    obtain ⟨h1, h2⟩ := find_scan (F.flat ++ [ST_STOP]) [] F hv
      ((F.flat ++ [ST_STOP]).length + 1) 0 [ST_STOP] (by simp) (by omega)
    simp only [gcry_sexp_find_token, List.length_nil, if_true, strlen, List.takeWhile_nil]
    simp only [List.length_nil] at h1 h2
    cases hf : F.find [] with
    | some inner => exact h1 inner hf
    | none =>
      obtain ⟨fuel', hf', he⟩ := h2 hf
      obtain ⟨f, rfl⟩ := exists_succ_of_lt hf'
      rw [he]
      exact @find_stop _ _ _ _ _ [] (by simp)
  · exact find_token_spec F hv tok htok

/-- C13 fails on the tree of `(3:foo(4:barbaz))`: `gcry_sexp_find_token` with the token
`foo` of length 3 returns the whole tree, not the null tree. -/
theorem C13_find_token_outermost_counterexample :
    gcry_sexp_sscan [40, 51, 58, 102, 111, 111, 40, 52, 58, 98, 97, 114, 98, 97, 122, 41, 41]
        17 =
      .ok (.done (some [3, 1, 3, 0, 102, 111, 111, 3, 1, 4, 0, 98, 97, 114, 98,
        1, 2, 0, 97, 122, 4, 4, 0]) false) ∧
    gcry_sexp_find_token (some [3, 1, 3, 0, 102, 111, 111, 3, 1, 4, 0, 98, 97, 114, 98,
        1, 2, 0, 97, 122, 4, 4, 0]) [102, 111, 111] 3 =
      .ok (some [3, 1, 3, 0, 102, 111, 111, 3, 1, 4, 0, 98, 97, 114, 98,
        1, 2, 0, 97, 122, 4, 4, 0]) := by
  decide

/-- C13, amended: `gcry_sexp_find_token` matches the first element of the outermost list
too.  For a well-formed tree `L` that is a list, shorter than 65537 bytes, whose own first
element is the atom `t`, the call with `t` and its length returns a copy of `L`, whatever
the sub-lists of `L` hold. -/
theorem C13_find_token_outermost_amended (t : List Nat) (rest : Elems)
    (hv : (Elems.atom t rest).valid) (hs : (listTree (.atom t rest)).length ≤ 65536) :
    gcry_sexp_find_token (some (listTree (.atom t rest))) t t.length =
      .ok (some (listTree (.atom t rest))) := by
  have hl : listTree (.atom t rest) = (Elems.list (.atom t rest) .nil).flat ++ [ST_STOP] := by
    simp [listTree, Elems.flat]
  have hsp : span (.atom t rest) ++ [ST_STOP] = listTree (.atom t rest) := by
    simp [listTree, span]
  have hlen : (span (.atom t rest)).length < 65536 := by
    have : (listTree (.atom t rest)).length = (span (.atom t rest)).length + 1 := by
      rw [← hsp]; simp
    omega
  have hfind : (Elems.list (.atom t rest) .nil).find t = some (.atom t rest) := by
    simp [Elems.find, Elems.headIs]
  have := find_token_spec_any (.list (.atom t rest) .nil) ⟨hv, trivial⟩ t
  rw [hl, this, hfind]
  simp only [Nat.mod_eq_of_lt hlen, List.take_length]
  rw [← hl, hsp]
  simp [normalize, listTree, Elems.flat, encData]

/-- C13, amended, at the tree of `(3:foo(4:barbaz))` and the token `foo`. -/
theorem C13_find_token_outermost_amended_witness :
    gcry_sexp_find_token (some [3, 1, 3, 0, 102, 111, 111, 3, 1, 4, 0, 98, 97, 114, 98,
        1, 2, 0, 97, 122, 4, 4, 0]) [102, 111, 111] 3 =
      .ok (some [3, 1, 3, 0, 102, 111, 111, 3, 1, 4, 0, 98, 97, 114, 98,
        1, 2, 0, 97, 122, 4, 4, 0]) :=
  C13_find_token_outermost_amended [102, 111, 111]
    (.list (.atom [98, 97, 114, 98] (.atom [97, 122] .nil)) .nil)
    ⟨by decide, ⟨by decide, by decide, trivial⟩, trivial⟩ (by decide)

/-! ### Inputs the scanner mishandles -/

/-- C12 fails on the 12-byte input `4294967297:a`: the decimal prefix does not fit an
`int`, so that the call `atoi ( digptr )` has no defined result (the source says
`fixme: check for overflow`); the scanner does not return -2.  Prefixes that fit are
handled as claimed: `5:ab` gives -2 at offset 1, the index of the `:`, and `2:ab` gives
the atom `ab`. -/
theorem C12_length_prefix_overflow :
    atoiLoop [52, 50, 57, 52, 57, 54, 55, 50, 57, 55, 58, 97] 13 0 0 = 4294967297 ∧
    gcry_sexp_sscan [52, 50, 57, 52, 57, 54, 55, 50, 57, 55, 58, 97] 12 = .err .ub ∧
    gcry_sexp_sscan [53, 58, 97, 98] 4 = .ok (.fail (-2) 1) ∧
    gcry_sexp_sscan [50, 58, 97, 98] 4 = .ok (.done (some [1, 2, 0, 97, 98, 0]) false) := by
  decide

/-- The walk accepts the block of every well-formed node stream. -/
theorem walkTree_encNodes (d : List Nat) (ns : List Node) (hv : ∀ x ∈ ns, x.valid) :
    ∀ (fuel p : Nat), ns.length < fuel → d.drop p = encNodes ns ++ [ST_STOP] →
      walkTree d fuel p = true := by
  induction ns with
  | nil =>
    intro fuel p hf hd
    obtain ⟨f, rfl⟩ := exists_succ_of_lt hf
    simp only [encNodes, List.nil_append] at hd
    have hl := length_of_drop hd
    have hp := lt_of_drop hd
    simp at hl
    simp [walkTree, get_of_drop hd]
    omega
  | cons x xs ih =>
    intro fuel p hf hd
    obtain ⟨f, rfl⟩ := exists_succ_of_lt hf
    have hx := hv x (List.mem_cons_self _ _)
    have ih := ih (fun y hy => hv y (List.mem_cons_of_mem _ hy))
    have hf' : xs.length < f := by simp at hf; omega
    simp only [encNodes, List.append_assoc] at hd
    cases x with
    | opn =>
      simp only [Node.enc, List.cons_append, List.nil_append] at hd
      simp [walkTree, get_of_drop hd, ih f (p + 1) hf' (drop_succ_of_drop hd)]
    | cls =>
      simp only [Node.enc, List.cons_append, List.nil_append] at hd
      simp [walkTree, get_of_drop hd, ih f (p + 1) hf' (drop_succ_of_drop hd)]
    | data b =>
      simp only [Node.enc] at hd
      have hd0 : d.drop p = ST_DATA :: ((b.length % 256) :: (b.length / 256 % 256) ::
          (b ++ (encNodes xs ++ [ST_STOP]))) := by simpa [encData] using hd
      have hd' : d.drop (p + 3 + b.length) = encNodes xs ++ [ST_STOP] := by
        have := drop_of_drop hd
        rw [length_encData] at this
        rw [← this]; congr 1; omega
      simp [walkTree, get_of_drop hd0, read16_encData hx hd, ih f _ hf' hd']

/-- C18 fails on the 5-byte input `#6 1#`: the scanner returns 0 with the tree
`ST_DATA 1 0 0x60 0x10 ST_STOP`, an atom whose length field says 1 in front of two stored
bytes; the walk over the tree meets the byte `0x10` where a tag is due, and the
serializer ends in `BUG ()`. -/
theorem C18_hex_atom_breaks_length_field :
    gcry_sexp_sscan [35, 54, 32, 49, 35] 5 = .ok (.done (some [1, 1, 0, 96, 16, 0]) false) ∧
    walkTree [1, 1, 0, 96, 16, 0] 7 0 = false ∧
    gcry_sexp_sprint (some [1, 1, 0, 96, 16, 0]) GCRYSEXP_FMT_CANON false 0 = .err .bug := by
  decide

/-- C20 fails on the 5-byte input `#6 1#`, two hex digits with a blank between them: the
decoding loop takes `6` with the blank after it (`hextobyte` gives `0x60`) and then `1`
with the closing `#` (`0x10`), and stores these two bytes behind a length field of 1;
the claim is one atom with the single byte `0x61`.  Without the blank, and with blanks
around the pair, the atom is the byte `0x61`. -/
theorem C20_hex_blank_inside_pair :
    hexLoop [35, 54, 32, 49, 35] 4 6 1 = .ok [96, 16] ∧
    (∃ c, scanEmit [35, 54, 32, 49, 35] 5 none = .ok (.built c) ∧
      c.sexp = [1, 1, 0, 96, 16, 0]) ∧
    (∃ c, scanEmit [35, 54, 49, 35] 4 none = .ok (.built c) ∧ c.sexp = [1, 1, 0, 97, 0]) ∧
    (∃ c, scanEmit [35, 32, 54, 49, 32, 35] 6 none = .ok (.built c) ∧
      c.sexp = [1, 1, 0, 97, 0]) := by
  refine ⟨by decide, ⟨⟨[1, 1, 0, 96, 16, 0], 13, false⟩, by decide, rfl⟩,
    ⟨⟨[1, 1, 0, 97, 0], 12, false⟩, by decide, rfl⟩,
    ⟨⟨[1, 1, 0, 97, 0], 8, false⟩, by decide, rfl⟩⟩

/-- C19 fails on the 1-byte input `)` and on the inputs `(a` and `((a` followed by a
blank: the scanner returns 0 with the trees `ST_CLOSE ST_STOP`, `ST_OPEN ST_DATA a ST_STOP`
and `ST_OPEN ST_OPEN ST_DATA a ST_STOP`, whose node streams are not balanced.  The
navigator takes the balance for granted: on the second tree `gcry_sexp_find_token` with
the token `a`, and on the third `gcry_sexp_nth` with the index 0, look for the
`ST_CLOSE` of the list, meet `ST_STOP` and end in `BUG ()`. -/
theorem C19_unbalanced_tree_reaches_bug :
    gcry_sexp_sscan [41] 1 = .ok (.done (some [4, 0]) false) ∧
    [4, 0] = encNodes [.cls] ++ [ST_STOP] ∧ balanced [.cls] = false ∧
    gcry_sexp_sscan [40, 97, 32] 3 = .ok (.done (some [3, 1, 1, 0, 97, 0]) false) ∧
    [3, 1, 1, 0, 97, 0] = encNodes [.opn, .data [97]] ++ [ST_STOP] ∧
    balanced [.opn, .data [97]] = false ∧
    gcry_sexp_find_token (some [3, 1, 1, 0, 97, 0]) [97] 1 = .err .bug ∧
    gcry_sexp_sscan [40, 40, 97, 32] 4 = .ok (.done (some [3, 3, 1, 1, 0, 97, 0]) false) ∧
    [3, 3, 1, 1, 0, 97, 0] = encNodes [.opn, .opn, .data [97]] ++ [ST_STOP] ∧
    balanced [.opn, .opn, .data [97]] = false ∧
    gcry_sexp_nth (some [3, 3, 1, 1, 0, 97, 0]) 0 = .err .bug := by
  decide

/-! ### The loop of the scanner and what every pass keeps -/

/-- The scanner is its loop followed by the store of the final `ST_STOP`. -/
theorem scanLoop_run (buffer : List Nat) :
    ∀ (fuel : Nat) (st : ScanState),
      scanLoop buffer fuel st =
        match scanRun buffer fuel st with
        | .err e => .err e
        | .ok (.fail rc erroff) => .ok (.fail rc erroff)
        | .ok (.ended st2) =>
          match store (make_space st2.c 0) [ST_STOP] with
          | .err e => .err e
          | .ok c => .ok (.built c) := by
  intro fuel
  induction fuel with
  | zero => intro st; rfl
  | succ f ih =>
    intro st
    rw [scanLoop, scanRun]
    split_ifs with hn
    · cases hb : scanBody buffer st with
      | err e => rfl
      | ok s =>
        cases s with
        | ret rc erroff => rfl
        | next st1 => exact ih _
    · rfl

theorem StepInv.refl (st : ScanState) : StepInv st st :=
  ⟨id, id, rfl, [], rfl, fun ⟨_, h⟩ => by simp at h⟩

theorem StepInv.trans {a b c : ScanState} (h1 : StepInv a b) (h2 : StepInv b c) :
    StepInv a c := by
  obtain ⟨c1, s1, p1, x1, e1, m1⟩ := h1
  obtain ⟨c2, s2, p2, x2, e2, m2⟩ := h2
  refine ⟨fun h => c2 (c1 h), fun h => s2 (s1 h), p2.trans p1, x1 ++ x2, ?_, ?_⟩
  · rw [e1, e2, List.append_assoc]
  · rintro ⟨std, hm⟩
    rcases List.mem_append.1 hm with hm | hm
    · exact s2 (m1 ⟨std, hm⟩)
    · exact m2 ⟨std, hm⟩

/-- A pass that leaves the block and the argument pointer alone. -/
theorem StepInv.of_eq {st st1 : ScanState} (hc : st1.c = st.c)
    (ha : st1.arg_ptr = st.arg_ptr) : StepInv st st1 := by
  refine ⟨fun h => by rw [hc]; exact h, fun h => by rw [hc]; exact h, by rw [ha], [], ?_, ?_⟩
  · rw [ha]; rfl
  · rintro ⟨_, h⟩; simp at h

theorem store_ok {c c1 : make_space_ctx} {bs : List Nat} (h : store c bs = .ok c1) :
    c1.sexp = c.sexp ++ bs ∧ c1.sexp.length ≤ c1.allocated ∧ c1.secure = c.secure := by
  unfold store at h
  split_ifs at h with hle
  simp only [Res.ok.injEq] at h
  subst h
  exact ⟨rfl, by simpa using hle, rfl⟩

theorem make_space_secure (c : make_space_ctx) (n : Nat) :
    (make_space c n).secure = c.secure := by
  unfold make_space
  split_ifs <;> rfl

theorem storeData_ok {c c1 : make_space_ctx} {n : Nat} {bs : List Nat}
    (h : storeData c n bs = .ok c1) :
    c1.sexp = c.sexp ++ ST_DATA :: (STORE_LEN n ++ bs) ∧ c1.sexp.length ≤ c1.allocated ∧
      c1.secure = c.secure := by
  unfold storeData at h
  obtain ⟨h1, h2, h3⟩ := store_ok h
  refine ⟨?_, h2, by rw [h3, make_space_secure]⟩
  rw [h1]
  unfold make_space
  split_ifs <;> rfl

/-- A pass that stores into the block and leaves the argument pointer alone. -/
theorem StepInv.of_store {st st1 : ScanState} (hc : st1.c.sexp.length ≤ st1.c.allocated)
    (hs : st1.c.secure = st.c.secure) (ha : st1.arg_ptr = st.arg_ptr) : StepInv st st1 := by
  refine ⟨fun _ => hc, fun h => by rw [hs]; exact h, by rw [ha], [], ?_, ?_⟩
  · rw [ha]; rfl
  · rintro ⟨_, h⟩; simp at h

theorem quotedBranch_inv {buffer : List Nat} {st st1 : ScanState} {ch : Nat}
    (h : quotedBranch buffer st ch = .ok (.next st1)) : StepInv st st1 := by
  unfold quotedBranch at h
  repeat' split at h
  all_goals first
    | (simp only [Res.ok.injEq, Step.next.injEq, reduceCtorEq] at h; done)
    | (simp only [Res.ok.injEq, Step.next.injEq] at h; subst h; exact StepInv.of_eq rfl rfl)

theorem hexBranch_inv {buffer : List Nat} {st st1 : ScanState} {h0 ch : Nat}
    (h : hexBranch buffer st h0 ch = .ok (.next st1)) : StepInv st st1 := by
  unfold hexBranch at h
  split_ifs at h
  · simp only [Res.ok.injEq, Step.next.injEq] at h; subst h; exact StepInv.of_eq rfl rfl
  · simp at h
  · cases hl : hexLoop buffer st.p (buffer.length + 1) (h0 + 1) with
    | err e => simp [hl] at h
    | ok bs =>
      simp only [hl] at h
      cases hs : storeData st.c (st.hexcount / 2) bs with
      | err e => simp [hs] at h
      | ok c =>
        simp only [hs, Res.ok.injEq, Step.next.injEq] at h
        subst h
        obtain ⟨_, h2, h3⟩ := storeData_ok hs
        exact StepInv.of_store h2 h3 rfl
  · simp only [Res.ok.injEq, Step.next.injEq] at h; subst h; exact StepInv.refl _
  · simp at h

theorem digBranch_inv {buffer : List Nat} {st st1 : ScanState} {dp ch : Nat}
    (h : digBranch buffer st dp ch = .ok (.next st1)) : StepInv st st1 := by
  unfold digBranch at h
  split_ifs at h
  · simp only [Res.ok.injEq, Step.next.injEq] at h; subst h; exact StepInv.refl _
  · cases ha : atoi buffer dp with
    | err e => simp [ha] at h
    | ok datalen =>
      simp only [ha] at h
      split_ifs at h
      · simp at h
      · cases hc : copy buffer (st.p + 1) datalen with
        | none => simp [hc] at h
        | some payload =>
          simp only [hc] at h
          cases hs : storeData st.c datalen payload with
          | err e => simp [hs] at h
          | ok c =>
            simp only [hs, Res.ok.injEq, Step.next.injEq] at h
            subst h
            obtain ⟨_, h2, h3⟩ := storeData_ok hs
            exact StepInv.of_store h2 h3 rfl
  · simp only [Res.ok.injEq, Step.next.injEq] at h; subst h; exact StepInv.of_eq rfl rfl
  · simp only [Res.ok.injEq, Step.next.injEq] at h; subst h; exact StepInv.of_eq rfl rfl
  · simp only [Res.ok.injEq, Step.next.injEq] at h; subst h; exact StepInv.of_eq rfl rfl
  · simp at h

theorem ite_next {c : Prop} [Decidable c] {a b : Res Step} {st1 : ScanState}
    (h : (if c then a else b) = .ok (.next st1)) :
    a = .ok (.next st1) ∨ b = .ok (.next st1) := by
  split_ifs at h
  · exact Or.inl h
  · exact Or.inr h

theorem store_next_inv {st st1 : ScanState} {c0 : make_space_ctx} {bs : List Nat}
    (hs : c0.secure = st.c.secure)
    (h : (match store c0 bs with
          | .err e => Res.err e
          | .ok c => Res.ok (Step.next { st with c := c })) = .ok (.next st1)) :
    StepInv st st1 := by
  cases hst : store c0 bs with
  | err e => simp [hst] at h
  | ok c =>
    simp only [hst, Res.ok.injEq, Step.next.injEq] at h
    subst h
    obtain ⟨_, h2, h3⟩ := store_ok hst
    exact StepInv.of_store h2 (by rw [h3, hs]) rfl

theorem topBranch_inv {st st1 : ScanState} {ch : Nat}
    (h : topBranch st ch = .ok (.next st1)) : StepInv st st1 := by
  unfold topBranch at h
  rcases ite_next h with h | h
  · rcases ite_next h with h | h
    · simp at h
    · exact store_next_inv (make_space_secure _ _) h
  rcases ite_next h with h | h
  · rcases ite_next h with h | h
    · simp at h
    · exact store_next_inv (make_space_secure _ _) h
  rcases ite_next h with h | h
  · simp only [Res.ok.injEq, Step.next.injEq] at h; subst h; exact StepInv.of_eq rfl rfl
  rcases ite_next h with h | h
  · simp only [Res.ok.injEq, Step.next.injEq] at h; subst h; exact StepInv.of_eq rfl rfl
  rcases ite_next h with h | h
  · simp only [Res.ok.injEq, Step.next.injEq] at h; subst h; exact StepInv.of_eq rfl rfl
  rcases ite_next h with h | h
  · rcases ite_next h with h | h
    · simp at h
    · simp only [Res.ok.injEq, Step.next.injEq] at h; subst h; exact StepInv.of_eq rfl rfl
  rcases ite_next h with h | h
  · rcases ite_next h with h | h
    · simp at h
    · simp only [Res.ok.injEq, Step.next.injEq] at h; subst h; exact StepInv.of_eq rfl rfl
  rcases ite_next h with h | h
  · rcases ite_next h with h | h
    · simp at h
    · simp only [Res.ok.injEq, Step.next.injEq] at h; subst h; exact StepInv.of_eq rfl rfl
  rcases ite_next h with h | h
  · simp only [Res.ok.injEq, Step.next.injEq] at h; subst h; exact StepInv.of_eq rfl rfl
  rcases ite_next h with h | h
  · simp only [Res.ok.injEq, Step.next.injEq] at h; subst h; exact StepInv.refl _
  rcases ite_next h with h | h
  · simp at h
  rcases ite_next h with h | h
  · simp at h
  rcases ite_next h with h | h
  · simp only [Res.ok.injEq, Step.next.injEq] at h; subst h; exact StepInv.of_eq rfl rfl
  · simp at h

/-- The argument pointer after a directive: one argument was read. -/
theorem StepInv.of_arg {st st1 : ScanState} {a : Arg} {rest : List Arg}
    (hc : st1.c.sexp.length ≤ st1.c.allocated)
    (hs : st.c.secure = true → st1.c.secure = true)
    (ha : st.arg_ptr = some (a :: rest)) (ha1 : st1.arg_ptr = some rest)
    (hm : ∀ std, a = Arg.mpi std true → st1.c.secure = true) : StepInv st st1 := by
  refine ⟨fun _ => hc, hs, by rw [ha, ha1]; rfl, [a], by rw [ha, ha1]; rfl, ?_⟩
  rintro ⟨std, h⟩
  exact hm std (by simpa using (List.mem_singleton.1 h).symm)

theorem percentBranch_inv {st st1 : ScanState} {ch : Nat}
    (h : percentBranch st ch = .ok (.next st1)) : StepInv st st1 := by
  unfold percentBranch at h
  split_ifs at h
  · split at h
    · rename_i std sec rest hap
      simp only [] at h
      split at h
      · simp at h
      · rename_i c hs
        simp only [Res.ok.injEq, Step.next.injEq] at h
        subst h
        obtain ⟨_, h2, h3⟩ := store_ok hs
        refine StepInv.of_arg h2 ?_ hap rfl ?_
        · intro hsec
          show c.secure = true
          rw [h3]
          split_ifs
          · rfl
          · rw [make_space_secure]; exact hsec
        · intro std1 he
          show c.secure = true
          rw [h3]
          have hsec : sec = true := by injection he
          split_ifs with hx
          · rfl
          · rw [make_space_secure] at hx ⊢
            simp only [hsec, and_true, not_not] at hx
            simpa using hx
    · simp at h
  · split at h
    · rename_i astr rest hap
      split at h
      · simp at h
      · rename_i c hs
        simp only [Res.ok.injEq, Step.next.injEq] at h
        subst h
        obtain ⟨_, h2, h3⟩ := storeData_ok hs
        exact StepInv.of_arg h2 (fun hsec => by show c.secure = true; rw [h3]; exact hsec)
          hap rfl (fun std he => by cases he)
    · simp at h
  · split at h
    · rename_i aint rest hap
      split at h
      · simp at h
      · rename_i c hs
        simp only [Res.ok.injEq, Step.next.injEq] at h
        subst h
        obtain ⟨_, h2, h3⟩ := storeData_ok hs
        exact StepInv.of_arg h2 (fun hsec => by show c.secure = true; rw [h3]; exact hsec)
          hap rfl (fun std he => by cases he)
    · simp at h
  · simp at h

theorem dispatch_inv {buffer : List Nat} {st st1 : ScanState} {ch : Nat}
    (h : dispatch buffer st ch = .ok (.next st1)) : StepInv st st1 := by
  unfold dispatch at h
  rcases ite_next h with h | h
  · exact quotedBranch_inv h
  cases hh : st.hexfmt with
  | some h0 => simp only [hh] at h; exact hexBranch_inv h
  | none =>
    simp only [hh] at h
    rcases ite_next h with h | h
    · rcases ite_next h with h | h
      · simp only [Res.ok.injEq, Step.next.injEq] at h; subst h; exact StepInv.of_eq rfl rfl
      · simp only [Res.ok.injEq, Step.next.injEq] at h; subst h; exact StepInv.refl _
    cases hd : st.digptr with
    | some dp => simp only [hd] at h; exact digBranch_inv h
    | none =>
      simp only [hd] at h
      rcases ite_next h with h | h
      · exact percentBranch_inv h
      · exact topBranch_inv h

/-- Every pass through the body of the loop keeps what `StepInv` says. -/
theorem scanBody_inv {buffer : List Nat} {st st1 : ScanState}
    (h : scanBody buffer st = .ok (.next st1)) : StepInv st st1 := by
  unfold scanBody at h
  cases hb : buffer[st.p]? with
  | none => simp [hb] at h
  | some ch =>
    simp only [hb] at h
    split at h
    · rename_i tp htp hhf
      rcases ite_next h with h | h
      · simp only [Res.ok.injEq, Step.next.injEq] at h; subst h; exact StepInv.refl _
      · cases hc : copy buffer tp (st.p - tp) with
        | none => simp [hc] at h
        | some payload =>
          simp only [hc] at h
          cases hs : storeData st.c (st.p - tp) payload with
          | err e => simp [hs] at h
          | ok c =>
            simp only [hs] at h
            obtain ⟨_, h2, h3⟩ := storeData_ok hs
            exact StepInv.trans
              (@StepInv.of_store st { st with c := c, tokenp := none } h2 h3 rfl)
              (dispatch_inv h)
    · exact dispatch_inv h

/-- The loop keeps what `StepInv` says, from any state to the state at the end of the
input. -/
theorem scanRun_inv (buffer : List Nat) :
    ∀ (fuel : Nat) (st st2 : ScanState),
      scanRun buffer fuel st = .ok (.ended st2) → StepInv st st2 := by
  intro fuel
  induction fuel with
  | zero => intro st st2 h; simp [scanRun] at h
  | succ f ih =>
    intro st st2 h
    rw [scanRun] at h
    split_ifs at h with hn
    · cases hb : scanBody buffer st with
      | err e => simp [hb] at h
      | ok s =>
        cases s with
        | ret rc erroff => simp [hb] at h
        | next st1 =>
          simp only [hb] at h
          have h2 := ih _ _ h
          exact StepInv.trans (scanBody_inv hb) (StepInv.trans (StepInv.of_eq rfl rfl) h2)
    · simp only [Res.ok.injEq, RunOut.ended.injEq] at h
      subst h
      exact StepInv.refl _

/-- The function `normalize` does not fault on a block that ends with `ST_STOP`. -/
theorem normalize_stop (body : List Nat) :
    ∃ t, normalize (some (body ++ [ST_STOP])) = .ok t ∧
      (t = none ∨ t = some (body ++ [ST_STOP])) := by
  unfold normalize
  cases body with
  | nil => exact ⟨none, by simp [ST_STOP], Or.inl rfl⟩
  | cons a r =>
    cases r with
    | nil =>
      by_cases h0 : a = ST_STOP
      · exact ⟨none, by simp [h0], Or.inl rfl⟩
      · by_cases h1 : a = ST_OPEN
        · exact ⟨_, by simp [h1, ST_STOP, ST_OPEN, ST_CLOSE], Or.inr rfl⟩
        · exact ⟨_, by simp [h0, h1], Or.inr rfl⟩
    | cons b r2 =>
      by_cases h0 : a = ST_STOP
      · exact ⟨none, by simp [h0], Or.inl rfl⟩
      · by_cases h1 : a = ST_OPEN
        · by_cases h2 : b = ST_CLOSE
          · exact ⟨none, by simp [h1, h2, ST_STOP, ST_OPEN], Or.inl rfl⟩
          · exact ⟨_, by simp [h1, h2, ST_STOP, ST_OPEN], Or.inr rfl⟩
        · exact ⟨_, by simp [h0, h1], Or.inr rfl⟩

/-- The scanner returns 0 exactly when its loop reaches the end of the input; the tree is
then what `normalize` makes of the bytes emitted with `ST_STOP` behind them. -/
theorem sscan_of_run {buffer : List Nat} {length : Nat} {ap : Option (List Arg)}
    {st : ScanState}
    (h : scanRun buffer (buffer.length + 1) (scanInit length ap) = .ok (.ended st)) :
    ∃ t, normalize (some (st.c.sexp ++ [ST_STOP])) = .ok t ∧
      sexp_sscan buffer length ap = .ok (.done t st.c.secure) := by
  have hinv := scanRun_inv buffer _ _ _ h
  have hcap : st.c.sexp.length ≤ st.c.allocated := hinv.1 (by simp [scanInit])
  obtain ⟨t, ht, _⟩ := normalize_stop st.c.sexp
  refine ⟨t, ht, ?_⟩
  have hs := (store_make_space st.c 0 [ST_STOP] hcap (by simp)).1
  unfold sexp_sscan scanEmit
  rw [scanLoop_run, h]
  simp only [hs, ht]

theorem sscan_done_run {buffer : List Nat} {length : Nat} {ap : Option (List Arg)}
    {t : Option (List Nat)} {sec : Bool}
    (h : sexp_sscan buffer length ap = .ok (.done t sec)) :
    ∃ st, scanRun buffer (buffer.length + 1) (scanInit length ap) = .ok (.ended st) ∧
      normalize (some (st.c.sexp ++ [ST_STOP])) = .ok t ∧ st.c.secure = sec := by
  cases hr : scanRun buffer (buffer.length + 1) (scanInit length ap) with
  | err e =>
    unfold sexp_sscan scanEmit at h
    rw [scanLoop_run, hr] at h
    simp at h
  | ok o =>
    cases o with
    | fail rc erroff =>
      unfold sexp_sscan scanEmit at h
      rw [scanLoop_run, hr] at h
      simp at h
    | ended st =>
      obtain ⟨t1, ht1, hs⟩ := sscan_of_run hr
      rw [h] at hs
      simp only [Res.ok.injEq, ScanOut.done.injEq] at hs
      obtain ⟨rfl, rfl⟩ := hs
      exact ⟨st, rfl, ht1, rfl⟩

/-! ### The end of the input -/

/-- C11 does not hold: inputs that end inside a token (`abc`), a quoted string (`"a`), a
hex atom (`#61`), a base64 atom (`|a`), a decimal length (`12`), a display hint (`[a`,
and `(a)[` with a tree in front) and, for `gcry_sexp_build`, a percent directive (`%`)
all make the scanner return 0; what was open at the end is dropped. -/
theorem C11_dangling_state_counterexample :
    gcry_sexp_sscan [97, 98, 99] 3 = .ok (.done none false) ∧
    gcry_sexp_sscan [34, 97] 2 = .ok (.done none false) ∧
    gcry_sexp_sscan [35, 54, 49] 3 = .ok (.done none false) ∧
    gcry_sexp_sscan [124, 97] 2 = .ok (.done none false) ∧
    gcry_sexp_sscan [49, 50] 2 = .ok (.done none false) ∧
    gcry_sexp_sscan [91, 97] 2 = .ok (.done none false) ∧
    gcry_sexp_sscan [40, 97, 41, 91] 4 = .ok (.done (some [3, 1, 1, 0, 97, 4, 0]) false) ∧
    gcry_sexp_build [37] [] = .ok (.done none false) := by
  decide

/-- C11, amended: the scanner has no check of the state at the end of the input.  Whenever
its loop reaches the end of the input, with the variables `st` in whatever state,
`gcry_sexp_sscan` returns 0, and the tree is what `normalize` makes of the bytes emitted
so far with `ST_STOP` behind them. -/
theorem C11_dangling_state_amended (buffer : List Nat) (length : Nat) (st : ScanState)
    (h : scanRun buffer (buffer.length + 1) (scanInit length none) = .ok (.ended st)) :
    ∃ t, normalize (some (st.c.sexp ++ [ST_STOP])) = .ok t ∧
      (t = none ∨ t = some (st.c.sexp ++ [ST_STOP])) ∧
      gcry_sexp_sscan buffer length = .ok (.done t st.c.secure) := by
  obtain ⟨t, ht, hs⟩ := sscan_of_run h
  obtain ⟨t1, ht1, hor⟩ := normalize_stop st.c.sexp
  rw [ht] at ht1
  simp only [Res.ok.injEq] at ht1
  subst ht1
  exact ⟨t, ht, hor, hs⟩

/-- C11, amended, at the input `(a)"b`: the loop ends inside the quoted string that
starts at offset 3, and the call returns 0 with the tree of `(a)`. -/
theorem C11_dangling_state_amended_witness :
    scanRun [40, 97, 41, 34, 98] 6 (scanInit 5 none) =
      .ok (.ended { p := 5, n := 0, digptr := none, quoted := some 3, tokenp := none,
                    hexfmt := none, base64 := none, disphint := none, percent := none,
                    hexcount := 0, quoted_esc := false,
                    c := { sexp := [3, 1, 1, 0, 97, 4], allocated := 13, secure := false },
                    arg_ptr := none }) ∧
    gcry_sexp_sscan [40, 97, 41, 34, 98] 5 =
      .ok (.done (some [3, 1, 1, 0, 97, 4, 0]) false) := by
  refine ⟨by decide, ?_⟩
  obtain ⟨t, ht, _, hs⟩ := C11_dangling_state_amended [40, 97, 41, 34, 98] 5
    { p := 5, n := 0, digptr := none, quoted := some 3, tokenp := none,
      hexfmt := none, base64 := none, disphint := none, percent := none,
      hexcount := 0, quoted_esc := false,
      c := { sexp := [3, 1, 1, 0, 97, 4], allocated := 13, secure := false },
      arg_ptr := none } (by decide)
  have e : normalize (some ([3, 1, 1, 0, 97, 4] ++ [ST_STOP])) =
      .ok (some [3, 1, 1, 0, 97, 4, 0]) := by decide
  rw [e] at ht
  simp only [Res.ok.injEq] at ht
  subst ht
  exact hs

/-- Whenever `gcry_sexp_sscan` returns 0 with a non-null tree, the tree is the bytes the
loop emitted followed by the one `ST_STOP` stored after the loop: its last byte is
`ST_STOP`. -/
theorem sscan_tree_ends_with_stop (buffer : List Nat) (length : Nat) (t : List Nat)
    (sec : Bool) (h : gcry_sexp_sscan buffer length = .ok (.done (some t) sec)) :
    t.getLast? = some ST_STOP ∧
    ∃ st, scanRun buffer (buffer.length + 1) (scanInit length none) = .ok (.ended st) ∧
      t = st.c.sexp ++ [ST_STOP] := by
  obtain ⟨st, hr, hn, _⟩ := sscan_done_run h
  have := normalize_some hn
  subst this
  exact ⟨by simp, st, hr, rfl⟩

/-! ### The memory class of the tree -/

/-- C17: when `gcry_sexp_build` returns 0 with a non-null tree, the loop has read a
prefix `consumed` of the arguments, and if a secure MPI is among them the returned block
is secure; no pass through the loop body and no run of the loop takes a secure block back
to ordinary memory. -/
theorem C17_secure_propagation (format : List Nat) (args : List Arg) (t : List Nat)
    (sec : Bool) (h : gcry_sexp_build format args = .ok (.done (some t) sec)) :
    (∃ st consumed rest,
      scanRun (format ++ [0]) ((format ++ [0]).length + 1)
        (scanInit (strlen format) (some args)) = .ok (.ended st) ∧
      st.c.secure = sec ∧ st.arg_ptr = some rest ∧ args = consumed ++ rest ∧
      ((∃ std, Arg.mpi std true ∈ consumed) → sec = true)) ∧
    (∀ st st1, scanBody (format ++ [0]) st = .ok (.next st1) → st.c.secure = true →
      st1.c.secure = true) ∧
    (∀ fuel st st2, scanRun (format ++ [0]) fuel st = .ok (.ended st2) →
      st.c.secure = true → st2.c.secure = true) := by
  refine ⟨?_, fun st st1 hb => (scanBody_inv hb).2.1,
    fun fuel st st2 hr => (scanRun_inv _ fuel st st2 hr).2.1⟩
  obtain ⟨st, hr, _, hsec⟩ := sscan_done_run h
  obtain ⟨_, _, hsome, consumed, hc, hm⟩ := scanRun_inv _ _ _ _ hr
  cases hap : st.arg_ptr with
  | none => simp [hap, scanInit] at hsome
  | some rest =>
    refine ⟨st, consumed, rest, hr, hsec, hap, ?_, fun hx => ?_⟩
    · simpa [hap, scanInit] using hc
    · rw [← hsec]; exact hm hx

/-- C17 at the call `gcry_sexp_build ("(%m%d)", m, 5, 7)` with a secure MPI `m` whose
standard form is the byte 1: the block returned is secure. -/
theorem C17_secure_propagation_witness :
    gcry_sexp_build [40, 37, 109, 37, 100, 41] [Arg.mpi [1] true, Arg.int 5, Arg.int 7] =
      .ok (.done (some [3, 1, 1, 0, 1, 1, 1, 0, 53, 4, 0]) true) ∧
    (∀ st st1, scanBody ([40, 37, 109, 37, 100, 41] ++ [0]) st = .ok (.next st1) →
      st.c.secure = true → st1.c.secure = true) :=
  ⟨by decide,
   (C17_secure_propagation [40, 37, 109, 37, 100, 41]
      [Arg.mpi [1] true, Arg.int 5, Arg.int 7] [3, 1, 1, 0, 1, 1, 1, 0, 53, 4, 0] true
      (by decide)).2.1⟩

/-! ### Tokens and hex atoms -/

theorem tokenchars_range {ch : Nat} (h : ch ∈ tokenchars) :
    (42 ≤ ch ∧ ch ≤ 58 ∧ ch ≠ 44) ∨ ch = 61 ∨ (65 ≤ ch ∧ ch ≤ 90) ∨ ch = 95 ∨
      (97 ≤ ch ∧ ch ≤ 122) := by
  simp only [tokenchars, List.mem_cons, List.mem_singleton, List.not_mem_nil, or_false] at h
  omega

theorem strchr_tokenchars {ch : Nat} (h : ch ∈ tokenchars) : strchr tokenchars ch = true := by
  simp [strchr, h]

/-- A token character other than a digit at the top level opens a token. -/
theorem scanLoop_tok_start {buffer : List Nat} {fuel p n ch : Nat} {c : make_space_ctx}
    {r : List Nat} (hn : n ≠ 0) (hd : buffer.drop p = ch :: r) (ht : ch ∈ tokenchars)
    (hdig : isdigit ch = false) :
    scanLoop buffer (fuel + 1) (topState p n c) =
      scanLoop buffer fuel (tokState (p + 1) (n - 1) p c) := by
  rw [scanLoop, if_pos (by simpa [topState] using hn)]
  have hr := tokenchars_range ht
  have hs := strchr_tokenchars ht
  have e1 : ch ≠ 40 := by omega
  have e2 : ch ≠ 41 := by omega
  have e3 : ch ≠ 34 := by omega
  have e4 : ch ≠ 35 := by omega
  have e5 : ch ≠ 124 := by omega
  have e6 : ch ≠ 91 := by omega
  have e7 : ch ≠ 93 := by omega
  simp [scanBody, dispatch, topBranch, topState, tokState, get_of_drop hd, hn, hdig, hs,
    e1, e2, e3, e4, e5, e6, e7]

/-- Inside a token the token characters are passed over. -/
theorem scanLoop_tok_run (buffer : List Nat) (ws : List Nat) :
    ∀ (fuel p n tp : Nat) (c : make_space_ctx) (r : List Nat),
      (∀ x ∈ ws, x ∈ tokenchars) → buffer.drop p = ws ++ r → ws.length ≤ n →
      scanLoop buffer (fuel + ws.length) (tokState p n tp c) =
        scanLoop buffer fuel (tokState (p + ws.length) (n - ws.length) tp c) := by
  induction ws with
  | nil => intro fuel p n tp c r _ _ _; simp
  | cons x xs ih =>
    intro fuel p n tp c r hws hd hn
    simp only [List.cons_append] at hd
    simp only [List.length_cons] at hn ⊢
    have hs := strchr_tokenchars (hws x (List.mem_cons_self _ _))
    have hn0 : n ≠ 0 := by omega
    rw [← Nat.add_assoc, scanLoop, if_pos (by simpa [tokState, topState] using hn0)]
    have := ih fuel (p + 1) (n - 1) tp c r (fun y hy => hws y (List.mem_cons_of_mem _ hy))
      (drop_succ_of_drop hd) (by omega)
    simp only [scanBody, tokState, topState, get_of_drop hd, hs, if_true, hn0, if_false]
    simp only [tokState, topState] at this
    rw [this]
    congr 2 <;> omega

/-- The `)` that ends a token: the token is stored as one atom, and `ST_CLOSE` after it. -/
theorem scanLoop_tok_close {buffer : List Nat} {fuel p n tp : Nat} {c : make_space_ctx}
    {w r : List Nat} (hw : w.length < 65536) (hn : n ≠ 0)
    (htp : buffer.drop tp = w ++ 41 :: r) (hp : p = tp + w.length)
    (hc : c.sexp.length ≤ c.allocated) :
    ∃ a, (c.sexp ++ encData w ++ [ST_CLOSE]).length ≤ a ∧
      scanLoop buffer (fuel + 1) (tokState p n tp c) =
        scanLoop buffer fuel (topState (p + 1) (n - 1)
          { sexp := c.sexp ++ encData w ++ [ST_CLOSE], allocated := a,
            secure := c.secure }) := by
  have hd : buffer.drop p = 41 :: r := by rw [hp]; exact drop_of_drop htp
  have hlen := lt_of_drop hd
  have hcopy : copy buffer tp (p - tp) = some w := by
    have : p - tp = w.length := by omega
    rw [this]
    exact copy_of_drop htp (by omega)
  obtain ⟨hs1, hc1⟩ := store_make_space c w.length (encData w) hc (by simp [encData])
  obtain ⟨hs2, hc2⟩ := store_make_space
    { sexp := c.sexp ++ encData w, allocated := (make_space c w.length).allocated,
      secure := c.secure } 0 [ST_CLOSE] hc1 (by simp)
  refine ⟨_, hc2, ?_⟩
  have hnt : strchr tokenchars 41 = false := by decide
  have hsd : storeData c (p - tp) w = .ok
      { sexp := c.sexp ++ encData w, allocated := (make_space c w.length).allocated,
        secure := c.secure } := by
    have : p - tp = w.length := by omega
    rw [this]
    unfold storeData
    rw [STORE_LEN_eq _ hw]
    simpa [encData] using hs1
  rw [scanLoop, if_pos (by simpa [tokState, topState] using hn)]
  simp only [scanBody, tokState, topState, get_of_drop hd, hnt, hcopy, hsd]
  simp [dispatch, topBranch, hs2, hn]

theorem hexval_hexDigit (u : Bool) {v : Nat} (h : v < 16) : hexval (hexDigit u v) = v := by
  unfold hexDigit hexval
  cases u <;> simp only [Bool.false_eq_true, if_false, if_true] <;> split_ifs <;> omega

theorem isxdigit_hexDigit (u : Bool) {v : Nat} (h : v < 16) :
    isxdigit (hexDigit u v) = true := by
  unfold hexDigit isxdigit
  cases u <;> simp only [Bool.false_eq_true, if_false, if_true] <;> split_ifs <;>
    simp only [decide_eq_true_eq] <;> omega

theorem isspace_hexDigit (u : Bool) {v : Nat} (h : v < 16) :
    isspace (hexDigit u v) = false := by
  unfold hexDigit isspace
  cases u <;> simp only [Bool.false_eq_true, if_false, if_true] <;> split_ifs <;>
    simp only [decide_eq_false_iff_not] <;> omega

theorem hextobyte_hexDigit (u : Bool) {b : Nat} (h : b < 256) :
    hextobyte (hexDigit u (b / 16)) (hexDigit u (b % 16)) = b := by
  unfold hextobyte
  rw [hexval_hexDigit u (by omega), hexval_hexDigit u (Nat.mod_lt _ (by decide))]
  omega

theorem length_hexText (u : Bool) (w : List Nat) : (hexText u w).length = 2 * w.length := by
  induction w with
  | nil => rfl
  | cons b r ih => simp [hexText, ih]; omega

theorem hexText_xdigit (u : Bool) (w : List Nat) (hw : ∀ x ∈ w, x < 256) :
    ∀ x ∈ hexText u w, isxdigit x = true := by
  induction w with
  | nil => intro x hx; simp [hexText] at hx
  | cons b r ih =>
    intro x hx
    have hb := hw b (List.mem_cons_self _ _)
    simp only [hexText, List.mem_cons] at hx
    rcases hx with hx | hx | hx
    · rw [hx]; exact isxdigit_hexDigit u (by omega)
    · rw [hx]; exact isxdigit_hexDigit u (Nat.mod_lt _ (by decide))
    · exact ih (fun y hy => hw y (List.mem_cons_of_mem _ hy)) x hx

/-- The decoding loop gives back the bytes whose hex rendering it reads. -/
theorem hexLoop_hexText (buffer : List Nat) (u : Bool) (w : List Nat) :
    ∀ (fuel h p : Nat) (r : List Nat), (∀ x ∈ w, x < 256) →
      buffer.drop h = hexText u w ++ r → p = h + 2 * w.length → w.length < fuel →
      hexLoop buffer p fuel h = .ok w := by
  induction w with
  | nil =>
    intro fuel h p r _ _ hp hf
    obtain ⟨f, rfl⟩ := exists_succ_of_lt hf
    simp at hp
    simp [hexLoop, hp]
  | cons b bs ih =>
    intro fuel h p r hw hd hp hf
    obtain ⟨f, rfl⟩ := exists_succ_of_lt hf
    have hb := hw b (List.mem_cons_self _ _)
    simp only [hexText, List.cons_append] at hd
    simp only [List.length_cons] at hp hf
    have h0 := get_of_drop hd
    have h1 := get_of_drop (drop_succ_of_drop hd)
    have hd2 : buffer.drop (h + 1 + 1) = hexText u bs ++ r :=
      drop_succ_of_drop (drop_succ_of_drop hd)
    have hrec := ih f (h + 1 + 1) p r (fun y hy => hw y (List.mem_cons_of_mem _ hy)) hd2
      (by omega) (by omega)
    have hsp := isspace_hexDigit u (show b / 16 < 16 by omega)
    rw [hexLoop, if_pos (by omega)]
    simp only [h0, h1, hsp, hrec, hextobyte_hexDigit u hb]
    simp

/-- A `#` at the top level opens a hex atom. -/
theorem scanLoop_hex_start {buffer : List Nat} {fuel p n : Nat} {c : make_space_ctx}
    {r : List Nat} (hn : n ≠ 0) (hd : buffer.drop p = 35 :: r) :
    scanLoop buffer (fuel + 1) (topState p n c) =
      scanLoop buffer fuel (hexState (p + 1) (n - 1) p 0 c) := by
  rw [scanLoop, if_pos (by simpa [topState] using hn)]
  simp [scanBody, dispatch, topBranch, topState, hexState, get_of_drop hd, hn]

/-- Inside a hex atom the hex digits are counted. -/
theorem scanLoop_hex_run (buffer : List Nat) (ds : List Nat) :
    ∀ (fuel p n h cnt : Nat) (c : make_space_ctx) (r : List Nat),
      (∀ x ∈ ds, isxdigit x = true) → buffer.drop p = ds ++ r → ds.length ≤ n →
      scanLoop buffer (fuel + ds.length) (hexState p n h cnt c) =
        scanLoop buffer fuel (hexState (p + ds.length) (n - ds.length) h (cnt + ds.length) c) := by
  induction ds with
  | nil => intro fuel p n h cnt c r _ _ _; simp
  | cons x xs ih =>
    intro fuel p n h cnt c r hds hd hn
    simp only [List.cons_append] at hd
    simp only [List.length_cons] at hn ⊢
    have hx := hds x (List.mem_cons_self _ _)
    have hn0 : n ≠ 0 := by omega
    rw [← Nat.add_assoc, scanLoop, if_pos (by simpa [hexState, topState] using hn0)]
    have := ih fuel (p + 1) (n - 1) h (cnt + 1) c r
      (fun y hy => hds y (List.mem_cons_of_mem _ hy)) (drop_succ_of_drop hd) (by omega)
    simp only [scanBody, dispatch, hexBranch, hexState, topState, get_of_drop hd, hx,
      if_true, hn0, if_false, Option.isSome_none, Bool.false_eq_true]
    simp only [hexState, topState] at this
    rw [this]
    congr 2 <;> omega

/-- The `#` that ends a hex atom: the decoded bytes are stored as one atom. -/
theorem scanLoop_hex_close {buffer : List Nat} {fuel p n h cnt : Nat} {c : make_space_ctx}
    {w r : List Nat} (u : Bool) (hw : ∀ x ∈ w, x < 256) (hwl : w.length < 65536)
    (hn : n ≠ 0) (hh : buffer.drop (h + 1) = hexText u w ++ 35 :: r)
    (hp : p = h + 1 + 2 * w.length) (hcnt : cnt = 2 * w.length)
    (hc : c.sexp.length ≤ c.allocated) :
    ∃ a, (c.sexp ++ encData w).length ≤ a ∧
      scanLoop buffer (fuel + 1) (hexState p n h cnt c) =
        scanLoop buffer fuel { topState (p + 1) (n - 1)
          { sexp := c.sexp ++ encData w, allocated := a, secure := c.secure } with
          hexcount := cnt } := by
  have hd : buffer.drop p = 35 :: r := by
    have := drop_of_drop hh
    rw [length_hexText] at this
    rw [hp]; exact this
  have hlen := lt_of_drop hd
  obtain ⟨hs1, hc1⟩ := store_make_space c w.length (encData w) hc (by simp [encData])
  refine ⟨_, hc1, ?_⟩
  have hdec : hexLoop buffer p (buffer.length + 1) (h + 1) = .ok w :=
    hexLoop_hexText buffer u w _ (h + 1) p (35 :: r) hw hh hp (by omega)
  have hsd : storeData c (cnt / 2) w = .ok
      { sexp := c.sexp ++ encData w, allocated := (make_space c w.length).allocated,
        secure := c.secure } := by
    have : cnt / 2 = w.length := by omega
    rw [this]
    unfold storeData
    rw [STORE_LEN_eq _ hwl]
    simpa [encData] using hs1
  have hodd : ¬ (cnt % 2 = 1) := by omega
  have hnx : isxdigit 35 = false := by decide
  rw [scanLoop, if_pos (by simpa [hexState, topState] using hn)]
  simp only [scanBody, dispatch, hexBranch, hexState, topState, get_of_drop hd, hnx, hodd,
    hdec, hsd, if_true, if_false, Option.isSome_none, Bool.false_eq_true]
  simp [hn]

/-- The count of hex digits that a hex atom leaves behind does not matter to `)`. -/
theorem scanLoop_close_hc {buffer : List Nat} {fuel p n k : Nat} {c : make_space_ctx}
    {r : List Nat} (hn : n ≠ 0) (hd : buffer.drop p = 41 :: r)
    (hc : c.sexp.length ≤ c.allocated) :
    scanLoop buffer (fuel + 1) { topState p n c with hexcount := k } =
      scanLoop buffer fuel { topState (p + 1) (n - 1)
        { sexp := c.sexp ++ [ST_CLOSE], allocated := (make_space c 0).allocated,
          secure := c.secure } with hexcount := k } := by
  have hs := (store_make_space c 0 [ST_CLOSE] hc (by simp)).1
  rw [scanLoop, if_pos (by simpa [topState] using hn)]
  simp [scanBody, dispatch, topBranch, topState, get_of_drop hd, hs, hn]

theorem scanLoop_end_hc {buffer : List Nat} {fuel p k : Nat} {c : make_space_ctx}
    (hc : c.sexp.length ≤ c.allocated) :
    scanLoop buffer (fuel + 1) { topState p 0 c with hexcount := k } =
      .ok (.built { sexp := c.sexp ++ [ST_STOP], allocated := (make_space c 0).allocated,
                    secure := c.secure }) := by
  have hs := (store_make_space c 0 [ST_STOP] hc (by simp)).1
  rw [scanLoop, if_neg (by simp [topState])]
  simp [topState, hs]

theorem normalize_list_atom (w : List Nat) :
    normalize (some (ST_OPEN :: (encData w ++ [ST_CLOSE, ST_STOP]))) =
      .ok (some (ST_OPEN :: (encData w ++ [ST_CLOSE, ST_STOP]))) := by
  simp [normalize, encData, ST_OPEN, ST_DATA, ST_CLOSE, ST_STOP]

/-- The list with one token: the token is stored as an atom. -/
theorem sscan_token (x : Nat) (ws : List Nat) (hw : (x :: ws).length < 65536)
    (htok : ∀ y ∈ x :: ws, y ∈ tokenchars) (hdig : isdigit x = false) :
    gcry_sexp_sscan (40 :: (x :: ws ++ [41])) ((x :: ws).length + 2) =
      .ok (.done (some (ST_OPEN :: (encData (x :: ws) ++ [ST_CLOSE, ST_STOP]))) false) := by
  have hF : (40 :: (x :: ws ++ [41])).length + 1 = 0 + 1 + 1 + ws.length + 1 + 1 := by
    simp
    omega
  have hinit : scanInit ((x :: ws).length + 2) none =
      topState 0 ((x :: ws).length + 2)
        { sexp := [], allocated := (x :: ws).length + 2 + 2, secure := false } := rfl
  have hc0 := (store_make_space
    { sexp := [], allocated := (x :: ws).length + 2 + 2, secure := false } 0 [ST_OPEN]
    (Nat.zero_le _) (by simp)).2
  unfold gcry_sexp_sscan sexp_sscan scanEmit
  rw [hinit, hF]
  rw [scanLoop_open (r := x :: ws ++ [41]) (by simp) (by simp) (by simp)]
  rw [scanLoop_tok_start (r := ws ++ [41]) (by simp) (by simp)
    (htok x (List.mem_cons_self _ _)) hdig]
  rw [scanLoop_tok_run _ ws _ _ _ _ _ [41] (fun y hy => htok y (List.mem_cons_of_mem _ hy))
    (by simp) (by simp)]
  obtain ⟨a, ha, h⟩ := @scanLoop_tok_close (40 :: (x :: ws ++ [41])) (0 + 1)
    (0 + 1 + 1 + ws.length) ((x :: ws).length + 2 - 1 - 1 - ws.length) (0 + 1)
    { sexp := [] ++ [ST_OPEN],
      allocated := (make_space { sexp := [], allocated := (x :: ws).length + 2 + 2,
                                 secure := false } 0).allocated,
      secure := false } (x :: ws) [] hw (by simp) (by simp) (by simp; omega)
    hc0
  rw [h]
  have hz : (x :: ws).length + 2 - 1 - 1 - ws.length - 1 = 0 := by simp
  rw [hz, scanLoop_end ha]
  simp only [List.nil_append, List.append_assoc, List.singleton_append, List.cons_append]
  rw [normalize_list_atom]

/-- The list with one hex atom: the decoded bytes are stored as an atom. -/
theorem sscan_hex (u : Bool) (w : List Nat) (hw : ∀ x ∈ w, x < 256)
    (hwl : w.length < 65536) :
    gcry_sexp_sscan (40 :: 35 :: (hexText u w ++ [35, 41])) (2 * w.length + 4) =
      .ok (.done (some (ST_OPEN :: (encData w ++ [ST_CLOSE, ST_STOP]))) false) := by
  have hF : (40 :: 35 :: (hexText u w ++ [35, 41])).length + 1 =
      0 + 1 + 1 + 1 + (hexText u w).length + 1 + 1 := by
    simp
    omega
  have hinit : scanInit (2 * w.length + 4) none =
      topState 0 (2 * w.length + 4)
        { sexp := [], allocated := 2 * w.length + 4 + 2, secure := false } := rfl
  have hl := length_hexText u w
  have hc0 := (store_make_space
    { sexp := [], allocated := 2 * w.length + 4 + 2, secure := false } 0 [ST_OPEN]
    (Nat.zero_le _) (by simp)).2
  unfold gcry_sexp_sscan sexp_sscan scanEmit
  rw [hinit, hF]
  rw [scanLoop_open (r := 35 :: (hexText u w ++ [35, 41])) (by simp) (by simp) (by simp)]
  rw [scanLoop_hex_start (r := hexText u w ++ [35, 41]) (by simp) (by simp)]
  rw [scanLoop_hex_run _ (hexText u w) _ _ _ _ _ _ [35, 41] (hexText_xdigit u w hw)
    (by simp) (by rw [hl]; omega)]
  obtain ⟨a, ha, h⟩ := @scanLoop_hex_close (40 :: 35 :: (hexText u w ++ [35, 41]))
    (0 + 1 + 1) (0 + 1 + 1 + (hexText u w).length)
    (2 * w.length + 4 - 1 - 1 - (hexText u w).length) (0 + 1) (0 + (hexText u w).length)
    { sexp := [] ++ [ST_OPEN],
      allocated := (make_space { sexp := [], allocated := 2 * w.length + 4 + 2,
                                 secure := false } 0).allocated,
      secure := false } w [41] u hw hwl (by rw [hl]; omega) (by simp) (by rw [hl])
    (by rw [hl]; omega) hc0
  rw [h]
  have hd41 : (40 :: 35 :: (hexText u w ++ [35, 41])).drop
      (0 + 1 + 1 + (hexText u w).length + 1) = [41] := by
    have := @drop_of_drop (40 :: 35 :: (hexText u w ++ [35, 41])) 0
      (40 :: 35 :: (hexText u w ++ [35])) [41] (by simp)
    have e : 0 + (40 :: 35 :: (hexText u w ++ [35])).length =
        0 + 1 + 1 + (hexText u w).length + 1 := by
      simp
      omega
    rw [e] at this
    exact this
  rw [scanLoop_close_hc (r := []) (by rw [hl]; omega) hd41 ha]
  have hz : 2 * w.length + 4 - 1 - 1 - (hexText u w).length - 1 - 1 = 0 := by
    rw [hl]; omega
  rw [hz, scanLoop_end_hc (store_make_space _ 0 [ST_CLOSE] ha (by simp)).2]
  simp only [List.nil_append, List.append_assoc, List.singleton_append, List.cons_append]
  rw [normalize_list_atom]

/-- C14: for a non-empty string `w` of at most 65535 token characters that does not start
with a digit, the inputs `(w)`, `(N:w)` with the decimal length `N` of `w`, and `(#H#)`
with the hex rendering `H` of `w` in upper or in lower case all make `gcry_sexp_sscan`
return 0 with the tree `ST_OPEN ST_DATA w ST_CLOSE ST_STOP`, which `gcry_sexp_sprint`
renders in canonical mode as `(N:w)`. -/
theorem C14_surface_syntaxes (w : List Nat) (u : Bool) (hne : w ≠ [])
    (hlen : w.length ≤ 65535) (htok : ∀ x ∈ w, x ∈ tokenchars)
    (hfirst : isdigit (w.headD 0) = false) :
    gcry_sexp_sscan ([40] ++ w ++ [41]) (w.length + 2) =
      .ok (.done (some ([ST_OPEN] ++ encData w ++ [ST_CLOSE, ST_STOP])) false) ∧
    gcry_sexp_sscan ([40] ++ decimal w.length ++ [58] ++ w ++ [41])
        ((decimal w.length).length + w.length + 3) =
      .ok (.done (some ([ST_OPEN] ++ encData w ++ [ST_CLOSE, ST_STOP])) false) ∧
    gcry_sexp_sscan ([40, 35] ++ hexText u w ++ [35, 41]) (2 * w.length + 4) =
      .ok (.done (some ([ST_OPEN] ++ encData w ++ [ST_CLOSE, ST_STOP])) false) ∧
    gcry_sexp_sprint (some ([ST_OPEN] ++ encData w ++ [ST_CLOSE, ST_STOP]))
        GCRYSEXP_FMT_CANON true ((decimal w.length).length + w.length + 4) =
      .ok ((decimal w.length).length + w.length + 3,
           [40] ++ decimal w.length ++ [58] ++ w ++ [41, 0]) := by
  have hbyte : ∀ x ∈ w, x < 256 := fun x hx => by
    have := tokenchars_range (htok x hx)
    omega
  have hpr : ∀ x ∈ [Node.opn, Node.data w, Node.cls], x.printable := by
    intro x hx
    simp only [List.mem_cons, List.mem_singleton, List.not_mem_nil, or_false] at hx
    rcases hx with rfl | rfl | rfl
    · trivial
    · refine ⟨?_, by omega⟩
      cases w with
      | nil => exact absurd rfl hne
      | cons a r => simp
    · trivial
  have hval : ∀ x ∈ [Node.opn, Node.data w, Node.cls], x.valid := by
    intro x hx
    simp only [List.mem_cons, List.mem_singleton, List.not_mem_nil, or_false] at hx
    rcases hx with rfl | rfl | rfl
    · trivial
    · show w.length < 65536
      omega
    · trivial
  have htext : textNodes false [Node.opn, Node.data w, Node.cls] =
      [40] ++ decimal w.length ++ [58] ++ w ++ [41] := by
    simp [textNodes, Node.text]
  have henc : encNodes [Node.opn, Node.data w, Node.cls] ++ [ST_STOP] =
      [ST_OPEN] ++ encData w ++ [ST_CLOSE, ST_STOP] := by
    simp [encNodes, Node.enc]
  have htl : ([40] ++ decimal w.length ++ [58] ++ w ++ [41]).length =
      (decimal w.length).length + w.length + 3 := by
    simp
    omega
  refine ⟨?_, ?_, ?_, ?_⟩
  · cases w with
    | nil => exact absurd rfl hne
    | cons x ws =>
      have := sscan_token x ws (by omega) htok (by simpa using hfirst)
      simpa using this
  · have := sscan_text [Node.opn, Node.data w, Node.cls] hpr []
    rw [List.append_nil, htext, henc, htl] at this
    rw [this]
    have hn := normalize_list_atom w
    simp only [List.singleton_append, List.cons_append, List.nil_append] at hn ⊢
    rw [hn]
  · have := sscan_hex u w hbyte (by omega)
    simpa using this
  · have := sprint_fits [Node.opn, Node.data w, Node.cls] hval GCRYSEXP_FMT_CANON
      ((decimal w.length).length + w.length + 4) (by simp [htext]; omega)
    rw [henc] at this
    rw [this]
    simp [htext]
    omega

/-- C14 at `w = abc`: the inputs `(abc)`, `(3:abc)` and `(#616263#)` give the same tree,
which is serialized as `(3:abc)`. -/
theorem C14_surface_syntaxes_witness :
    gcry_sexp_sscan [40, 97, 98, 99, 41] 5 =
      .ok (.done (some [3, 1, 3, 0, 97, 98, 99, 4, 0]) false) ∧
    gcry_sexp_sscan [40, 51, 58, 97, 98, 99, 41] 7 =
      .ok (.done (some [3, 1, 3, 0, 97, 98, 99, 4, 0]) false) ∧
    gcry_sexp_sscan [40, 35, 54, 49, 54, 50, 54, 51, 35, 41] 10 =
      .ok (.done (some [3, 1, 3, 0, 97, 98, 99, 4, 0]) false) ∧
    gcry_sexp_sprint (some [3, 1, 3, 0, 97, 98, 99, 4, 0]) GCRYSEXP_FMT_CANON true 8 =
      .ok (7, [40, 51, 58, 97, 98, 99, 41, 0]) :=
  C14_surface_syntaxes [97, 98, 99] false (by decide) (by decide) (by decide) (by decide)

/-! ### The decimal length in front of `:` -/

/-- The `:` after a length that fits an `int` and exceeds what is left of the input. -/
theorem scanLoop_colon_short {buffer : List Nat} {fuel p n dp N : Nat} {c : make_space_ctx}
    {r : List Nat} (hN : N ≤ 2147483647) (hn : n ≠ 0) (hs : N > n - 1)
    (hdp : buffer.drop dp = utoa N ++ 58 :: r) (hd : buffer.drop p = 58 :: r) :
    scanLoop buffer (fuel + 1) (digState p n dp c) = .ok (.fail (-2) p) := by
  have hat := atoi_utoa buffer dp N r hN hdp
  rw [scanLoop, if_pos (by simpa [digState, topState] using hn)]
  simp only [scanBody, dispatch, digBranch, topState, digState, get_of_drop hd]
  simp [isdigit, hat, hs]

/-- The `:` after a length that does not fit an `int`. -/
theorem scanLoop_colon_overflow {buffer : List Nat} {fuel p n dp N : Nat}
    {c : make_space_ctx} {r : List Nat} (hN : 2147483647 < N) (hn : n ≠ 0)
    (hdp : buffer.drop dp = utoa N ++ 58 :: r) (hd : buffer.drop p = 58 :: r) :
    scanLoop buffer (fuel + 1) (digState p n dp c) = .err .ub := by
  have hl := length_of_drop hdp
  simp at hl
  have hat : atoi buffer dp = .err .ub := by
    unfold atoi
    rw [atoiLoop_digits buffer (utoa N) _ dp 0 58 r (utoa_digits N) (by decide) hdp
      (by omega), digitsVal_utoa]
    simp
    omega
  rw [scanLoop, if_pos (by simpa [digState, topState] using hn)]
  simp only [scanBody, dispatch, digBranch, topState, digState, get_of_drop hd]
  simp [isdigit, hat]

/-- The `:` after a length that fits an `int` and the input: the payload is stored behind
a length field of 16 bits. -/
theorem scanLoop_colon_any {buffer : List Nat} {fuel p n dp : Nat} {c : make_space_ctx}
    {b r : List Nat} (hb : b.length ≤ 2147483647) (hn : b.length + 1 ≤ n)
    (hdp : buffer.drop dp = utoa b.length ++ 58 :: (b ++ r))
    (hd : buffer.drop p = 58 :: (b ++ r)) (hc : c.sexp.length ≤ c.allocated) :
    scanLoop buffer (fuel + 1) (digState p n dp c) =
      scanLoop buffer fuel (topState (p + b.length + 1) (n - b.length - 1)
        { sexp := c.sexp ++ ST_DATA :: (STORE_LEN b.length ++ b),
          allocated := (make_space c b.length).allocated, secure := c.secure }) := by
  have hn0 : n ≠ 0 := by omega
  have hat := atoi_utoa buffer dp b.length (b ++ r) hb hdp
  have hlen := lt_of_drop hd
  have hcopy : copy buffer (p + 1) b.length = some b :=
    copy_of_drop (drop_succ_of_drop hd) (by omega)
  have hs := (store_make_space c b.length (ST_DATA :: (STORE_LEN b.length ++ b)) hc
    (by simp [STORE_LEN])).1
  have hn1 : ¬ (n ≤ b.length) := by omega
  have hn2 : n - b.length ≠ 0 := by omega
  have hle : ¬ (b.length > n - 1) := by omega
  rw [scanLoop, if_pos (by simpa [digState, topState] using hn0)]
  simp only [scanBody, dispatch, digBranch, topState, digState, get_of_drop hd]
  simp [isdigit, hat, hle, hcopy, storeData, hs, hn1, hn2]

/-- The scanner up to the `:` of an input that starts with the decimal numeral of `N`. -/
theorem scanLoop_length_prefix (N : Nat) (h1 : 1 ≤ N) (rest : List Nat) (f n : Nat)
    (c : make_space_ctx) (hn : (utoa N).length ≤ n) :
    scanLoop (utoa N ++ 58 :: rest) (f + (utoa N).length) (topState 0 n c) =
      scanLoop (utoa N ++ 58 :: rest) f
        (digState (utoa N).length (n - (utoa N).length) 0 c) := by
  obtain ⟨x, ds, hu, hx1, hx2⟩ := utoa_head N h1
  have hdig : ∀ y ∈ ds, 48 ≤ y ∧ y ≤ 57 := fun y hy =>
    utoa_digits N y (by rw [hu]; exact List.mem_cons_of_mem _ hy)
  rw [hu] at hn ⊢
  simp only [List.length_cons] at hn ⊢
  have e : f + (ds.length + 1) = f + ds.length + 1 := by omega
  rw [e, scanLoop_digit1 (r := ds ++ 58 :: rest) (by omega) (by simp) hx1 hx2]
  rw [scanLoop_digits _ ds f (0 + 1) (n - 1) 0 c (58 :: rest) hdig (by simp) (by omega)]
  congr 2 <;> omega

/-- The first half of C12 for lengths that fit an `int`: a decimal length `N` above the
number of bytes after the `:` makes the scanner return -2 with the offset of the `:`. -/
theorem sscan_length_short (N : Nat) (rest : List Nat) (h1 : 1 ≤ N) (hN : N ≤ 2147483647)
    (hr : rest.length < N) :
    gcry_sexp_sscan (utoa N ++ 58 :: rest) ((utoa N).length + 1 + rest.length) =
      .ok (.fail (-2) (utoa N).length) := by
  have hF : (utoa N ++ 58 :: rest).length + 1 = rest.length + 1 + 1 + (utoa N).length := by
    simp
    omega
  have hinit : scanInit ((utoa N).length + 1 + rest.length) none =
      topState 0 ((utoa N).length + 1 + rest.length)
        { sexp := [], allocated := (utoa N).length + 1 + rest.length + 2,
          secure := false } := rfl
  unfold gcry_sexp_sscan sexp_sscan scanEmit
  rw [hinit, hF, scanLoop_length_prefix N h1 rest _ _ _ (by omega)]
  rw [scanLoop_colon_short (N := N) (r := rest) hN (by omega) (by omega) (by simp)
    (by simp)]

/-- A decimal length that does not fit an `int` leaves the scanner without a defined
result, whatever follows the `:`. -/
theorem sscan_length_overflow (N : Nat) (rest : List Nat) (hN : 2147483647 < N) :
    gcry_sexp_sscan (utoa N ++ 58 :: rest) ((utoa N).length + 1 + rest.length) =
      .err .ub := by
  have hF : (utoa N ++ 58 :: rest).length + 1 = rest.length + 1 + 1 + (utoa N).length := by
    simp
    omega
  have hinit : scanInit ((utoa N).length + 1 + rest.length) none =
      topState 0 ((utoa N).length + 1 + rest.length)
        { sexp := [], allocated := (utoa N).length + 1 + rest.length + 2,
          secure := false } := rfl
  unfold gcry_sexp_sscan sexp_sscan scanEmit
  rw [hinit, hF, scanLoop_length_prefix N (by omega) rest _ _ _ (by omega)]
  rw [scanLoop_colon_overflow (N := N) (r := rest) hN (by omega) (by simp) (by simp)]

/-- The second half of C12 for lengths that fit an `int`: the bytes after the `:` are
stored as one atom, behind the low 16 bits of the length. -/
theorem sscan_length_atom (b : List Nat) (h1 : 1 ≤ b.length) (hb : b.length ≤ 2147483647) :
    gcry_sexp_sscan (utoa b.length ++ 58 :: b) ((utoa b.length).length + 1 + b.length) =
      .ok (.done (some (ST_DATA :: (STORE_LEN b.length ++ b) ++ [ST_STOP])) false) := by
  have hF : (utoa b.length ++ 58 :: b).length + 1 =
      b.length + 1 + 1 + (utoa b.length).length := by
    simp
    omega
  have hinit : scanInit ((utoa b.length).length + 1 + b.length) none =
      topState 0 ((utoa b.length).length + 1 + b.length)
        { sexp := [], allocated := (utoa b.length).length + 1 + b.length + 2,
          secure := false } := rfl
  have hc := (store_make_space
    { sexp := [], allocated := (utoa b.length).length + 1 + b.length + 2, secure := false }
    b.length (ST_DATA :: (STORE_LEN b.length ++ b)) (Nat.zero_le _)
    (by simp [STORE_LEN])).2
  unfold gcry_sexp_sscan sexp_sscan scanEmit
  rw [hinit, hF, scanLoop_length_prefix b.length h1 b _ _ _ (by omega)]
  rw [scanLoop_colon_any (b := b) (r := []) hb (by omega) (by simp) (by simp)
    (Nat.zero_le _)]
  have hz : (utoa b.length).length + 1 + b.length - (utoa b.length).length - b.length - 1
      = 0 := by omega
  rw [hz, scanLoop_end hc]
  simp [normalize, ST_DATA, ST_STOP, ST_OPEN]

/-- A length of 65536 in front of 65536 bytes: the atom is stored behind the length
field 0. -/
theorem sscan_length_65536 (x : List Nat) (hx : x.length = 65536) :
    gcry_sexp_sscan ([54, 53, 53, 51, 54, 58] ++ x) 65542 =
      .ok (.done (some ([ST_DATA, 0, 0] ++ x ++ [ST_STOP])) false) := by
  have hu : utoa 65536 = [54, 53, 53, 51, 54] := by
    rw [utoa_eq_decimal]
    decide
  have := sscan_length_atom x (by omega) (by omega)
  rw [hx, hu] at this
  have hs : STORE_LEN 65536 = [0, 0] := by decide
  rw [hs] at this
  simpa [hx] using this

/-! ### The token character test -/

theorem mem_tokenchars_iff (c : Nat) : c ∈ tokenchars ↔ specTokenChar c = true := by
  simp only [tokenchars, List.mem_cons, List.mem_singleton, List.not_mem_nil, or_false,
    specTokenChar, decide_eq_true_eq]
  omega

/-- For every byte but NUL the test `strchr ( tokenchars, c )` is the class of the
specification. -/
theorem strchr_tokenchars_iff (c : Nat) (hc : c ≠ 0) :
    strchr tokenchars c = true ↔ specTokenChar c = true := by
  rw [← mem_tokenchars_iff]
  simp [strchr, hc]

/-- A byte other than NUL that is no delimiter, digit, token character, white space,
reserved punctuation or enabled `%` is rejected at the top level with -5. -/
theorem topBranch_other (st : ScanState) (c : Nat) (h0 : c ≠ 0)
    (hd : c ≠ 40 ∧ c ≠ 41 ∧ c ≠ 34 ∧ c ≠ 35 ∧ c ≠ 124 ∧ c ≠ 91 ∧ c ≠ 93)
    (hdig : isdigit c = false) (ht : specTokenChar c = false) (hs : isspace c = false)
    (hr : c ≠ 123 ∧ c ≠ 38 ∧ c ≠ 92) (hp : st.arg_ptr = none ∨ c ≠ 37) :
    topBranch st c = .ok (.ret (-5) st.p) := by
  have hst : strchr tokenchars c = false := by
    cases h : strchr tokenchars c with
    | false => rfl
    | true => rw [(strchr_tokenchars_iff c h0).1 h] at ht; cases ht
  have hsr : strchr [38, 92] c = false := by
    simp [strchr, h0, hr.2.1, hr.2.2]
  have hpp : ¬ (st.arg_ptr.isSome = true ∧ c = 37) := by
    rcases hp with hp | hp
    · simp [hp]
    · simp [hp]
  obtain ⟨e1, e2, e3, e4, e5, e6, e7⟩ := hd
  unfold topBranch
  simp only [e1, e2, e3, e4, e5, e6, e7, hr.1, hdig, hst, hs, hsr, hpp, if_false,
    Bool.false_eq_true]

/-- C21 fails at the byte 0: the test `strchr ( tokenchars, *p )` finds the NUL that ends
the string `tokenchars`, so that a NUL byte starts and continues a token although it is
not in the class; the 3-byte input `(`, NUL, `)` returns 0 with the atom of the one byte
0 in a list.  For every other byte the test is the class of the specification. -/
theorem C21_token_test_accepts_nul :
    strchr tokenchars 0 = true ∧ specTokenChar 0 = false ∧
    (∀ st, topBranch st 0 = .ok (.next { st with tokenp := some st.p })) ∧
    gcry_sexp_sscan [40, 0, 41] 3 = .ok (.done (some [3, 1, 1, 0, 0, 4, 0]) false) ∧
    (∀ c, c ≠ 0 → (strchr tokenchars c = true ↔ specTokenChar c = true)) := by
  refine ⟨by decide, by decide, fun st => ?_, by decide, strchr_tokenchars_iff⟩
  have h : strchr tokenchars 0 = true := by decide
  have hd : isdigit 0 = false := by decide
  unfold topBranch
  simp [h, hd]

/-! ### The block the scanner writes to -/

/-- C22 fails on the 22-byte input of six empty hex atoms `##` followed by
`#1 1 1 1 #`: when the last `#` is read 18 bytes are in the block of 24, `MAKE_SPACE (2)`
leaves the block as it is, and the tag, the length field and the four bytes the decoding
loop produces need 25 bytes: the last byte is stored outside the block. -/
theorem C22_hex_atom_overruns_block :
    hexLoop [35, 35, 35, 35, 35, 35, 35, 35, 35, 35, 35, 35,
             35, 49, 32, 49, 32, 49, 32, 49, 32, 35] 21 23 13 = .ok [16, 16, 16, 16] ∧
    make_space { sexp := [1, 0, 0, 1, 0, 0, 1, 0, 0, 1, 0, 0, 1, 0, 0, 1, 0, 0],
                 allocated := 24, secure := false } 2 =
      { sexp := [1, 0, 0, 1, 0, 0, 1, 0, 0, 1, 0, 0, 1, 0, 0, 1, 0, 0],
        allocated := 24, secure := false } ∧
    storeData { sexp := [1, 0, 0, 1, 0, 0, 1, 0, 0, 1, 0, 0, 1, 0, 0, 1, 0, 0],
                allocated := 24, secure := false } 2 [16, 16, 16, 16] = .err .oobWrite ∧
    gcry_sexp_sscan [35, 35, 35, 35, 35, 35, 35, 35, 35, 35, 35, 35,
                     35, 49, 32, 49, 32, 49, 32, 49, 32, 35] 22 = .err .oobWrite := by
  decide

/-! ### `gcry_mpi_cmp_ui` -/

/-- The function `gcry_mpi_cmp_ui` agrees with the order of the integers when `u` has a
limb in use or `v` is 0. -/
theorem cmp_ui_spec (B : Nat) (u : MPI) (v : Nat) (hu : u.normalized B) (hv : v < B)
    (h : u.nlimbs ≠ 0 ∨ v = 0) :
    ∃ r, gcry_mpi_cmp_ui u v = .ok r ∧ (r < 0 ↔ u.value B < v) ∧
      (r = 0 ↔ u.value B = v) ∧ (0 < r ↔ (v : Int) < u.value B) := by
  unfold gcry_mpi_cmp_ui
  simp only [normalize_id B u hu]
  unfold MPI.value
  by_cases hn : u.nlimbs = 0
  · have hv0 : v = 0 := by rcases h with h | h; exact absurd hn h; exact h
    have hs := hu.2.2.2 hn
    refine ⟨0, by simp [hn, hv0], ?_⟩
    simp [hn, hs, hv0, limbsVal]
  · obtain ⟨hB, hge, hpos⟩ := normalized_pos B u hu hn
    have hlt := limbsVal_lt B u.d u.nlimbs hu.2.1
    rw [if_neg (by simp [hn])]
    cases hs : u.sign
    · simp only [Bool.false_eq_true, if_false]
      by_cases h1 : u.nlimbs > 1
      · refine ⟨1, by simp [h1], ?_⟩
        have : B ^ 1 ≤ B ^ (u.nlimbs - 1) := Nat.pow_le_pow_right (by omega) (by omega)
        simp only [pow_one] at this
        have hvl : v < limbsVal B u.d u.nlimbs := by omega
        refine ⟨?_, ?_, ?_⟩ <;> constructor <;> intro hh <;> omega
      · have hn1 : u.nlimbs = 1 := by omega
        have hlen := hu.1
        obtain ⟨a, hd0, hga⟩ : ∃ a, u.d[0]? = some a ∧ u.d.getD 0 0 = a := by
          cases hd : u.d with
          | nil => rw [hd] at hlen; simp at hlen; omega
          | cons a r => exact ⟨a, by simp, by simp⟩
        have hval : limbsVal B u.d u.nlimbs = a := by
          rw [hn1]; simp only [limbsVal, pow_zero, Nat.mul_one, Nat.zero_add]; exact hga
        rw [if_neg h1, hd0, hval]
        show ∃ r, (if a = v then Res.ok 0 else if a > v then Res.ok 1 else Res.ok (-1)) =
          Res.ok r ∧ _
        by_cases e1 : a = v
        · refine ⟨0, by rw [if_pos e1], ?_⟩
          refine ⟨?_, ?_, ?_⟩ <;> constructor <;> intro hh <;> omega
        · by_cases e2 : a > v
          · refine ⟨1, by rw [if_neg e1, if_pos e2], ?_⟩
            refine ⟨?_, ?_, ?_⟩ <;> constructor <;> intro hh <;> omega
          · refine ⟨-1, by rw [if_neg e1, if_neg e2], ?_⟩
            refine ⟨?_, ?_, ?_⟩ <;> constructor <;> intro hh <;> omega
    · simp only [if_true]
      refine ⟨-1, rfl, ?_⟩
      refine ⟨?_, ?_, ?_⟩ <;> constructor <;> intro hh <;> omega

/-- C26 fails for `u = 0` held with no limb in use: `gcry_mpi_cmp_ui` reads `u->d[0]`
although `nlimbs` is 0 and compares that limb with `v`.  With the limb 5 left over in the
allocation the call with `v = 5` returns 0 and with the limb 7 it returns 1, where the
value 0 of `u` is the smaller; with no limb allocated the read is outside the block. -/
theorem C26_cmp_ui_reads_unused_limb :
    MPI.normalized (2 ^ 32) ⟨0, false, [5]⟩ ∧ MPI.value (2 ^ 32) ⟨0, false, [5]⟩ = 0 ∧
    gcry_mpi_cmp_ui ⟨0, false, [5]⟩ 5 = .ok 0 ∧
    gcry_mpi_cmp_ui ⟨0, false, [7]⟩ 5 = .ok 1 ∧
    gcry_mpi_cmp_ui ⟨0, false, []⟩ 5 = .err .oobRead ∧
    gcry_mpi_cmp_ui ⟨0, false, [5]⟩ 0 = .ok 0 := by
  refine ⟨⟨by decide, by decide, by decide, by decide⟩, by decide, by decide, by decide,
    by decide, by decide⟩

/-! ### From a tree to its canonical text and back -/

/-- The function `normalize` passes the block of a node stream that is not empty and
does not start with `ST_OPEN ST_CLOSE`. -/
theorem normalize_nodes (ns : List Node) (hne : ns ≠ [])
    (hoc : ∀ r, ns ≠ .opn :: .cls :: r) :
    normalize (some (encNodes ns ++ [ST_STOP])) = .ok (some (encNodes ns ++ [ST_STOP])) := by
  cases ns with
  | nil => exact absurd rfl hne
  | cons x xs =>
    cases x with
    | data b => simp [normalize, encNodes, Node.enc, encData, ST_DATA, ST_STOP, ST_OPEN]
    | cls => simp [normalize, encNodes, Node.enc, ST_CLOSE, ST_STOP, ST_OPEN]
    | opn =>
      cases xs with
      | nil => simp [normalize, encNodes, Node.enc, ST_CLOSE, ST_STOP, ST_OPEN]
      | cons y ys =>
        cases y with
        | data b =>
          simp [normalize, encNodes, Node.enc, encData, ST_DATA, ST_CLOSE, ST_STOP, ST_OPEN]
        | opn => simp [normalize, encNodes, Node.enc, ST_CLOSE, ST_STOP, ST_OPEN]
        | cls => exact absurd rfl (hoc ys)

/-- C23: for every stream `ns` of `ST_OPEN`, `ST_CLOSE` and `ST_DATA` nodes with payloads
of 1 to 65535 bytes that is not empty and does not start with `ST_OPEN ST_CLOSE`, the
serializer in canonical mode, given room, stores the canonical text of the tree and a
NUL and returns the length of the text; on that buffer and length `gcry_sexp_sscan`
returns 0 with a tree equal to the first one byte for byte. -/
theorem C23_roundtrip_from_tree (ns : List Node) (hns : ∀ x ∈ ns, x.printable)
    (hne : ns ≠ []) (hoc : ∀ r, ns ≠ .opn :: .cls :: r) (maxlength : Nat)
    (hl : (textNodes false ns).length < maxlength) :
    gcry_sexp_sprint (some (encNodes ns ++ [ST_STOP])) GCRYSEXP_FMT_CANON true maxlength =
      .ok ((textNodes false ns).length, textNodes false ns ++ [0]) ∧
    gcry_sexp_sscan (textNodes false ns ++ [0]) (textNodes false ns).length =
      .ok (.done (some (encNodes ns ++ [ST_STOP])) false) := by
  have hv : ∀ x ∈ ns, x.valid := by
    intro x hx
    have := hns x hx
    cases x with
    | data b => exact this.2
    | opn => trivial
    | cls => trivial
  refine ⟨?_, ?_⟩
  · have := sprint_fits ns hv GCRYSEXP_FMT_CANON maxlength (by simpa using hl)
    simpa using this
  · rw [sscan_text ns hns [0], normalize_nodes ns hne hoc]

/-- C23 at the tree `ST_OPEN`, atom `a`, atom `bc`, `ST_CLOSE`, `ST_STOP`: its canonical text
is `(1:a2:bc)`, which scans to the same tree. -/
theorem C23_roundtrip_from_tree_witness :
    gcry_sexp_sprint (some [3, 1, 1, 0, 97, 1, 2, 0, 98, 99, 4, 0]) GCRYSEXP_FMT_CANON
        true 10 =
      .ok (9, [40, 49, 58, 97, 50, 58, 98, 99, 41, 0]) ∧
    gcry_sexp_sscan [40, 49, 58, 97, 50, 58, 98, 99, 41, 0] 9 =
      .ok (.done (some [3, 1, 1, 0, 97, 1, 2, 0, 98, 99, 4, 0]) false) :=
  C23_roundtrip_from_tree [.opn, .data [97], .data [98, 99], .cls] (by decide) (by decide)
    (by intro r h; cases h) 10 (by decide)

/-! ### The buffer of the serializer -/

/-- The serializer loop on a well-formed node stream never stores outside the buffer:
it ends without a fault, and the bytes stored are at most `maxlength`. -/
theorem sprintLoop_bounded (d : List Nat) (mode : Int) (maxlength : Nat) (ns : List Node)
    (hv : ∀ x ∈ ns, x.valid) :
    ∀ (fuel s len : Nat) (out r : List Nat), ns.length < fuel →
      d.drop s = encNodes ns ++ ST_STOP :: r → out.length = len → len ≤ maxlength →
      ∃ res o, sprintLoop d mode true maxlength fuel s len out = .ok (res, o) ∧
        o.length ≤ maxlength ∧ out <+: o := by
  induction ns with
  | nil =>
    intro fuel s len out r hf hd ho hl
    obtain ⟨f, rfl⟩ := exists_succ_of_lt hf
    simp only [encNodes, List.nil_append] at hd
    rw [sprintLoop_stop hd]
    simp only [if_true]
    by_cases h : len ≥ maxlength
    · exact ⟨0, out, by rw [if_pos h], by omega, List.prefix_refl _⟩
    · exact ⟨len, out ++ [0], by rw [if_neg h, if_pos (by omega)], by simp; omega,
        List.prefix_append _ _⟩
  | cons x xs ih =>
    intro fuel s len out r hf hd ho hl
    have hx : x.valid := hv x (List.mem_cons_self _ _)
    have ih := ih (fun y hy => hv y (List.mem_cons_of_mem _ hy))
    obtain ⟨f, rfl⟩ := exists_succ_of_lt hf
    have hf' : xs.length < f := by simp at hf; omega
    simp only [encNodes, List.append_assoc] at hd
    rw [sprintLoop_node_buf x hx hd ho]
    by_cases h : len + (x.text (decide (mode ≠ GCRYSEXP_FMT_CANON))).length ≥ maxlength
    · exact ⟨0, out, by rw [if_pos h], by omega, List.prefix_refl _⟩
    · rw [if_neg h]
      obtain ⟨res, o, h1, h2, h3⟩ := ih f (s + x.enc.length)
        (len + (x.text (decide (mode ≠ GCRYSEXP_FMT_CANON))).length)
        (out ++ x.text (decide (mode ≠ GCRYSEXP_FMT_CANON))) r hf' (drop_of_drop hd)
        (by simp [ho]) (by omega)
      exact ⟨res, o, h1, h2, (List.prefix_append _ _).trans h3⟩

/-- C25: for every well-formed tree, and for the null tree, every mode and every
capacity `maxlength`, the call of `gcry_sexp_sprint` with a buffer ends without a store
outside the buffer, whether it returns the length or 0: the bytes it has stored, the
final NUL and the newline of the advanced mode among them, are at most `maxlength`. -/
theorem C25_sprint_stays_in_buffer (ns : List Node) (hv : ∀ x ∈ ns, x.valid) (mode : Int)
    (maxlength : Nat) :
    (∃ res out, gcry_sexp_sprint (some (encNodes ns ++ [ST_STOP])) mode true maxlength =
      .ok (res, out) ∧ out.length ≤ maxlength) ∧
    (∃ res out, gcry_sexp_sprint none mode true maxlength = .ok (res, out) ∧
      out.length ≤ maxlength) := by
  have key : ∀ ms : List Node, (∀ x ∈ ms, x.valid) →
      ∃ res out, gcry_sexp_sprint (some (encNodes ms ++ [ST_STOP])) mode true maxlength =
        .ok (res, out) ∧ out.length ≤ maxlength := by
    intro ms hms
    unfold gcry_sexp_sprint
    obtain ⟨res, o, h1, h2, _⟩ := sprintLoop_bounded (encNodes ms ++ [ST_STOP]) mode
      maxlength ms hms ((encNodes ms ++ [ST_STOP]).length + 1) 0 0 [] []
      (by have := length_encNodes_ge ms; simp; omega) (by simp) rfl (Nat.zero_le _)
    exact ⟨res, o, h1, h2⟩
  refine ⟨key ns hv, ?_⟩
  rw [sprint_null]
  exact key [.opn, .cls] (by decide)

/-- C25 at the tree of `(1:a)`, advanced mode (3) and a buffer of 5 bytes: the call
returns 0 after it has stored the four bytes `(1:a`. -/
theorem C25_sprint_stays_in_buffer_witness :
    gcry_sexp_sprint (some [3, 1, 1, 0, 97, 4, 0]) 3 true 5 = .ok (0, [40, 49, 58, 97]) ∧
    (∃ res out, gcry_sexp_sprint (some [3, 1, 1, 0, 97, 4, 0]) 3 true 5 = .ok (res, out) ∧
      out.length ≤ 5) :=
  ⟨by decide, (C25_sprint_stays_in_buffer [.opn, .data [97], .cls] (by decide) 3 5).1⟩

/-! ### `gcry_sexp_find_token` on the node stream -/

theorem encNodes_append (a b : List Node) : encNodes (a ++ b) = encNodes a ++ encNodes b := by
  induction a with
  | nil => rfl
  | cons x xs ih => simp [encNodes, ih]

/-- The bytes of a sequence of elements are the bytes of its node stream. -/
theorem flat_eq_encNodes (F : Elems) : F.flat = encNodes F.nodes := by
  induction F with
  | nil => rfl
  | atom b rest ih => simp [Elems.flat, Elems.nodes, encNodes, Node.enc, ih]
  | list i rest ih1 ih2 =>
    simp [Elems.flat, Elems.nodes, encNodes, Node.enc, encNodes_append, ih1, ih2]

theorem span_eq_encNodes (inner : Elems) :
    span inner = encNodes (.opn :: (inner.nodes ++ [.cls])) := by
  simp [span, encNodes, Node.enc, encNodes_append, flat_eq_encNodes]

theorem openAt_succ (tok : List Nat) (x : Node) (ns : List Node) (i : Nat) :
    openAt tok (x :: ns) (i + 1) ↔ openAt tok ns i := by
  simp [openAt]

theorem openAt_zero (tok : List Nat) (x : Node) (ns : List Node) :
    openAt tok (x :: ns) 0 ↔ x = .opn ∧ ns[0]? = some (.data tok) := by
  simp [openAt]

theorem head_nodes (tok : List Nat) (inner : Elems) (r : List Node) :
    (inner.nodes ++ .cls :: r)[0]? = some (.data tok) ↔ inner.headIs tok = true := by
  cases inner with
  | nil => simp [Elems.nodes, Elems.headIs]
  | atom b rest => simp [Elems.nodes, Elems.headIs]
  | list i rest => simp [Elems.nodes, Elems.headIs]

/-- A list headed by `tok` inside `a`, `ST_CLOSE`, `b` starts inside `a` or inside `b`. -/
theorem openAt_append_cls (tok : List Nat) (a b : List Node) (k : Nat) :
    openAt tok (a ++ .cls :: b) k ↔
      (k < a.length ∧ openAt tok a k) ∨ (a.length < k ∧ openAt tok b (k - a.length - 1)) := by
  unfold openAt
  rcases Nat.lt_trichotomy k a.length with h | h | h
  · rw [List.getElem?_append_left h]
    by_cases h1 : k + 1 < a.length
    · rw [List.getElem?_append_left h1]
      constructor
      · intro hh; exact Or.inl ⟨h, hh⟩
      · rintro (⟨_, hh⟩ | ⟨hc, _⟩)
        · exact hh
        · omega
    · have e : k + 1 = a.length := by omega
      rw [List.getElem?_append_right (by omega), e, Nat.sub_self]
      have hn : a[a.length]? = none := List.getElem?_eq_none (Nat.le_refl _)
      constructor
      · rintro ⟨_, hh⟩; simp at hh
      · rintro (⟨_, _, hh⟩ | ⟨hc, _⟩)
        · rw [hn] at hh; cases hh
        · omega
  · rw [h, List.getElem?_append_right (Nat.le_refl _), Nat.sub_self]
    constructor
    · rintro ⟨hh, _⟩; simp at hh
    · rintro (⟨hc, _⟩ | ⟨hc, _⟩) <;> omega
  · rw [List.getElem?_append_right (by omega), List.getElem?_append_right (by omega)]
    have e1 : k - a.length = (k - a.length - 1) + 1 := by omega
    have e2 : k + 1 - a.length = (k - a.length - 1) + 1 + 1 := by omega
    rw [e1, e2]
    simp only [List.getElem?_cons_succ]
    constructor
    · intro hh; exact Or.inr ⟨h, by simpa using hh⟩
    · rintro (⟨hc, _⟩ | ⟨_, hh⟩)
      · omega
      · simpa using hh

/-- What `Elems.find` returns, read on the node stream: nothing when no position holds
`ST_OPEN` followed by the atom `tok`; otherwise the sub-list that starts at the first
such position. -/
theorem find_nodes (tok : List Nat) (F : Elems) :
    (F.find tok = none → ∀ i, ¬ openAt tok F.nodes i) ∧
    (∀ inner, F.find tok = some inner →
      ∃ pre post, F.nodes = pre ++ .opn :: (inner.nodes ++ .cls :: post) ∧
        ∀ j, j < pre.length → ¬ openAt tok F.nodes j) := by
  induction F with
  | nil =>
    refine ⟨fun _ i h => ?_, fun inner h => by simp [Elems.find] at h⟩
    simp [openAt, Elems.nodes] at h
  | atom b rest ih =>
    obtain ⟨ih1, ih2⟩ := ih
    have hz : ¬ openAt tok (Node.data b :: rest.nodes) 0 := by
      rw [openAt_zero]; rintro ⟨h, _⟩; cases h
    refine ⟨fun hf i h => ?_, fun inner hf => ?_⟩
    · simp only [Elems.find] at hf
      simp only [Elems.nodes] at h
      cases i with
      | zero => exact hz h
      | succ k => exact ih1 hf k ((openAt_succ _ _ _ _).1 h)
    · simp only [Elems.find] at hf
      obtain ⟨pre, post, he, hfirst⟩ := ih2 inner hf
      refine ⟨.data b :: pre, post, by simp [Elems.nodes, he], fun j hj h => ?_⟩
      simp only [Elems.nodes] at h
      cases j with
      | zero => exact hz h
      | succ k =>
        exact hfirst k (by simpa using hj) ((openAt_succ _ _ _ _).1 h)
  | list i rest ihi ihr =>
    obtain ⟨i1, i2⟩ := ihi
    obtain ⟨r1, r2⟩ := ihr
    have hz : openAt tok (Node.opn :: (i.nodes ++ .cls :: rest.nodes)) 0 ↔
        i.headIs tok = true := by
      rw [openAt_zero, head_nodes]; simp
    by_cases hh : i.headIs tok = true
    · refine ⟨fun hf => by simp [Elems.find, hh] at hf, fun inner hf => ?_⟩
      simp only [Elems.find, hh, if_true, Option.some.injEq] at hf
      subst hf
      exact ⟨[], rest.nodes, by simp [Elems.nodes], fun j hj => by simp at hj⟩
    · cases hfi : i.find tok with
      | some s =>
        refine ⟨fun hf => by simp [Elems.find, hh, hfi] at hf, fun inner hf => ?_⟩
        simp only [Elems.find, hh, hfi, Bool.false_eq_true, if_false,
          Option.some.injEq] at hf
        subst hf
        obtain ⟨pre, post, he, hfirst⟩ := i2 s hfi
        refine ⟨.opn :: pre, post ++ .cls :: rest.nodes, by simp [Elems.nodes, he],
          fun j hj h => ?_⟩
        simp only [Elems.nodes] at h
        have hpl : pre.length < i.nodes.length := by rw [he]; simp
        cases j with
        | zero => exact hh (hz.1 h)
        | succ k =>
          have hk : k < pre.length := by simpa using hj
          rcases (openAt_append_cls _ _ _ _).1 ((openAt_succ _ _ _ _).1 h) with
            ⟨_, h1⟩ | ⟨h1, _⟩
          · exact hfirst k hk h1
          · omega
      | none =>
        have hi := i1 hfi
        refine ⟨fun hf j h => ?_, fun inner hf => ?_⟩
        · have hfr : rest.find tok = none := by
            simpa only [Elems.find, hh, hfi, Bool.false_eq_true, if_false] using hf
          simp only [Elems.nodes] at h
          cases j with
          | zero => exact hh (hz.1 h)
          | succ k =>
            rcases (openAt_append_cls _ _ _ _).1 ((openAt_succ _ _ _ _).1 h) with
              ⟨_, h1⟩ | ⟨_, h1⟩
            · exact hi k h1
            · exact r1 hfr _ h1
        · have hfr : rest.find tok = some inner := by
            simpa only [Elems.find, hh, hfi, Bool.false_eq_true, if_false] using hf
          obtain ⟨pre, post, he, hfirst⟩ := r2 inner hfr
          refine ⟨.opn :: (i.nodes ++ .cls :: pre), post, by simp [Elems.nodes, he],
            fun j hj h => ?_⟩
          simp only [Elems.nodes] at h
          cases j with
          | zero => exact hh (hz.1 h)
          | succ k =>
            have hk : k < i.nodes.length + 1 + pre.length := by
              simp at hj; omega
            rcases (openAt_append_cls _ _ _ _).1 ((openAt_succ _ _ _ _).1 h) with
              ⟨_, h1⟩ | ⟨h0, h1⟩
            · exact hi k h1
            · exact hfirst _ (by omega) h1

/-- C24: for every well-formed tree `L` (the node stream of a sequence of elements `F`
with 16-bit atom lengths, ended by `ST_STOP`) shorter than 65536 bytes and every token
`tok` of at least one byte, `gcry_sexp_find_token` returns the null tree exactly when no
position of the node stream holds `ST_OPEN` followed by the atom `tok`; otherwise it
returns the bytes from the first such `ST_OPEN` through its matching `ST_CLOSE` (the
sub-list `inner` that starts there), followed by `ST_STOP`. -/
theorem C24_find_token_exact (F : Elems) (hv : F.valid) (tok : List Nat)
    (hs : (encNodes F.nodes ++ [ST_STOP]).length < 65536) (h1 : 1 ≤ tok.length) :
    (gcry_sexp_find_token (some (encNodes F.nodes ++ [ST_STOP])) tok tok.length = .ok none ↔
      ¬ ∃ i, openAt tok F.nodes i) ∧
    ((∃ i, openAt tok F.nodes i) →
      ∃ (pre : List Node) (inner : Elems) (post : List Node), F.nodes = pre ++ .opn :: (inner.nodes ++ .cls :: post) ∧
        openAt tok F.nodes pre.length ∧ (∀ j, j < pre.length → ¬ openAt tok F.nodes j) ∧
        gcry_sexp_find_token (some (encNodes F.nodes ++ [ST_STOP])) tok tok.length =
          .ok (some (encNodes (.opn :: (inner.nodes ++ [.cls])) ++ [ST_STOP]))) := by
  have htok : tok ≠ [] := by
    intro h; rw [h] at h1; simp at h1
  obtain ⟨hnone, hsome⟩ := find_nodes tok F
  rw [← flat_eq_encNodes] at hs ⊢
  cases hf : F.find tok with
  | none =>
    have hr : gcry_sexp_find_token (some (F.flat ++ [ST_STOP])) tok tok.length = .ok none := by
      rw [find_token_spec F hv tok htok, hf]
    refine ⟨⟨fun _ ⟨i, hi⟩ => hnone hf i hi, fun _ => hr⟩, fun ⟨i, hi⟩ => ?_⟩
    exact absurd hi (hnone hf i)
  | some inner =>
    obtain ⟨pre, post, he, hfirst⟩ := hsome inner hf
    have hlen : (span inner).length < 65536 := by
      have e : F.flat = encNodes pre ++ (span inner ++ encNodes post) := by
        rw [flat_eq_encNodes, he, span_eq_encNodes]
        simp [encNodes_append, encNodes, Node.enc]
      rw [e] at hs
      simp only [List.length_append] at hs
      omega
    obtain ⟨hr, rest, hi⟩ := find_token_small F hv tok htok inner hf hlen
    have hat : openAt tok F.nodes pre.length := by
      rw [he, hi]
      constructor
      · rw [List.getElem?_append_right (Nat.le_refl _), Nat.sub_self]
        rfl
      · rw [List.getElem?_append_right (by omega)]
        have : pre.length + 1 - pre.length = 0 + 1 := by omega
        rw [this]
        simp [Elems.nodes]
    rw [span_eq_encNodes] at hr
    refine ⟨⟨fun h => ?_, fun h => absurd ⟨pre.length, hat⟩ h⟩, fun _ =>
      ⟨pre, inner, post, he, hat, hfirst, hr⟩⟩
    rw [hr] at h
    cases h

/-- C24 at the tree of `(foo (bar x))`: the call with the token `bar` returns the tree of
`(bar x)`, which starts at the `ST_OPEN` at position 2 of the node stream, and the call
with the token `x` returns the null tree, `x` not being the first element of a list. -/
theorem C24_find_token_exact_witness :
    gcry_sexp_find_token (some [3, 1, 3, 0, 102, 111, 111, 3, 1, 3, 0, 98, 97, 114,
        1, 1, 0, 120, 4, 4, 0]) [98, 97, 114] 3 =
      .ok (some [3, 1, 3, 0, 98, 97, 114, 1, 1, 0, 120, 4, 0]) ∧
    openAt [98, 97, 114]
      [.opn, .data [102, 111, 111], .opn, .data [98, 97, 114], .data [120], .cls, .cls] 2 ∧
    (gcry_sexp_find_token (some [3, 1, 3, 0, 102, 111, 111, 3, 1, 3, 0, 98, 97, 114,
        1, 1, 0, 120, 4, 4, 0]) [120] 1 = .ok none ↔
      ¬ ∃ i, openAt [120]
        [.opn, .data [102, 111, 111], .opn, .data [98, 97, 114], .data [120], .cls, .cls]
        i) :=
  ⟨by decide, by decide,
   (C24_find_token_exact
      (.list (.atom [102, 111, 111] (.list (.atom [98, 97, 114] (.atom [120] .nil)) .nil))
        .nil)
      ⟨⟨by decide, ⟨⟨by decide, by decide, trivial⟩, trivial⟩⟩, trivial⟩ [120] (by decide)
      (by decide)).1⟩

/-! ### Balance of the node stream -/

theorem depthAfter_nodes (F : Elems) :
    ∀ (r : List Node) (d : Nat), depthAfter (F.nodes ++ r) d = depthAfter r d := by
  induction F with
  | nil => intro r d; rfl
  | atom b rest ih => intro r d; simp [Elems.nodes, depthAfter, ih]
  | list i rest ih1 ih2 =>
    intro r d
    show depthAfter (.opn :: ((i.nodes ++ .cls :: rest.nodes) ++ r)) d = _
    rw [depthAfter, List.append_assoc, ih1]
    show depthAfter (.cls :: (rest.nodes ++ r)) (d + 1) = _
    rw [depthAfter, if_neg (by omega), ih2]
    rfl

/-- The node stream of a sequence of elements is balanced. -/
theorem balanced_nodes (F : Elems) : balanced F.nodes = true := by
  have := depthAfter_nodes F [] 0
  simp only [List.append_nil] at this
  simp [balanced, this, depthAfter]

/-- On the canonical text of a balanced node stream, given by a sequence of elements
`F` with atoms of 1 to 65535 bytes, the scanner emits that stream: the parentheses of
such an input come out as balanced tags. -/
theorem sscan_balanced_text (F : Elems) (hF : ∀ x ∈ F.nodes, x.printable) (tl : List Nat) :
    balanced F.nodes = true ∧
    gcry_sexp_sscan (textNodes false F.nodes ++ tl) (textNodes false F.nodes).length =
      match normalize (some (encNodes F.nodes ++ [ST_STOP])) with
      | .err e => .err e
      | .ok t => .ok (.done t false) :=
  ⟨balanced_nodes F, sscan_text F.nodes hF tl⟩

end Libgcrypt
